import Mathlib

/-!
# Buffer cache of `kernel/bio.c`

A shallow embedding of the hashed buffer cache (`binit`, `bget`, `bread`,
`bwrite`, `brelse`, `bpin`, `bunpin`) together with the invariants of its
bucket chains.

* Pointers `struct buf *` into the pool are indices `j` of `bcache.buf[j]`;
  the null pointer is `none`.  The dummy heads `bcache.buckets[i]` only carry
  a `next` field.
* C `uint` arithmetic is arithmetic on `Nat` modulo `2^32`.
* `NBUF` comes from `param.h`, which is not part of the sources; it is a
  parameter of every definition that depends on it.
* Loops that follow `next` pointers are given `NBUF + 1` units of fuel: a walk
  over pool buffers that has not ended after `NBUF` nodes has met a node twice
  and, the chain being unchanged during the walk, never ends.
-/

namespace Bio

/-! ## Data model -/

/-- The constant `NBUCKET` (bio.c line 26). -/
def NBUCKET : Nat := 13

/-- Number of values of the C type `uint`. -/
def UINT : Nat := 4294967296

/-- The value `(uint)-1` that `bget` stores in `holding_bucket` (bio.c line 169). -/
def NOBUCKET : Nat := 4294967295

/-- The hash `BUC(dev, blockno)` (bio.c line 28) on `uint` operands: the left shift
keeps the low 32 bits. -/
def BUC (dev blockno : Nat) : Nat :=
  (((dev <<< 27) % UINT) ||| blockno) % NBUCKET

/-- The record `struct buf` (buf.h).  Field `lock` is the sleep lock, see `acquiresleep`;
`next` is the chain link; `data` is the block. -/
structure Buf where
  valid : Nat
  disk : Nat
  dev : Nat
  blockno : Nat
  lock : Option Nat
  refcnt : Nat
  last_used : Nat
  next : Option Nat
  data : List Nat
deriving DecidableEq

/-- A buffer of all-zero memory. -/
def Buf.zero : Buf :=
  { valid := 0, disk := 0, dev := 0, blockno := 0, lock := none, refcnt := 0,
    last_used := 0, next := none, data := [] }

/-- The spinlocks of `bcache`: `evic_lock` and `locks[i]`. -/
inductive Lock where
  | evic
  | bucket (i : Nat)
deriving DecidableEq

/-- A spinlock event of the running thread. -/
inductive Ev where
  | acq (l : Lock)
  | rel (l : Lock)
deriving DecidableEq

/-- The state: `bcache.buckets[i].next`, `bcache.buf[j]`, the disk behind the driver,
the number of block reads and writes issued to the driver, and the spinlock events so far. -/
structure State where
  buckets : Nat → Option Nat
  buf : Nat → Buf
  disk : Nat → Nat → List Nat
  nread : Nat
  nwrite : Nat
  log : List Ev

/-- A `struct buf *` that may also point at a dummy head: `&bcache.buckets[i]` or
`&bcache.buf[j]`. -/
inductive Ref where
  | head (i : Nat)
  | slot (j : Nat)
deriving DecidableEq

/-- How a call ends: it returns, it panics, it sleeps in `acquiresleep` on buffer `b`
whose sleep lock is taken, it dereferences a null pointer, or it walks a cyclic chain
for ever. -/
inductive Outcome (α : Type) where
  | ok (s : State) (r : α)
  | panic (msg : String) (s : State)
  | blocked (s : State) (b : Nat)
  | fault
  | diverge

/-- The state a call leaves behind, when it ends or sleeps. -/
def Outcome.state? {α : Type} : Outcome α → Option State
  | .ok s _ => some s
  | .panic _ s => some s
  | .blocked s _ => some s
  | .fault => none
  | .diverge => none

/-- Pointwise update of a table. -/
def upd {α : Type} (f : Nat → α) (i : Nat) (v : α) : Nat → α :=
  fun k => if k = i then v else f k

/-- Rewrite the fields of `bcache.buf[j]`. -/
def State.setBuf (s : State) (j : Nat) (f : Buf → Buf) : State :=
  { s with buf := upd s.buf j (f (s.buf j)) }

/-- The field `r->next`. -/
def State.next (s : State) : Ref → Option Nat
  | .head i => s.buckets i
  | .slot j => (s.buf j).next

/-- The assignment `r->next = v`. -/
def State.setNext (s : State) (r : Ref) (v : Option Nat) : State :=
  match r with
  | .head i => { s with buckets := upd s.buckets i v }
  | .slot j => s.setBuf j (fun b => { b with next := v })

/-- Modelled from the spec: the spinlock primitive `acquire` (spinlock.c is not part of
the sources); the acquisition is recorded in the event log. -/
def acquire (s : State) (l : Lock) : State :=
  { s with log := s.log ++ [Ev.acq l] }

/-- Modelled from the spec: the spinlock primitive `release`; recorded in the event log. -/
def release (s : State) (l : Lock) : State :=
  { s with log := s.log ++ [Ev.rel l] }

/-- Modelled from the spec: the sleep lock (sleeplock.c is not part of the sources), a
blocking lock held by the caller that uses the buffer.  Field `lock` of a buffer is the
pid of the holder, `none` when the lock is free.  `acquiresleep` takes a free lock; on a
taken lock the caller sleeps, which is result `none`. -/
def acquiresleep (pid : Nat) (s : State) (b : Nat) : Option State :=
  match (s.buf b).lock with
  | none => some (s.setBuf b (fun x => { x with lock := some pid }))
  | some _ => none

/-- Modelled from the spec: `releasesleep` frees the sleep lock. -/
def releasesleep (s : State) (b : Nat) : State :=
  s.setBuf b (fun x => { x with lock := none })

/-- Modelled from the spec: `holdingsleep`, does the caller hold the sleep lock. -/
def holdingsleep (pid : Nat) (s : State) (b : Nat) : Bool :=
  decide ((s.buf b).lock = some pid)

/-- Modelled from the spec: the disk driver `virtio_disk_rw(b, write)`, a blocking
transfer between `b->data` and block `(b->dev, b->blockno)` of the disk. -/
def virtio_disk_rw (s : State) (b : Nat) (write : Bool) : State :=
  if write then
    { s with
      disk := fun d n =>
        if d = (s.buf b).dev ∧ n = (s.buf b).blockno then (s.buf b).data else s.disk d n
      nwrite := s.nwrite + 1 }
  else
    { s.setBuf b (fun x => { x with data := s.disk x.dev x.blockno }) with
      nread := s.nread + 1 }

/-! ## `binit` -/

/-- Body of the first loop of `binit` (bio.c lines 51-55). -/
def binitBucket (s : State) (i : Nat) : State :=
  { s with buckets := upd s.buckets i none }

/-- Body of the second loop of `binit` (bio.c lines 58-67). -/
def binitBuf (s : State) (i : Nat) : State :=
  let s1 := s.setBuf i (fun b =>
    { b with lock := none, last_used := 0, refcnt := 0, next := s.buckets 0 })
  { s1 with buckets := upd s1.buckets 0 (some i) }

/-- The function `binit` (bio.c lines 48-70). -/
def binit (NBUF : Nat) (s : State) : State :=
  (List.range NBUF).foldl binitBuf ((List.range NBUCKET).foldl binitBucket s)

/-- Memory at boot: `bcache` lies in zero-initialised storage; the disk is arbitrary. -/
def boot (d : Nat → Nat → List Nat) : State :=
  { buckets := fun _ => none, buf := fun _ => Buf.zero, disk := d, nread := 0, nwrite := 0,
    log := [] }

/-! ## `bget` -/

/-- The lookup loop `for (b = p; b; b = b->next)` of `bget` (bio.c lines 114-123 and
149-160): `some (some b)` when the walk meets a buffer of the key, `some none` when it
reaches the end of the chain, `none` when it never ends. -/
def lookup (s : State) (dev blockno : Nat) : Nat → Option Nat → Option (Option Nat)
  | 0, _ => none
  | _ + 1, none => some none
  | fuel + 1, some b =>
    if (s.buf b).dev = dev ∧ (s.buf b).blockno = blockno then some (some b)
    else lookup s dev blockno fuel (s.buf b).next

/-- The value `before_least->next->last_used` (bio.c line 179).  The scan only stores a
pointer whose `next` is not null; a null `next` is read as 0 here. -/
def lastUsedAfter (s : State) (r : Ref) : Nat :=
  match s.next r with
  | some m => (s.buf m).last_used
  | none => 0

/-- The test of bio.c line 179 on the buffer `n = b->next`. -/
def better (s : State) (n : Nat) (before_least : Option Ref) : Bool :=
  decide ((s.buf n).refcnt = 0) &&
    (match before_least with
     | none => true
     | some r => decide ((s.buf n).last_used < lastUsedAfter s r))

/-- The inner loop of the victim scan (bio.c lines 177-184), from pointer `b`, with the
current `before_least` and `newfound`; `none` when the walk never ends. -/
def scanChain (s : State) : Nat → Ref → Option Ref → Bool → Option (Option Ref × Bool)
  | 0, _, _, _ => none
  | fuel + 1, b, before_least, newfound =>
    match s.next b with
    | none => some (before_least, newfound)
    | some n =>
      if better s n before_least then scanChain s fuel (.slot n) (some b) true
      else scanChain s fuel (.slot n) before_least newfound

/-- The outer loop of the victim scan (bio.c lines 170-196) over the bucket indices still
to visit, with the current `before_least` and `holding_bucket`. -/
def scanBuckets (NBUF : Nat) :
    List Nat → State → Option Ref → Nat → Option (State × Option Ref × Nat)
  | [], s, before_least, holding_bucket => some (s, before_least, holding_bucket)
  | i :: rest, s, before_least, holding_bucket =>
    let s1 := acquire s (.bucket i)
    match scanChain s1 (NBUF + 1) (.head i) before_least false with
    | none => none
    | some (bl, newfound) =>
      if newfound = false then
        scanBuckets NBUF rest (release s1 (.bucket i)) bl holding_bucket
      else
        scanBuckets NBUF rest
          (if holding_bucket ≠ NOBUCKET then release s1 (.bucket holding_bucket) else s1) bl i

/-- The end of every returning path of `bget`: `acquiresleep(&b->lock); return b;`. -/
def sleepReturn (pid : Nat) (s : State) (b : Nat) : Outcome Nat :=
  match acquiresleep pid s b with
  | some s1 => .ok s1 b
  | none => .blocked s b

/-- The statement `b->refcnt++` on a `uint`. -/
def incRef (s : State) (b : Nat) : State :=
  s.setBuf b (fun x => { x with refcnt := (x.refcnt + 1) % UINT })

/-- The statement `b->refcnt--` on a `uint`. -/
def decRef (s : State) (b : Nat) : State :=
  s.setBuf b (fun x => { x with refcnt := (x.refcnt + (UINT - 1)) % UINT })

/-- Phase D of `bget` (bio.c lines 201-221): rebind the buffer after `before_least`. -/
def rebind (pid : Nat) (s : State) (dev blockno : Nat) (before_least : Ref)
    (holding_bucket : Nat) : Outcome Nat :=
  let key := BUC dev blockno
  match s.next before_least with
  | none => .fault
  | some b =>
    let s4 :=
      if holding_bucket ≠ key then
        let t1 := s.setNext before_least (s.buf b).next
        let t2 := acquire (release t1 (.bucket holding_bucket)) (.bucket key)
        let t3 := t2.setBuf b (fun x => { x with next := t2.buckets key })
        { t3 with buckets := upd t3.buckets key (some b) }
      else s
    let s5 := s4.setBuf b (fun x =>
      { x with dev := dev, blockno := blockno, refcnt := 1, valid := 0 })
    let s6 := release (release s5 (.bucket key)) .evic
    sleepReturn pid s6 b

/-- The function `bget` (bio.c lines 104-222), called by process `pid`. -/
def bget (NBUF pid : Nat) (s0 : State) (dev blockno : Nat) : Outcome Nat :=
  let key := BUC dev blockno
  let s1 := acquire s0 (.bucket key)
  match lookup s1 dev blockno (NBUF + 1) (s1.buckets key) with
  | none => .diverge
  | some (some b) =>
    sleepReturn pid (release (incRef s1 b) (.bucket key)) b
  | some none =>
    let s2 := acquire (release s1 (.bucket key)) .evic
    match lookup s2 dev blockno (NBUF + 1) (s2.buckets key) with
    | none => .diverge
    | some (some b) =>
      let s3 := incRef (acquire s2 (.bucket key)) b
      sleepReturn pid (release (release s3 (.bucket key)) .evic) b
    | some none =>
      match scanBuckets NBUF (List.range NBUCKET) s2 none NOBUCKET with
      | none => .diverge
      | some (s3, none, _) => .panic "bget: no buffers" s3
      | some (s3, some before_least, holding_bucket) =>
        rebind pid s3 dev blockno before_least holding_bucket

/-! ## `bread`, `bwrite`, `brelse`, `bpin`, `bunpin` -/

/-- The function `bread` (bio.c lines 367-378). -/
def bread (NBUF pid : Nat) (s : State) (dev blockno : Nat) : Outcome Nat :=
  match bget NBUF pid s dev blockno with
  | .ok s1 b =>
    if (s1.buf b).valid = 0 then
      .ok ((virtio_disk_rw s1 b false).setBuf b (fun x => { x with valid := 1 })) b
    else .ok s1 b
  | o => o

/-- The function `bwrite` (bio.c lines 381-387). -/
def bwrite (pid : Nat) (s : State) (b : Nat) : Outcome Unit :=
  if holdingsleep pid s b = false then .panic "bwrite" s
  else .ok (virtio_disk_rw s b true) ()

/-- The function `brelse` (bio.c lines 389-401); `ticks` is the value of the global tick
counter when line 399 reads it. -/
def brelse (pid ticks : Nat) (s : State) (b : Nat) : Outcome Unit :=
  if holdingsleep pid s b = false then .panic "brelse" s
  else
    let s1 := releasesleep s b
    let key := BUC (s1.buf b).dev (s1.buf b).blockno
    let s2 := decRef (acquire s1 (.bucket key)) b
    let s3 := if (s2.buf b).refcnt = 0 then s2.setBuf b (fun x => { x with last_used := ticks })
      else s2
    .ok (release s3 (.bucket key)) ()

/-- The function `bpin` (bio.c lines 428-436). -/
def bpin (s : State) (b : Nat) : State :=
  let key := BUC (s.buf b).dev (s.buf b).blockno
  release (incRef (acquire s (.bucket key)) b) (.bucket key)

/-- The function `bunpin` (bio.c lines 438-446). -/
def bunpin (s : State) (b : Nat) : State :=
  let key := BUC (s.buf b).dev (s.buf b).blockno
  release (decRef (acquire s (.bucket key)) b) (.bucket key)

/-! ## Traces of calls -/

/-- A call of the cache interface by a kernel thread; `store` is the holder of the sleep
lock writing `b->data`. -/
inductive Op where
  | get (pid dev blockno : Nat)
  | read (pid dev blockno : Nat)
  | write (pid b : Nat)
  | release (pid ticks b : Nat)
  | pin (pid b : Nat)
  | unpin (b : Nat)
  | store (pid b : Nat) (d : List Nat)

/-- The cache state together with the number of outstanding pins of every buffer. -/
structure Sys where
  st : State
  pins : Nat → Nat

/-- One call of a trace that respects the preconditions of the interface: `write`,
`release`, `pin` and `store` are issued by the holder of the sleep lock, `unpin` undoes
an earlier pin.  `none` when the precondition fails or the call does not return. -/
def step (NBUF : Nat) (σ : Sys) : Op → Option Sys
  | .get pid dev blockno =>
    match bget NBUF pid σ.st dev blockno with
    | .ok s _ => some { σ with st := s }
    | _ => none
  | .read pid dev blockno =>
    match bread NBUF pid σ.st dev blockno with
    | .ok s _ => some { σ with st := s }
    | _ => none
  | .write pid b =>
    if b < NBUF then
      match bwrite pid σ.st b with
      | .ok s _ => some { σ with st := s }
      | _ => none
    else none
  | .release pid ticks b =>
    if b < NBUF then
      match brelse pid ticks σ.st b with
      | .ok s _ => some { σ with st := s }
      | _ => none
    else none
  | .pin pid b =>
    if b < NBUF ∧ (σ.st.buf b).lock = some pid then
      some { st := bpin σ.st b, pins := upd σ.pins b (σ.pins b + 1) }
    else none
  | .unpin b =>
    if b < NBUF ∧ 0 < σ.pins b then
      some { st := bunpin σ.st b, pins := upd σ.pins b (σ.pins b - 1) }
    else none
  | .store pid b d =>
    if b < NBUF ∧ (σ.st.buf b).lock = some pid then
      some { σ with st := σ.st.setBuf b (fun x => { x with data := d }) }
    else none

/-- A trace of calls, each one returning. -/
def run (NBUF : Nat) : List Op → Sys → Option Sys
  | [], σ => some σ
  | op :: ops, σ =>
    match step NBUF σ op with
    | some σ1 => run NBUF ops σ1
    | none => none

/-- The system after `binit` at boot. -/
def init (NBUF : Nat) (d : Nat → Nat → List Nat) : Sys :=
  { st := binit NBUF (boot d), pins := fun _ => 0 }

/-- States reachable from `init` by a single-threaded trace that respects the
preconditions. -/
def Reachable (NBUF : Nat) (σ : Sys) : Prop :=
  ∃ d ops, run NBUF ops (init NBUF d) = some σ

/-- The chain that starts at pointer `p`, as the list of its buffers; `none` when the
walk has not ended within the fuel. -/
def chainFrom (s : State) : Nat → Option Nat → Option (List Nat)
  | 0, _ => none
  | _ + 1, none => some []
  | fuel + 1, some j => (chainFrom s fuel (s.buf j).next).map (fun l => j :: l)

/-- The chain of bucket `i`. -/
def chainOf (NBUF : Nat) (s : State) (i : Nat) : Option (List Nat) :=
  chainFrom s (NBUF + 1) (s.buckets i)

/-! ## Chains as lists and the invariants of the cache -/

/-- The link table `j ↦ bcache.buf[j].next`. -/
def nxt (s : State) : Nat → Option Nat :=
  fun j => (s.buf j).next

/-- The chain that starts at pointer `p` consists of the buffers `l`, in this order, and
ends with a null pointer. -/
inductive Chain (nx : Nat → Option Nat) : Option Nat → List Nat → Prop where
  | nil : Chain nx none []
  | cons {j : Nat} {l : List Nat} : Chain nx (nx j) l → Chain nx (some j) (j :: l)

/-- The pointer whose `next` is the buffer that follows the buffers `pre`, walking from
`b`. -/
def lastRef (b : Ref) : List Nat → Ref
  | [] => b
  | a :: pre => lastRef (.slot a) pre

/-- Buffer `j` is bound to the key `(dev, blockno)`. -/
def bound (s : State) (dev blockno j : Nat) : Prop :=
  (s.buf j).dev = dev ∧ (s.buf j).blockno = blockno

instance (s : State) (dev blockno j : Nat) : Decidable (bound s dev blockno j) :=
  inferInstanceAs (Decidable (_ ∧ _))

/-- Some buffer of the pool is bound to the key. -/
def resident (NBUF : Nat) (s : State) (dev blockno : Nat) : Prop :=
  ∃ j, j < NBUF ∧ bound s dev blockno j

instance (NBUF : Nat) (s : State) (dev blockno : Nat) : Decidable (resident NBUF s dev blockno) :=
  inferInstanceAs (Decidable (∃ j, j < NBUF ∧ bound s dev blockno j))

/-- Buffer `n` has a strictly smaller `last_used` than the current choice `v`, or there
is no current choice. -/
def beats (s : State) (n : Nat) : Option Nat → Bool
  | none => true
  | some m => decide ((s.buf n).last_used < (s.buf m).last_used)

/-- The running choice of the victim scan over a list of buffers: a buffer with
`refcnt == 0` replaces the current choice when there is none or when its `last_used` is
strictly smaller. -/
def pick (s : State) : Option Nat → List Nat → Option Nat
  | v, [] => v
  | v, n :: l =>
    if (s.buf n).refcnt = 0 ∧ beats s n v = true then pick s (some n) l
    else pick s v l

/-- Two states with the same memory and disk; they may differ in the event log. -/
def SameMem (s t : State) : Prop :=
  s.buckets = t.buckets ∧ s.buf = t.buf ∧ s.disk = t.disk ∧ s.nread = t.nread ∧
    s.nwrite = t.nwrite

/-- Chain membership: the chains `L i` of the buckets are null-terminated, without
repetition, made of pool buffers that hash to their bucket, and cover the pool. -/
structure ChainInv (NBUF : Nat) (s : State) (L : Nat → List Nat) : Prop where
  chain : ∀ i, i < NBUCKET → Chain (nxt s) (s.buckets i) (L i)
  nodup : ∀ i, i < NBUCKET → (L i).Nodup
  hash : ∀ i, i < NBUCKET → ∀ j ∈ L i, BUC (s.buf j).dev (s.buf j).blockno = i
  pool : ∀ i, i < NBUCKET → ∀ j ∈ L i, j < NBUF
  cover : ∀ j, j < NBUF → ∃ i, i < NBUCKET ∧ j ∈ L i

/-- The chain-membership invariant of a state. -/
def ChainMembership (NBUF : Nat) (s : State) : Prop :=
  ∃ L, ChainInv NBUF s L

/-- A buffer nobody has used since it was last rebound or since boot. -/
def pristine (σ : Sys) (j : Nat) : Prop :=
  (σ.st.buf j).refcnt = 0 ∧ (σ.st.buf j).valid = 0 ∧ (σ.st.buf j).lock = none ∧ σ.pins j = 0

/-- Two buffers of one chain with the same key: the later one is pristine. -/
def shadow (σ : Sys) (a b : Nat) : Prop :=
  a ≠ b → (σ.st.buf a).dev = (σ.st.buf b).dev → (σ.st.buf a).blockno = (σ.st.buf b).blockno →
    pristine σ b

/-- The invariant of the reachable states. -/
structure Inv (NBUF : Nat) (σ : Sys) (L : Nat → List Nat) : Prop where
  chains : ChainInv NBUF σ.st L
  uniq : ∀ i, i < NBUCKET → (L i).Pairwise (shadow σ)
  valid01 : ∀ j, (σ.st.buf j).valid ≤ 1

/-- The pointer the scan keeps, if any, is followed by a buffer with `refcnt == 0`. -/
def Cand (s : State) (bl : Option Ref) : Prop :=
  ∀ r, bl = some r → ∃ m, s.next r = some m ∧ (s.buf m).refcnt = 0

/-- The buffer `before_least->next` the scan has chosen so far, if any. -/
def victim (s : State) (bl : Option Ref) : Option Nat :=
  bl.bind s.next

/-- The pointer the scan keeps, if any, lies in the chain of bucket `hb`, right before
its successor `v`. -/
def Held (L : Nat → List Nat) (bl : Option Ref) (hb : Nat) : Prop :=
  bl = none ∨
    (hb < NBUCKET ∧ ∃ pre v post, L hb = pre ++ v :: post ∧ bl = some (lastRef (.head hb) pre))

/-- The buffers of all chains in the order of the victim scan. -/
def scanOrder (L : Nat → List Nat) : List Nat :=
  (List.range NBUCKET).flatMap L

/-- The pointer moves of bio.c lines 206-211: unlink buffer `v` after pointer `r` and
put it at the front of the chain of bucket `key`. -/
def relink (s : State) (r : Ref) (v key : Nat) : State :=
  let t1 := s.setNext r (s.buf v).next
  let t3 := t1.setBuf v (fun x => { x with next := t1.buckets key })
  { t3 with buckets := upd t3.buckets key (some v) }

/-- The memory after a hit of `bget` on buffer `b` that returns. -/
def hitMem (pid : Nat) (s : State) (b : Nat) : State :=
  (incRef s b).setBuf b (fun x => { x with lock := some pid })

/-- The memory after the rebinding of `bget`, before `acquiresleep`. -/
def rebindMem (s : State) (dev blockno : Nat) (r : Ref) (hb v : Nat) : State :=
  (if hb ≠ BUC dev blockno then relink s r v (BUC dev blockno) else s).setBuf v
    (fun x => { x with dev := dev, blockno := blockno, refcnt := 1, valid := 0 })

/-- The memory after a miss of `bget` that rebinds buffer `v` and returns. -/
def missMem (pid : Nat) (s : State) (dev blockno : Nat) (r : Ref) (hb v : Nat) : State :=
  (rebindMem s dev blockno r hb v).setBuf v (fun x => { x with lock := some pid })

/-- The chains after the rebinding of buffer `v`, found in bucket `hb` between `pre` and
`post`, to a key of bucket `key`. -/
def moveChains (L : Nat → List Nat) (hb key v : Nat) (pre post : List Nat) : Nat → List Nat :=
  if hb ≠ key then upd (upd L hb (pre ++ post)) key (v :: L key) else L

/-- The chains after `binit`: every buffer of the pool in bucket 0, the last one first. -/
def initChains (NBUF : Nat) : Nat → List Nat :=
  fun i => if i = 0 then (List.range NBUF).reverse else []

/-! ## Concrete states and traces -/

/-- A disk whose blocks are all empty. -/
def blankDisk : Nat → Nat → List Nat :=
  fun _ _ => []

/-- The state a call leaves behind, or `d` when it leaves none. -/
def Outcome.stateD {α : Type} (o : Outcome α) (d : State) : State :=
  (o.state?).getD d

/-- The system after the trace `ops` from boot with a blank disk (the system at boot when
the trace does not run to its end). -/
def after (NBUF : Nat) (ops : List Op) : Sys :=
  (run NBUF ops (init NBUF blankDisk)).getD (init NBUF blankDisk)

/-- A state in which process 7 holds the sleep lock of buffer 0, with `refcnt == 1`. -/
def heldOnce : State :=
  (boot blankDisk).setBuf 0 (fun x => { x with lock := some 7, refcnt := 1, last_used := 3 })

/-- The state after process 7 has called `bget(1, 1)` on a freshly initialised cache of
two buffers. -/
def getOnce : State :=
  (bget 2 7 (init 2 blankDisk).st 1 1).stateD (boot blankDisk)

/-- The trace `read(1,1)`, then `2^32 - 1` calls of `pin` on the buffer, then `release`
at tick 5, by process 7 on a cache of one buffer. -/
def wrapTrace : List Op :=
  Op.read 7 1 1 :: (List.replicate 4294967295 (Op.pin 7 0) ++ [Op.release 7 5 0])

/-- Scenario S4 up to the last call, on a cache of two buffers: `read(1,1)` and `release`,
then `read(1,2)` and `pin` without release. -/
def pinnedTrace : List Op :=
  [.read 7 1 1, .release 7 10 1, .read 7 1 2, .pin 7 0]

/-- Scenario S3 up to the last call, on a cache of three buffers: `read` of the keys
`(1,1)`, `(1,2)`, `(1,3)`, then `release` of each at the ticks 10, 11, 12. -/
def threeTrace : List Op :=
  [.read 7 1 1, .read 7 1 2, .read 7 1 3, .release 7 10 2, .release 7 11 1, .release 7 12 0]

/-- The state in which process 7 holds the buffer of key `(1,1)`, after `read(1,1)` on a
cache of two buffers. -/
def heldState : State :=
  (after 2 [.read 7 1 1]).st

/-- The trace `read(1,1)`, then `2^32 - 1` calls of `pin` on the buffer, by process 7 on
a cache of one buffer. -/
def wrapHeldTrace : List Op :=
  Op.read 7 1 1 :: List.replicate 4294967295 (Op.pin 7 0)

/-- A `read` of a key other than `(d, n)`, or a `release`. -/
def otherKey (d n : Nat) : Op → Prop
  | .read _ d2 n2 => ¬ (d2 = d ∧ n2 = n)
  | .release _ _ _ => True
  | _ => False

/-- The block `(d, n)` of the disk is `B`, and every pool buffer bound to `(d, n)` holds
`B` or is not valid. -/
def Stable (NBUF d n : Nat) (B : List Nat) (τ : Sys) : Prop :=
  τ.st.disk d n = B ∧
    ∀ j, j < NBUF → bound τ.st d n j → (τ.st.buf j).valid = 0 ∨ (τ.st.buf j).data = B

/-- Round trip, first step: process 7 has got the buffer of `(1,1)` on a cache of two
buffers. -/
def tripStart : Sys :=
  { init 2 blankDisk with st := getOnce }

/-- Round trip, second step: the block `[42]` is stored in the buffer, written and the
buffer released at tick 5. -/
def tripWritten : Sys :=
  (run 2 [.store 7 1 [42], .write 7 1, .release 7 5 1] tripStart).getD tripStart

/-- Round trip, third step: a read of the key `(1,2)` and the release of its buffer. -/
def tripLater : Sys :=
  (run 2 [.read 7 1 2, .release 7 6 0] tripWritten).getD tripStart

/-- Round trip, last step: the state after the final `bread(1,1)`. -/
def tripFinal : State :=
  (bread 2 7 tripLater.st 1 1).stateD (boot blankDisk)

/-- Round trip on an exhausted pool: after the write, reads of the keys `(1,2)` and
`(1,3)` without release leave both buffers in use. -/
def tripFull : Sys :=
  (run 2 [.read 7 1 2, .read 7 1 3] tripWritten).getD tripStart

/-! ## Spinlock events, scan order and reference accounting -/

/-- The spinlocks the thread holds after the event `e`, when it held `h` before. -/
def holdStep (h : List Lock) : Ev → List Lock
  | .acq l => l :: h
  | .rel l => h.erase l

/-- The spinlocks the thread holds after the events `evs`, when it held `h` before. -/
def heldAfter (h : List Lock) (evs : List Ev) : List Lock :=
  evs.foldl holdStep h

/-- The indices of the bucket locks among the spinlocks `h`. -/
def bucketsOf : List Lock → List Nat
  | [] => []
  | .evic :: h => bucketsOf h
  | .bucket i :: h => i :: bucketsOf h

/-- The condition `P` on the held spinlocks and the next event holds at every event of
`evs`, for a thread that holds `h` at the start. -/
def always (P : List Lock → Ev → Bool) : List Lock → List Ev → Bool
  | _, [] => true
  | h, e :: evs => P h e && always P (holdStep h e) evs

/-- Lock ordering at one event: after the event two bucket locks are held only together
with the eviction lock, and a bucket lock is acquired only when every bucket lock already
held has a strictly smaller index. -/
def lockOrder (h : List Lock) (e : Ev) : Bool :=
  (decide ((bucketsOf (holdStep h e)).length ≤ 1) || (holdStep h e).contains Lock.evic) &&
    (match e with
     | .acq (.bucket i) => (bucketsOf h).all (fun j => decide (j < i))
     | _ => true)

/-- After the event at most `n` bucket locks are held. -/
def atMost (n : Nat) (h : List Lock) (e : Ev) : Bool :=
  decide ((bucketsOf (holdStep h e)).length ≤ n)

/-- When two or more bucket locks are held, the event releases one of them. -/
def retainOne (h : List Lock) (e : Ev) : Bool :=
  decide ((bucketsOf h).length ≤ 1) ||
    (match e with
     | .rel (.bucket i) => h.contains (Lock.bucket i)
     | _ => false)

/-- The three conditions `lockOrder`, `atMost 2` and `retainOne` together. -/
def discipline (h : List Lock) (e : Ev) : Bool :=
  lockOrder h e && atMost 2 h e && retainOne h e

/-- Between two buckets of the victim scan, with the buckets `is` still to visit: the
thread holds the eviction lock alone while the scan has no candidate, and the eviction
lock and the lock of `holding_bucket`, an index below the buckets to visit, once it has
one. -/
def Retained (is : List Nat) (bl : Option Ref) (hb : Nat) (h : List Lock) : Prop :=
  (bl = none ∧ hb = NOBUCKET ∧ h = [Lock.evic]) ∨
    (bl ≠ none ∧ hb < NBUCKET ∧ h = [Lock.bucket hb, Lock.evic] ∧ ∀ i ∈ is, hb < i)

/-- The buffers of the pool in the order in which the victim scan of `bget` meets them:
the chains of the buckets `0 .. NBUCKET-1`, each from its head. -/
def scanList (NBUF : Nat) (s : State) : List Nat :=
  (List.range NBUCKET).flatMap (fun i => (chainOf NBUF s i).getD [])

/-- The number of holders of the sleep lock of buffer `j`. -/
def holders (s : State) (j : Nat) : Nat :=
  if (s.buf j).lock = none then 0 else 1

/-- Reference accounting: the `refcnt` of every buffer is the number of holders of its
sleep lock plus the number of its outstanding pins, modulo `2^32`. -/
def Acct (σ : Sys) : Prop :=
  ∀ j, (σ.st.buf j).refcnt = (holders σ.st j + σ.pins j) % UINT

/-- One call of a trace as in `step`, except that `pin` may be applied to any buffer of
the pool, whether the caller holds its sleep lock or not. -/
def stepPin (NBUF : Nat) (σ : Sys) : Op → Option Sys
  | .pin _ b =>
    if b < NBUF then some { st := bpin σ.st b, pins := upd σ.pins b (σ.pins b + 1) }
    else none
  | .get pid dev blockno => step NBUF σ (.get pid dev blockno)
  | .read pid dev blockno => step NBUF σ (.read pid dev blockno)
  | .write pid b => step NBUF σ (.write pid b)
  | .release pid ticks b => step NBUF σ (.release pid ticks b)
  | .unpin b => step NBUF σ (.unpin b)
  | .store pid b d => step NBUF σ (.store pid b d)

/-- A trace of calls of `stepPin`, each one returning. -/
def runPin (NBUF : Nat) : List Op → Sys → Option Sys
  | [], σ => some σ
  | op :: ops, σ =>
    match stepPin NBUF σ op with
    | some σ1 => runPin NBUF ops σ1
    | none => none

/-- States reachable from `init` by a single-threaded trace in which `write`, `release`
and `store` are issued by the holder of the sleep lock and `unpin` undoes an earlier pin;
`pin` has no precondition. -/
def ReachablePin (NBUF : Nat) (σ : Sys) : Prop :=
  ∃ d ops, runPin NBUF ops (init NBUF d) = some σ

/-- The state after process 7 has called `bget(1, 5)`, a key of bucket 0, on a freshly
initialised cache of two buffers: buffer 1 is in use and buffer 0 follows it in the chain
of bucket 0. -/
def firstHeld : State :=
  (after 2 [.get 7 1 5]).st

/-- The state after the subsequent `bget(1, 1)` of process 7. -/
def secondGet : State :=
  (bget 2 7 firstHeld 1 1).stateD (boot blankDisk)

/-! ## Elementary facts about the state -/

@[simp] theorem upd_same {α : Type} (f : Nat → α) (i : Nat) (v : α) : upd f i v i = v := by
  simp [upd]

@[simp] theorem upd_other {α : Type} (f : Nat → α) (i k : Nat) (v : α) (h : k ≠ i) :
    upd f i v k = f k := by
  simp [upd, h]

@[simp] theorem acquire_buf (s : State) (l : Lock) : (acquire s l).buf = s.buf := rfl
@[simp] theorem acquire_buckets (s : State) (l : Lock) : (acquire s l).buckets = s.buckets := rfl
@[simp] theorem acquire_disk (s : State) (l : Lock) : (acquire s l).disk = s.disk := rfl
@[simp] theorem acquire_nread (s : State) (l : Lock) : (acquire s l).nread = s.nread := rfl
@[simp] theorem acquire_nwrite (s : State) (l : Lock) : (acquire s l).nwrite = s.nwrite := rfl
@[simp] theorem release_buf (s : State) (l : Lock) : (release s l).buf = s.buf := rfl
@[simp] theorem release_buckets (s : State) (l : Lock) : (release s l).buckets = s.buckets := rfl
@[simp] theorem release_disk (s : State) (l : Lock) : (release s l).disk = s.disk := rfl
@[simp] theorem release_nread (s : State) (l : Lock) : (release s l).nread = s.nread := rfl
@[simp] theorem release_nwrite (s : State) (l : Lock) : (release s l).nwrite = s.nwrite := rfl

@[simp] theorem setBuf_buckets (s : State) (j : Nat) (f : Buf → Buf) :
    (s.setBuf j f).buckets = s.buckets := rfl
@[simp] theorem setBuf_disk (s : State) (j : Nat) (f : Buf → Buf) :
    (s.setBuf j f).disk = s.disk := rfl
@[simp] theorem setBuf_nread (s : State) (j : Nat) (f : Buf → Buf) :
    (s.setBuf j f).nread = s.nread := rfl
@[simp] theorem setBuf_nwrite (s : State) (j : Nat) (f : Buf → Buf) :
    (s.setBuf j f).nwrite = s.nwrite := rfl
@[simp] theorem setBuf_log (s : State) (j : Nat) (f : Buf → Buf) :
    (s.setBuf j f).log = s.log := rfl

@[simp] theorem setBuf_buf_same (s : State) (j : Nat) (f : Buf → Buf) :
    (s.setBuf j f).buf j = f (s.buf j) := by
  simp [State.setBuf]

@[simp] theorem setBuf_buf_other (s : State) (j k : Nat) (f : Buf → Buf) (h : k ≠ j) :
    (s.setBuf j f).buf k = s.buf k := by
  simp [State.setBuf, h]

theorem SameMem.refl (s : State) : SameMem s s := ⟨rfl, rfl, rfl, rfl, rfl⟩

theorem SameMem.symm {s t : State} (h : SameMem s t) : SameMem t s :=
  ⟨h.1.symm, h.2.1.symm, h.2.2.1.symm, h.2.2.2.1.symm, h.2.2.2.2.symm⟩

theorem SameMem.trans {s t u : State} (h : SameMem s t) (k : SameMem t u) : SameMem s u :=
  ⟨h.1.trans k.1, h.2.1.trans k.2.1, h.2.2.1.trans k.2.2.1, h.2.2.2.1.trans k.2.2.2.1,
    h.2.2.2.2.trans k.2.2.2.2⟩

theorem sameMem_acquire (s : State) (l : Lock) : SameMem (acquire s l) s :=
  ⟨rfl, rfl, rfl, rfl, rfl⟩

theorem sameMem_release (s : State) (l : Lock) : SameMem (release s l) s :=
  ⟨rfl, rfl, rfl, rfl, rfl⟩

theorem SameMem.setBuf {s t : State} (h : SameMem s t) (j : Nat) (f : Buf → Buf) :
    SameMem (s.setBuf j f) (t.setBuf j f) := by
  obtain ⟨h1, h2, h3, h4, h5⟩ := h
  refine ⟨h1, ?_, h3, h4, h5⟩
  simp [State.setBuf, h2]

theorem SameMem.next {s t : State} (h : SameMem s t) (r : Ref) : s.next r = t.next r := by
  cases r <;> simp [State.next, h.1, h.2.1]

theorem SameMem.nxt {s t : State} (h : SameMem s t) : nxt s = nxt t := by
  funext j; simp [Bio.nxt, h.2.1]

/-! ## Chains -/

theorem Chain.head_eq {nx : Nat → Option Nat} {p : Option Nat} {j : Nat} {l : List Nat}
    (h : Chain nx p (j :: l)) : p = some j := by
  cases h; rfl

theorem Chain.tail {nx : Nat → Option Nat} {p : Option Nat} {j : Nat} {l : List Nat}
    (h : Chain nx p (j :: l)) : Chain nx (nx j) l := by
  cases h; assumption

theorem Chain.nil_eq {nx : Nat → Option Nat} {p : Option Nat} (h : Chain nx p []) :
    p = none := by
  cases h; rfl

theorem Chain.of_none {nx : Nat → Option Nat} {l : List Nat} (h : Chain nx none l) :
    l = [] := by
  cases h; rfl

theorem Chain.of_some {nx : Nat → Option Nat} {j : Nat} {l : List Nat}
    (h : Chain nx (some j) l) : ∃ t, l = j :: t ∧ Chain nx (nx j) t := by
  cases h with
  | cons h => exact ⟨_, rfl, h⟩

/-- A chain is determined by its first pointer. -/
theorem Chain.unique {nx : Nat → Option Nat} {p : Option Nat} {l l2 : List Nat}
    (h : Chain nx p l) (h2 : Chain nx p l2) : l = l2 := by
  induction h generalizing l2 with
  | nil => exact h2.of_none.symm
  | cons _ ih =>
    obtain ⟨t, rfl, ht⟩ := h2.of_some
    rw [ih ht]

/-- A chain only depends on the links of its own buffers. -/
theorem Chain.congr {nx nx2 : Nat → Option Nat} {p : Option Nat} {l : List Nat}
    (h : Chain nx p l) (e : ∀ j ∈ l, nx2 j = nx j) : Chain nx2 p l := by
  induction h with
  | nil => exact Chain.nil
  | cons _ ih =>
    refine Chain.cons ?_
    rw [e _ (List.mem_cons_self _ _)]
    exact ih (fun j hj => e j (List.mem_cons_of_mem _ hj))

theorem chainFrom_of_chain (s : State) {p : Option Nat} {l : List Nat}
    (h : Chain (nxt s) p l) : ∀ fuel, l.length < fuel → chainFrom s fuel p = some l := by
  induction h with
  | nil =>
    intro fuel hf
    cases fuel with
    | zero => omega
    | succ f => rfl
  | cons _ ih =>
    intro fuel hf
    cases fuel with
    | zero => omega
    | succ f =>
      simp only [List.length_cons] at hf
      simp only [chainFrom]
      have := ih f (by omega)
      simp only [nxt] at this
      rw [this]; rfl

theorem chain_of_chainFrom (s : State) : ∀ (fuel : Nat) (p : Option Nat) (l : List Nat),
    chainFrom s fuel p = some l → Chain (nxt s) p l := by
  intro fuel
  induction fuel with
  | zero => intro p l h; simp [chainFrom] at h
  | succ f ih =>
    intro p l h
    cases p with
    | none =>
      simp [chainFrom] at h
      subst h; exact Chain.nil
    | some j =>
      simp only [chainFrom, Option.map_eq_some'] at h
      obtain ⟨t, ht, rfl⟩ := h
      exact Chain.cons (ih _ _ ht)

/-- The pointer before the buffer `v` of a chain. -/
theorem chain_split (s : State) : ∀ (pre : List Nat) (b : Ref) (v : Nat) (post : List Nat),
    Chain (nxt s) (s.next b) (pre ++ v :: post) →
      s.next (lastRef b pre) = some v ∧ Chain (nxt s) (nxt s v) post := by
  intro pre
  induction pre with
  | nil =>
    intro b v post h
    exact ⟨h.head_eq, h.tail⟩
  | cons a pre ih =>
    intro b v post h
    have := h.tail
    exact ih (.slot a) v post this

theorem lastRef_cases (b : Ref) : ∀ pre : List Nat,
    (pre = [] ∧ lastRef b pre = b) ∨ (∃ m, m ∈ pre ∧ lastRef b pre = .slot m) := by
  intro pre
  induction pre generalizing b with
  | nil => exact Or.inl ⟨rfl, rfl⟩
  | cons a pre ih =>
    right
    rcases ih (.slot a) with ⟨h1, h2⟩ | ⟨m, hm, h2⟩
    · exact ⟨a, List.mem_cons_self _ _, by simp [lastRef, h2]⟩
    · exact ⟨m, List.mem_cons_of_mem _ hm, by simp [lastRef, h2]⟩

/-! ## The lookup loop -/

theorem lookup_sameMem {s t : State} (h : SameMem s t) (dev blockno : Nat) :
    ∀ (fuel : Nat) (p : Option Nat), lookup s dev blockno fuel p = lookup t dev blockno fuel p := by
  intro fuel
  induction fuel with
  | zero => intro p; rfl
  | succ f ih =>
    intro p
    cases p with
    | none => rfl
    | some b => simp only [lookup, h.2.1, ih]

theorem lookup_chain (s : State) (dev blockno : Nat) {p : Option Nat} {l : List Nat}
    (h : Chain (nxt s) p l) : ∀ fuel, l.length < fuel →
      lookup s dev blockno fuel p = some (l.find? (fun j => decide (bound s dev blockno j))) := by
  induction h with
  | nil =>
    intro fuel hf
    cases fuel with
    | zero => omega
    | succ f => rfl
  | @cons j l _ ih =>
    intro fuel hf
    cases fuel with
    | zero => omega
    | succ f =>
      simp only [List.length_cons] at hf
      simp only [lookup, List.find?_cons]
      by_cases hb : (s.buf j).dev = dev ∧ (s.buf j).blockno = blockno
      · simp [bound, hb]
      · have hb2 : ¬ bound s dev blockno j := hb
        simp only [hb, if_false, hb2, decide_False]
        exact ih f (by omega)

/-- Whatever the state, a buffer the lookup returns is bound to the key. -/
theorem lookup_bound (s : State) (dev blockno : Nat) : ∀ (fuel : Nat) (p : Option Nat) (b : Nat),
    lookup s dev blockno fuel p = some (some b) → bound s dev blockno b := by
  intro fuel
  induction fuel with
  | zero => intro p b h; simp [lookup] at h
  | succ f ih =>
    intro p b h
    cases p with
    | none => simp [lookup] at h
    | some j =>
      simp only [lookup] at h
      split at h
      · next hb =>
        simp only [Option.some.injEq] at h
        subst h; exact hb
      · exact ih _ _ h

/-! ## The victim scan -/

theorem better_iff (s : State) (n : Nat) (bl : Option Ref) (h : Cand s bl) :
    better s n bl = true ↔ ((s.buf n).refcnt = 0 ∧ beats s n (victim s bl) = true) := by
  cases bl with
  | none => simp [better, beats, victim]
  | some r =>
    obtain ⟨m, hm, _⟩ := h r rfl
    simp [better, beats, victim, lastUsedAfter, hm]

theorem better_refcnt (s : State) (n : Nat) (bl : Option Ref) (h : better s n bl = true) :
    (s.buf n).refcnt = 0 := by
  simp only [better, Bool.and_eq_true, decide_eq_true_eq] at h
  exact h.1

theorem better_sameMem {s t : State} (h : SameMem s t) (n : Nat) (bl : Option Ref) :
    better s n bl = better t n bl := by
  cases bl with
  | none => simp [better, h.2.1]
  | some r => simp [better, lastUsedAfter, h.next r, h.2.1]

theorem scanChain_sameMem {s t : State} (h : SameMem s t) :
    ∀ (fuel : Nat) (b : Ref) (bl : Option Ref) (nf : Bool),
      scanChain s fuel b bl nf = scanChain t fuel b bl nf := by
  intro fuel
  induction fuel with
  | zero => intro b bl nf; rfl
  | succ f ih =>
    intro b bl nf
    simp only [scanChain, h.next b]
    cases t.next b with
    | none => rfl
    | some n => simp only [better_sameMem h, ih]

/-- Whatever the state, the scan of a chain keeps a pointer in front of a buffer with
`refcnt == 0`. -/
theorem scanChain_cand (s : State) : ∀ (fuel : Nat) (b : Ref) (bl : Option Ref) (nf : Bool)
    (bl2 : Option Ref) (nf2 : Bool), Cand s bl → scanChain s fuel b bl nf = some (bl2, nf2) →
      Cand s bl2 ∧ (nf2 = false → nf = false ∧ bl2 = bl) := by
  intro fuel
  induction fuel with
  | zero => intro b bl nf bl2 nf2 _ h; simp [scanChain] at h
  | succ f ih =>
    intro b bl nf bl2 nf2 hc h
    simp only [scanChain] at h
    cases hn : s.next b with
    | none =>
      simp only [hn, Option.some.injEq, Prod.mk.injEq] at h
      obtain ⟨rfl, rfl⟩ := h
      exact ⟨hc, fun h => ⟨h, rfl⟩⟩
    | some n =>
      simp only [hn] at h
      split at h
      · next hb =>
        have hc2 : Cand s (some b) := by
          intro r hr
          simp only [Option.some.injEq] at hr
          subst hr
          exact ⟨n, hn, better_refcnt s n bl hb⟩
        obtain ⟨h1, h2⟩ := ih _ _ _ _ _ hc2 h
        refine ⟨h1, fun h3 => ?_⟩
        have := (h2 h3).1
        simp at this
      · exact ih _ _ _ _ _ hc h

/-- The scan of a null-terminated chain, in terms of the list of its buffers. -/
theorem scanChain_spec (s : State) : ∀ (l : List Nat) (fuel : Nat) (b : Ref) (bl : Option Ref)
    (nf : Bool), Chain (nxt s) (s.next b) l → l.length < fuel → Cand s bl →
      ∃ bl2 nf2, scanChain s fuel b bl nf = some (bl2, nf2) ∧ Cand s bl2 ∧
        victim s bl2 = pick s (victim s bl) l ∧
        ((bl2 = bl ∧ nf2 = nf) ∨
          (nf2 = true ∧ ∃ pre v post, l = pre ++ v :: post ∧ bl2 = some (lastRef b pre))) := by
  intro l
  induction l with
  | nil =>
    intro fuel b bl nf hch hf hc
    cases fuel with
    | zero => omega
    | succ f =>
      refine ⟨bl, nf, ?_, hc, rfl, Or.inl ⟨rfl, rfl⟩⟩
      simp [scanChain, hch.nil_eq]
  | cons n l ih =>
    intro fuel b bl nf hch hf hc
    cases fuel with
    | zero => omega
    | succ f =>
      simp only [List.length_cons] at hf
      have hn : s.next b = some n := hch.head_eq
      have ht : Chain (nxt s) (s.next (.slot n)) l := hch.tail
      simp only [scanChain, hn, pick]
      by_cases hb : better s n bl = true
      · have hb2 := (better_iff s n bl hc).1 hb
        have hc2 : Cand s (some b) := by
          intro r hr
          simp only [Option.some.injEq] at hr
          subst hr
          exact ⟨n, hn, hb2.1⟩
        obtain ⟨bl2, nf2, h1, h2, h3, h4⟩ := ih f (.slot n) (some b) true ht (by omega) hc2
        refine ⟨bl2, nf2, ?_, h2, ?_, Or.inr ?_⟩
        · simp only [hb, if_true]; exact h1
        · rw [if_pos hb2, h3]; simp [victim, hn]
        · rcases h4 with ⟨h5, h6⟩ | ⟨h5, pre, v, post, h6, h7⟩
          · exact ⟨h6, [], n, l, rfl, by simp [h5, lastRef]⟩
          · exact ⟨h5, n :: pre, v, post, by simp [h6], by simp [h7, lastRef]⟩
      · have hb2 : ¬ ((s.buf n).refcnt = 0 ∧ beats s n (victim s bl) = true) :=
          fun h => hb ((better_iff s n bl hc).2 h)
        obtain ⟨bl2, nf2, h1, h2, h3, h4⟩ := ih f (.slot n) bl nf ht (by omega) hc
        refine ⟨bl2, nf2, ?_, h2, ?_, ?_⟩
        · simp only [hb]; exact h1
        · rw [if_neg hb2, h3]
        · rcases h4 with h5 | ⟨h5, pre, v, post, h6, h7⟩
          · exact Or.inl h5
          · exact Or.inr ⟨h5, n :: pre, v, post, by simp [h6], by simp [h7, lastRef]⟩

/-- Whatever the state, the scan of the buckets changes the event log only and keeps a
pointer in front of a buffer with `refcnt == 0`. -/
theorem scanBuckets_any (NBUF : Nat) (m : State) : ∀ (is : List Nat) (s : State)
    (bl : Option Ref) (hb : Nat) (s2 : State) (bl2 : Option Ref) (hb2 : Nat),
    SameMem s m → Cand m bl → scanBuckets NBUF is s bl hb = some (s2, bl2, hb2) →
      SameMem s2 m ∧ Cand m bl2 := by
  intro is
  induction is with
  | nil =>
    intro s bl hb s2 bl2 hb2 hs hc h
    simp only [scanBuckets, Option.some.injEq, Prod.mk.injEq] at h
    obtain ⟨rfl, rfl, rfl⟩ := h
    exact ⟨hs, hc⟩
  | cons i rest ih =>
    intro s bl hb s2 bl2 hb2 hs hc h
    simp only [scanBuckets] at h
    have hs1 : SameMem (acquire s (.bucket i)) m := (sameMem_acquire s _).trans hs
    rw [scanChain_sameMem hs1] at h
    cases hsc : scanChain m (NBUF + 1) (.head i) bl false with
    | none => simp [hsc] at h
    | some r =>
      obtain ⟨bl1, nf⟩ := r
      simp only [hsc] at h
      have hc1 := (scanChain_cand m _ _ _ _ _ _ hc hsc).1
      split at h
      · exact ih _ _ _ _ _ _ ((sameMem_release _ _).trans hs1) hc1 h
      · refine ih _ _ _ _ _ _ ?_ hc1 h
        split
        · exact (sameMem_release _ _).trans hs1
        · exact hs1

/-- The scan of the buckets `is` of a state with null-terminated chains `L`. -/
theorem scanBuckets_spec (NBUF : Nat) (m : State) (L : Nat → List Nat) :
    ∀ (is : List Nat) (s : State) (bl : Option Ref) (hb : Nat),
    (∀ i ∈ is, i < NBUCKET ∧ Chain (nxt m) (m.buckets i) (L i) ∧ (L i).length ≤ NBUF) →
    SameMem s m → Cand m bl → Held L bl hb →
      ∃ s2 bl2 hb2, scanBuckets NBUF is s bl hb = some (s2, bl2, hb2) ∧ SameMem s2 m ∧
        Cand m bl2 ∧ Held L bl2 hb2 ∧ victim m bl2 = pick m (victim m bl) (is.flatMap L) := by
  intro is
  induction is with
  | nil =>
    intro s bl hb _ hs hc hh
    exact ⟨s, bl, hb, rfl, hs, hc, hh, rfl⟩
  | cons i rest ih =>
    intro s bl hb hL hs hc hh
    obtain ⟨hi, hch, hlen⟩ := hL i (List.mem_cons_self _ _)
    have hL2 : ∀ k ∈ rest, k < NBUCKET ∧ Chain (nxt m) (m.buckets k) (L k) ∧
        (L k).length ≤ NBUF := fun k hk => hL k (List.mem_cons_of_mem _ hk)
    have hs1 : SameMem (acquire s (.bucket i)) m := (sameMem_acquire s _).trans hs
    obtain ⟨bl1, nf, h1, h2, h3, h4⟩ :=
      scanChain_spec m (L i) (NBUF + 1) (.head i) bl false hch (by omega) hc
    have hpick : ∀ bl2, victim m bl2 = pick m (victim m bl1) (rest.flatMap L) →
        victim m bl2 = pick m (victim m bl) ((i :: rest).flatMap L) := by
      intro bl2 h
      have pick_append : ∀ (l1 l2 : List Nat) (v : Option Nat),
          pick m v (l1 ++ l2) = pick m (pick m v l1) l2 := by
        intro l1
        induction l1 with
        | nil => intro l2 v; rfl
        | cons a l1 ih2 =>
          intro l2 v
          simp only [List.cons_append, pick]
          split <;> exact ih2 _ _
      rw [List.flatMap_cons, pick_append, ← h3]; exact h
    simp only [scanBuckets, scanChain_sameMem hs1, h1]
    rcases h4 with ⟨h5, h6⟩ | ⟨h5, pre, v, post, h6, h7⟩
    · subst h5 h6
      simp only [if_true]
      obtain ⟨s2, bl2, hb2, k1, k2, k3, k4, k5⟩ :=
        ih (release (acquire s (.bucket i)) (.bucket i)) bl1 hb hL2
          ((sameMem_release _ _).trans hs1) h2 hh
      exact ⟨s2, bl2, hb2, k1, k2, k3, k4, hpick _ k5⟩
    · subst h5
      simp only [Bool.true_eq_false, if_false]
      have hh2 : Held L bl1 i := Or.inr ⟨hi, pre, v, post, h6, h7⟩
      have hs2 : SameMem (if hb ≠ NOBUCKET then release (acquire s (.bucket i)) (.bucket hb)
          else acquire s (.bucket i)) m := by
        split
        · exact (sameMem_release _ _).trans hs1
        · exact hs1
      obtain ⟨s2, bl2, hb2, k1, k2, k3, k4, k5⟩ := ih _ bl1 i hL2 hs2 h2 hh2
      exact ⟨s2, bl2, hb2, k1, k2, k3, k4, hpick _ k5⟩

/-! ## The choice of the scan -/

theorem pick_none (s : State) : ∀ (l : List Nat) (v : Option Nat),
    pick s v l = none ↔ v = none ∧ ∀ n ∈ l, (s.buf n).refcnt ≠ 0 := by
  intro l
  induction l with
  | nil => intro v; simp [pick]
  | cons a l ih =>
    intro v
    simp only [pick]
    split
    · next h =>
      rw [ih]
      constructor
      · intro h2; simp at h2
      · intro h2; exact absurd h.1 (h2.2 a (List.mem_cons_self _ _))
    · next h =>
      rw [ih]
      constructor
      · rintro ⟨rfl, h2⟩
        refine ⟨rfl, ?_⟩
        intro n hn
        rcases List.mem_cons.1 hn with rfl | hn
        · intro h3; exact h ⟨h3, rfl⟩
        · exact h2 n hn
      · rintro ⟨rfl, h2⟩
        exact ⟨rfl, fun n hn => h2 n (List.mem_cons_of_mem _ hn)⟩

/-- The choice of the scan has the least `last_used` among the buffers with
`refcnt == 0` it has seen. -/
theorem pick_min (s : State) : ∀ (l : List Nat) (v : Option Nat) (w : Nat),
    pick s v l = some w →
      (∀ m, v = some m → (s.buf w).last_used ≤ (s.buf m).last_used) ∧
      (∀ n ∈ l, (s.buf n).refcnt = 0 → (s.buf w).last_used ≤ (s.buf n).last_used) := by
  intro l
  induction l with
  | nil =>
    intro v w h
    simp only [pick] at h
    subst h
    exact ⟨fun m hm => by simp at hm; subst hm; exact le_refl _, fun n hn => by simp at hn⟩
  | cons a l ih =>
    intro v w h
    simp only [pick] at h
    split at h
    · next hc =>
      obtain ⟨h1, h2⟩ := ih _ _ h
      have ha := h1 a rfl
      refine ⟨?_, ?_⟩
      · intro m hm
        subst hm
        have := hc.2
        simp only [beats, decide_eq_true_eq] at this
        omega
      · intro n hn hr
        rcases List.mem_cons.1 hn with rfl | hn
        · exact ha
        · exact h2 n hn hr
    · next hc =>
      obtain ⟨h1, h2⟩ := ih _ _ h
      refine ⟨h1, ?_⟩
      intro n hn hr
      rcases List.mem_cons.1 hn with rfl | hn
      · cases v with
        | none => exact absurd ⟨hr, rfl⟩ hc
        | some m =>
          have hm := h1 m rfl
          have : ¬ (s.buf n).last_used < (s.buf m).last_used := by
            intro h3
            exact hc ⟨hr, by simp [beats, h3]⟩
          omega
      · exact h2 n hn hr

/-! ## Pointer surgery on chains -/

theorem BUC_lt (dev blockno : Nat) : BUC dev blockno < NBUCKET :=
  Nat.mod_lt _ (by decide)

@[simp] theorem next_setNext_same (s : State) (r : Ref) (x : Option Nat) :
    (s.setNext r x).next r = x := by
  cases r <;> simp [State.setNext, State.next]

theorem next_setNext_other (s : State) (r r2 : Ref) (x : Option Nat) (h : r2 ≠ r) :
    (s.setNext r x).next r2 = s.next r2 := by
  cases r with
  | head i =>
    cases r2 with
    | head k =>
      have : k ≠ i := fun e => h (by rw [e])
      simp [State.setNext, State.next, this]
    | slot k => simp [State.setNext, State.next]
  | slot j =>
    cases r2 with
    | head k => simp [State.setNext, State.next]
    | slot k =>
      have : k ≠ j := fun e => h (by rw [e])
      simp [State.setNext, State.next, this]

theorem nxt_setNext_other (s : State) (r : Ref) (x : Option Nat) (j : Nat) (h : r ≠ .slot j) :
    nxt (s.setNext r x) j = nxt s j :=
  next_setNext_other s r (.slot j) x (fun e => h e.symm)

theorem setNext_buckets_other (s : State) (r : Ref) (x : Option Nat) (i : Nat)
    (h : r ≠ .head i) : (s.setNext r x).buckets i = s.buckets i :=
  next_setNext_other s r (.head i) x (fun e => h e.symm)

/-- The assignment `r->next = x` changes no other field of a buffer. -/
theorem setNext_buf_fields (s : State) (r : Ref) (x : Option Nat) (j : Nat) :
    (s.setNext r x).buf j = { s.buf j with next := ((s.setNext r x).buf j).next } := by
  cases r with
  | head i => rfl
  | slot k =>
    by_cases h : j = k
    · subst h; simp [State.setNext]
    · simp [State.setNext, h]

theorem chain_setNext_other {s : State} {p : Option Nat} {l : List Nat} (r : Ref)
    (x : Option Nat) (h : Chain (nxt s) p l) (hr : ∀ j, r = .slot j → j ∉ l) :
    Chain (nxt (s.setNext r x)) p l := by
  refine h.congr (fun j hj => nxt_setNext_other s r x j ?_)
  intro e
  exact hr j e hj

theorem chain_setBuf_keep {s : State} {p : Option Nat} {l : List Nat} (j : Nat)
    (f : Buf → Buf) (hf : (f (s.buf j)).next = (s.buf j).next) (h : Chain (nxt s) p l) :
    Chain (nxt (s.setBuf j f)) p l := by
  refine h.congr (fun k _ => ?_)
  by_cases e : k = j
  · subst e; simp [nxt, hf]
  · simp [nxt, e]

/-- Unlinking the buffer `v` of a chain: the assignment `before_least->next = b->next`
of bio.c line 206 leaves the chain without `v`. -/
theorem chain_unlink (s : State) : ∀ (pre : List Nat) (b : Ref) (v : Nat) (post : List Nat),
    Chain (nxt s) (s.next b) (pre ++ v :: post) → (pre ++ v :: post).Nodup →
    (∀ j, b = .slot j → j ∉ pre ++ v :: post) →
      Chain (nxt (s.setNext (lastRef b pre) (nxt s v)))
        ((s.setNext (lastRef b pre) (nxt s v)).next b) (pre ++ post) := by
  intro pre
  induction pre with
  | nil =>
    intro b v post h hnd hb
    simp only [lastRef, List.nil_append, next_setNext_same]
    refine chain_setNext_other b _ h.tail ?_
    intro j e hj
    exact hb j e (by simp [hj])
  | cons a pre ih =>
    intro b v post h hnd hb
    simp only [lastRef, List.cons_append]
    have hnd2 : (pre ++ v :: post).Nodup := (List.nodup_cons.1 hnd).2
    have ha : a ∉ pre ++ v :: post := (List.nodup_cons.1 hnd).1
    have key := ih (.slot a) v post h.tail hnd2 (by
      intro j e
      simp only [Ref.slot.injEq] at e
      subst e; exact ha)
    have hne : b ≠ lastRef (.slot a) pre := by
      rcases lastRef_cases (.slot a) pre with ⟨_, h2⟩ | ⟨m, hm, h2⟩
      · rw [h2]
        intro e
        exact hb a e (List.mem_cons_self _ _)
      · rw [h2]
        intro e
        exact hb m e (List.mem_cons_of_mem _ (by simp [hm]))
    rw [next_setNext_other _ _ _ _ hne, h.head_eq]
    exact Chain.cons key

/-! ## Consequences of chain membership -/

theorem ChainInv.length_le {NBUF : Nat} {s : State} {L : Nat → List Nat}
    (h : ChainInv NBUF s L) {i : Nat} (hi : i < NBUCKET) : (L i).length ≤ NBUF := by
  have hsub : L i ⊆ List.range NBUF := fun j hj => List.mem_range.2 (h.pool i hi j hj)
  have := (List.subperm_of_subset (h.nodup i hi) hsub).length_le
  simpa using this

theorem ChainInv.same_bucket {NBUF : Nat} {s : State} {L : Nat → List Nat}
    (h : ChainInv NBUF s L) {i k j : Nat} (hi : i < NBUCKET) (hk : k < NBUCKET)
    (hji : j ∈ L i) (hjk : j ∈ L k) : i = k := by
  rw [← h.hash i hi j hji, ← h.hash k hk j hjk]

theorem ChainInv.mem_bucket {NBUF : Nat} {s : State} {L : Nat → List Nat}
    (h : ChainInv NBUF s L) {j : Nat} (hj : j < NBUF) :
    j ∈ L (BUC (s.buf j).dev (s.buf j).blockno) := by
  obtain ⟨i, hi, hji⟩ := h.cover j hj
  rw [h.hash i hi j hji]; exact hji

theorem ChainInv.mem_scanOrder {NBUF : Nat} {s : State} {L : Nat → List Nat}
    (h : ChainInv NBUF s L) (j : Nat) : j ∈ scanOrder L ↔ j < NBUF := by
  simp only [scanOrder, List.mem_flatMap, List.mem_range]
  constructor
  · rintro ⟨i, hi, hji⟩
    exact h.pool i hi j hji
  · intro hj
    exact h.cover j hj

/-- Chain membership only depends on the buckets and on the fields `next`, `dev` and
`blockno` of the buffers. -/
theorem ChainInv.of_links {NBUF : Nat} {s t : State} {L : Nat → List Nat}
    (h : ChainInv NBUF s L) (hb : t.buckets = s.buckets)
    (hf : ∀ j, (t.buf j).next = (s.buf j).next ∧ (t.buf j).dev = (s.buf j).dev ∧
      (t.buf j).blockno = (s.buf j).blockno) : ChainInv NBUF t L where
  chain i hi := by
    rw [hb]
    exact (h.chain i hi).congr (fun j _ => (hf j).1)
  nodup := h.nodup
  hash i hi j hj := by
    rw [(hf j).2.1, (hf j).2.2]; exact h.hash i hi j hj
  pool := h.pool
  cover := h.cover

theorem ChainInv.sameMem {NBUF : Nat} {s t : State} {L : Nat → List Nat}
    (h : ChainInv NBUF s L) (e : SameMem t s) : ChainInv NBUF t L :=
  h.of_links e.1 (fun j => by rw [e.2.1]; exact ⟨rfl, rfl, rfl⟩)

/-! ## The rebinding keeps chain membership -/

theorem not_mem_of_split {pre post : List Nat} {v : Nat} (h : (pre ++ v :: post).Nodup) :
    v ∉ pre ++ post := by
  have h1 := List.nodup_append.1 h
  have h2 := List.nodup_cons.1 h1.2.1
  intro hv
  rcases List.mem_append.1 hv with hv | hv
  · exact h1.2.2 hv (List.mem_cons_self _ _)
  · exact h2.1 hv

theorem nodup_of_split {pre post : List Nat} {v : Nat} (h : (pre ++ v :: post).Nodup) :
    (pre ++ post).Nodup :=
  List.Nodup.sublist (List.Sublist.append (List.Sublist.refl _) (List.sublist_cons_self _ _)) h

theorem relink_buf_fields (s : State) (r : Ref) (v key j : Nat) :
    (relink s r v key).buf j = { s.buf j with next := ((relink s r v key).buf j).next } := by
  simp only [relink]
  by_cases h : j = v
  · subst h
    simp only [setBuf_buf_same]
    rw [setNext_buf_fields s r _ j]
  · simp only [setBuf_buf_other _ _ _ _ h]
    exact setNext_buf_fields s r _ j

/-- The chains after unlinking the victim and putting it in front of bucket `key`. -/
theorem relink_chain {NBUF : Nat} {s : State} {L : Nat → List Nat} (h : ChainInv NBUF s L)
    {hb key v : Nat} {pre post : List Nat} (hhb : hb < NBUCKET) (hkey : key < NBUCKET)
    (hne : hb ≠ key) (hL : L hb = pre ++ v :: post) (i : Nat) (hi : i < NBUCKET) :
    Chain (nxt (relink s (lastRef (.head hb) pre) v key))
      ((relink s (lastRef (.head hb) pre) v key).buckets i)
      (upd (upd L hb (pre ++ post)) key (v :: L key) i) := by
  have hnd : (pre ++ v :: post).Nodup := hL ▸ h.nodup hb hhb
  have hvhb : v ∈ L hb := by rw [hL]; simp
  have hpre : ∀ m, m ∈ pre → m ∈ L hb := fun m hm => by rw [hL]; simp [hm]
  -- the chains after the unlinking
  have step1 : ∀ k, k < NBUCKET →
      Chain (nxt (s.setNext (lastRef (.head hb) pre) (nxt s v)))
        ((s.setNext (lastRef (.head hb) pre) (nxt s v)).buckets k)
        (upd L hb (pre ++ post) k) := by
    intro k hk
    by_cases e : k = hb
    · subst e
      simp only [upd_same]
      have hc : Chain (nxt s) (s.next (.head k)) (pre ++ v :: post) := hL ▸ h.chain k hk
      exact chain_unlink s pre (.head k) v post hc hnd (fun j e => by cases e)
    · simp only [upd_other _ _ _ _ e]
      have hr : lastRef (.head hb) pre ≠ .head k := by
        rcases lastRef_cases (.head hb) pre with ⟨_, h2⟩ | ⟨m, _, h2⟩
        · rw [h2]; intro e2; cases e2; exact e rfl
        · rw [h2]; intro e2; cases e2
      rw [setNext_buckets_other _ _ _ _ hr]
      refine chain_setNext_other _ _ (h.chain k hk) ?_
      intro j ej hj
      rcases lastRef_cases (.head hb) pre with ⟨_, h2⟩ | ⟨m, hm, h2⟩
      · rw [h2] at ej; cases ej
      · rw [h2] at ej
        cases ej
        exact e (h.same_bucket hk hhb hj (hpre _ hm))
  have hvnot : ∀ k, k < NBUCKET → v ∉ upd L hb (pre ++ post) k := by
    intro k hk
    by_cases e : k = hb
    · subst e
      simp only [upd_same]
      exact not_mem_of_split hnd
    · simp only [upd_other _ _ _ _ e]
      intro hv
      exact e (h.same_bucket hk hhb hv hvhb)
  have hnx : ∀ j, j ≠ v → nxt (relink s (lastRef (.head hb) pre) v key) j =
      nxt (s.setNext (lastRef (.head hb) pre) (nxt s v)) j := by
    intro j hj
    simp [relink, nxt, hj]
  have hnv : nxt (relink s (lastRef (.head hb) pre) v key) v =
      (s.setNext (lastRef (.head hb) pre) (nxt s v)).buckets key := by
    simp [relink, nxt]
  have hbk : ∀ k, k ≠ key → (relink s (lastRef (.head hb) pre) v key).buckets k =
      (s.setNext (lastRef (.head hb) pre) (nxt s v)).buckets k := by
    intro k hk
    simp [relink, nxt, hk]
  have hbkey : (relink s (lastRef (.head hb) pre) v key).buckets key = some v := by
    simp [relink]
  by_cases e : i = key
  · subst e
    rw [upd_same, hbkey]
    refine Chain.cons ?_
    rw [hnv]
    have h1 := step1 i hi
    have h2 := hvnot i hi
    simp only [upd_other _ _ _ _ (Ne.symm hne)] at h1 h2
    exact h1.congr (fun j hj => hnx j (fun e => h2 (e ▸ hj)))
  · rw [upd_other _ _ _ _ e, hbk i e]
    exact (step1 i hi).congr (fun j hj => hnx j (fun e2 => hvnot i hi (e2 ▸ hj)))

/-- The rebinding of the victim `v` keeps chain membership. -/
theorem rebindMem_chainInv {NBUF : Nat} {s : State} {L : Nat → List Nat}
    (h : ChainInv NBUF s L) (dev blockno : Nat) {hb v : Nat} {pre post : List Nat}
    (hhb : hb < NBUCKET) (hL : L hb = pre ++ v :: post) :
    ChainInv NBUF (rebindMem s dev blockno (lastRef (.head hb) pre) hb v)
      (moveChains L hb (BUC dev blockno) v pre post) := by
  have hnd : (pre ++ v :: post).Nodup := hL ▸ h.nodup hb hhb
  have hvhb : v ∈ L hb := by rw [hL]; simp
  have hkey := BUC_lt dev blockno
  have hvp : v < NBUF := h.pool hb hhb v hvhb
  by_cases hne : hb ≠ BUC dev blockno
  · -- the victim moves to the bucket of the key
    have hmem : ∀ i, i < NBUCKET → ∀ j,
        j ∈ upd (upd L hb (pre ++ post)) (BUC dev blockno) (v :: L (BUC dev blockno)) i →
        (j = v ∧ i = BUC dev blockno) ∨ (j ≠ v ∧ j ∈ L i) := by
      intro i hi j hj
      by_cases e : i = BUC dev blockno
      · subst e
        simp only [upd_same, List.mem_cons] at hj
        rcases hj with rfl | hj
        · exact Or.inl ⟨rfl, rfl⟩
        · refine Or.inr ⟨?_, hj⟩
          rintro rfl
          exact hne (h.same_bucket hhb hi hvhb hj)
      · simp only [upd_other _ _ _ _ e] at hj
        by_cases e2 : i = hb
        · subst e2
          simp only [upd_same] at hj
          refine Or.inr ⟨?_, ?_⟩
          · rintro rfl; exact not_mem_of_split hnd hj
          · rw [hL]
            rcases List.mem_append.1 hj with hj | hj
            · simp [hj]
            · simp [hj]
        · simp only [upd_other _ _ _ _ e2] at hj
          refine Or.inr ⟨?_, hj⟩
          rintro rfl
          exact e2 (h.same_bucket hi hhb hj hvhb)
    simp only [rebindMem, moveChains, if_pos hne]
    refine ⟨?_, ?_, ?_, ?_, ?_⟩
    · intro i hi
      exact chain_setBuf_keep v _ rfl (relink_chain h hhb hkey hne hL i hi)
    · intro i hi
      by_cases e : i = BUC dev blockno
      · subst e
        simp only [upd_same]
        refine List.nodup_cons.2 ⟨?_, h.nodup _ hi⟩
        intro hv
        exact hne (h.same_bucket hhb hi hvhb hv)
      · simp only [upd_other _ _ _ _ e]
        by_cases e2 : i = hb
        · subst e2
          simp only [upd_same]
          exact nodup_of_split hnd
        · simp only [upd_other _ _ _ _ e2]
          exact h.nodup i hi
    · intro i hi j hj
      rcases hmem i hi j hj with ⟨rfl, rfl⟩ | ⟨hjv, hjL⟩
      · simp
      · rw [setBuf_buf_other _ _ _ _ hjv, relink_buf_fields]
        exact h.hash i hi j hjL
    · intro i hi j hj
      rcases hmem i hi j hj with ⟨rfl, rfl⟩ | ⟨_, hjL⟩
      · exact hvp
      · exact h.pool i hi j hjL
    · intro j hj
      by_cases e : j = v
      · subst e
        exact ⟨_, hkey, by simp⟩
      · obtain ⟨i, hi, hji⟩ := h.cover j hj
        refine ⟨i, hi, ?_⟩
        by_cases e1 : i = BUC dev blockno
        · subst e1
          simp [hji]
        · simp only [upd_other _ _ _ _ e1]
          by_cases e2 : i = hb
          · subst e2
            simp only [upd_same]
            rw [hL] at hji
            rcases List.mem_append.1 hji with hj | hj
            · simp [hj]
            · rcases List.mem_cons.1 hj with rfl | hj
              · exact absurd rfl e
              · simp [hj]
          · simp only [upd_other _ _ _ _ e2]
            exact hji
  · -- the victim stays in its bucket
    have hEq : hb = BUC dev blockno := not_not.1 hne
    simp only [rebindMem, moveChains, if_neg hne]
    refine ⟨?_, h.nodup, ?_, h.pool, h.cover⟩
    · intro i hi
      exact chain_setBuf_keep v _ rfl (h.chain i hi)
    · intro i hi j hj
      by_cases e : j = v
      · subst e
        simp only [setBuf_buf_same]
        rw [← hEq]
        exact h.same_bucket hhb hi hvhb hj
      · rw [setBuf_buf_other _ _ _ _ e]
        exact h.hash i hi j hj

/-! ## The shape of a call of `bget` -/

theorem SameMem.eq_log {t s : State} (h : SameMem t s) : t = { s with log := t.log } := by
  obtain ⟨h1, h2, h3, h4, h5⟩ := h
  cases t; cases s
  simp only at h1 h2 h3 h4 h5
  subst h1 h2 h3 h4 h5
  rfl

theorem rebindMem_withLog (s : State) (l : List Ev) (dev blockno : Nat) (r : Ref) (hb v : Nat) :
    SameMem (rebindMem { s with log := l } dev blockno r hb v) (rebindMem s dev blockno r hb v) := by
  cases r <;> by_cases h : hb = BUC dev blockno <;>
    simp only [rebindMem, h, ne_eq, not_true_eq_false, not_false_eq_true, if_true, if_false] <;>
    exact ⟨rfl, rfl, rfl, rfl, rfl⟩

theorem SameMem.rebindMem {t s : State} (h : SameMem t s) (dev blockno : Nat) (r : Ref)
    (hb v : Nat) :
    SameMem (rebindMem t dev blockno r hb v) (rebindMem s dev blockno r hb v) := by
  rw [h.eq_log]
  exact rebindMem_withLog s _ dev blockno r hb v

theorem sleepReturn_ok {pid : Nat} {t s2 : State} {b b2 : Nat}
    (h : sleepReturn pid t b = .ok s2 b2) :
    (t.buf b).lock = none ∧ b2 = b ∧ s2 = t.setBuf b (fun x => { x with lock := some pid }) := by
  simp only [sleepReturn, acquiresleep] at h
  cases hl : (t.buf b).lock with
  | none =>
    simp only [hl, Outcome.ok.injEq] at h
    exact ⟨rfl, h.2.symm, h.1.symm⟩
  | some q => simp [hl] at h

theorem sleepReturn_of_free {pid : Nat} {t : State} {b : Nat} (h : (t.buf b).lock = none) :
    sleepReturn pid t b = .ok (t.setBuf b (fun x => { x with lock := some pid })) b := by
  simp [sleepReturn, acquiresleep, h]

theorem sleepReturn_of_held {pid q : Nat} {t : State} {b : Nat} (h : (t.buf b).lock = some q) :
    sleepReturn pid t b = .blocked t b := by
  simp [sleepReturn, acquiresleep, h]

theorem sleepReturn_blocked {pid : Nat} {t s2 : State} {b b2 : Nat}
    (h : sleepReturn pid t b = .blocked s2 b2) :
    (t.buf b).lock ≠ none ∧ b2 = b ∧ s2 = t := by
  simp only [sleepReturn, acquiresleep] at h
  cases hl : (t.buf b).lock with
  | none => simp [hl] at h
  | some q =>
    simp only [hl, Outcome.blocked.injEq] at h
    exact ⟨by simp, h.2.symm, h.1.symm⟩

theorem sleepReturn_state (pid : Nat) (t : State) (b : Nat) :
    ∃ s2, (sleepReturn pid t b).state? = some s2 ∧
      (s2 = t ∨ s2 = t.setBuf b (fun x => { x with lock := some pid })) := by
  cases hl : (t.buf b).lock with
  | none => rw [sleepReturn_of_free hl]; exact ⟨_, rfl, Or.inr rfl⟩
  | some q => rw [sleepReturn_of_held hl]; exact ⟨_, rfl, Or.inl rfl⟩

theorem sleepReturn_ne_panic {pid : Nat} {t s2 : State} {b : Nat} {msg : String} :
    sleepReturn pid t b ≠ .panic msg s2 := by
  cases hl : (t.buf b).lock with
  | none => rw [sleepReturn_of_free hl]; simp
  | some q => rw [sleepReturn_of_held hl]; simp

/-- The rebinding, when `before_least->next` is the buffer `v`. -/
theorem rebind_eq (pid : Nat) {t : State} (dev blockno : Nat) {r : Ref} (hb : Nat) {v : Nat}
    (h : t.next r = some v) :
    ∃ t6, SameMem t6 (rebindMem t dev blockno r hb v) ∧
      rebind pid t dev blockno r hb = sleepReturn pid t6 v := by
  simp only [rebind, h]
  refine ⟨_, ?_, rfl⟩
  by_cases e : hb = BUC dev blockno
  · simp only [rebindMem, e, ne_eq, not_true_eq_false, if_false]
    exact ⟨rfl, rfl, rfl, rfl, rfl⟩
  · simp only [rebindMem, e, ne_eq, not_false_eq_true, if_true]
    cases r <;> exact ⟨rfl, rfl, rfl, rfl, rfl⟩

theorem bget_of_lookup_none {NBUF pid : Nat} {s : State} {dev blockno : Nat}
    (h : lookup s dev blockno (NBUF + 1) (s.buckets (BUC dev blockno)) = none) :
    bget NBUF pid s dev blockno = .diverge := by
  have e := lookup_sameMem (sameMem_acquire s (.bucket (BUC dev blockno))) dev blockno
    (NBUF + 1) (s.buckets (BUC dev blockno))
  simp only [bget, acquire_buckets, e, h]

theorem bget_of_lookup_some {NBUF : Nat} (pid : Nat) {s : State} {dev blockno b : Nat}
    (h : lookup s dev blockno (NBUF + 1) (s.buckets (BUC dev blockno)) = some (some b)) :
    ∃ t, SameMem t (incRef s b) ∧ bget NBUF pid s dev blockno = sleepReturn pid t b := by
  have e := lookup_sameMem (sameMem_acquire s (.bucket (BUC dev blockno))) dev blockno
    (NBUF + 1) (s.buckets (BUC dev blockno))
  simp only [bget, acquire_buckets, e, h]
  refine ⟨_, ?_, rfl⟩
  exact ⟨rfl, rfl, rfl, rfl, rfl⟩

theorem bget_of_lookup_miss {NBUF pid : Nat} {s : State} {dev blockno : Nat}
    (h : lookup s dev blockno (NBUF + 1) (s.buckets (BUC dev blockno)) = some none) :
    bget NBUF pid s dev blockno =
      match scanBuckets NBUF (List.range NBUCKET)
          (acquire (release (acquire s (.bucket (BUC dev blockno))) (.bucket (BUC dev blockno)))
            .evic) none NOBUCKET with
      | none => .diverge
      | some (s3, none, _) => .panic "bget: no buffers" s3
      | some (s3, some before_least, holding_bucket) =>
        rebind pid s3 dev blockno before_least holding_bucket := by
  have e := lookup_sameMem (sameMem_acquire s (.bucket (BUC dev blockno))) dev blockno
    (NBUF + 1) (s.buckets (BUC dev blockno))
  have e2 := lookup_sameMem ((sameMem_acquire (release (acquire s (.bucket (BUC dev blockno)))
    (.bucket (BUC dev blockno))) .evic).trans ((sameMem_release _ _).trans
      (sameMem_acquire s (.bucket (BUC dev blockno))))) dev blockno
    (NBUF + 1) (s.buckets (BUC dev blockno))
  simp only [bget, acquire_buckets, release_buckets, e, e2, h]

/-- The lookup of `bget` in a state with chain membership. -/
theorem lookup_of_chainInv {NBUF : Nat} {s : State} {L : Nat → List Nat}
    (h : ChainInv NBUF s L) (dev blockno : Nat) :
    lookup s dev blockno (NBUF + 1) (s.buckets (BUC dev blockno)) =
      some ((L (BUC dev blockno)).find? (fun j => decide (bound s dev blockno j))) :=
  lookup_chain s dev blockno (h.chain _ (BUC_lt dev blockno)) (NBUF + 1)
    (Nat.lt_succ_of_le (h.length_le (BUC_lt dev blockno)))

/-- In a state with chain membership the lookup finds a buffer exactly when the key is
resident. -/
theorem find_none_iff {NBUF : Nat} {s : State} {L : Nat → List Nat}
    (h : ChainInv NBUF s L) (dev blockno : Nat) :
    (L (BUC dev blockno)).find? (fun j => decide (bound s dev blockno j)) = none ↔
      ¬ resident NBUF s dev blockno := by
  rw [List.find?_eq_none]
  constructor
  · rintro h1 ⟨j, hj, hb⟩
    have := h.mem_bucket hj
    rw [hb.1, hb.2] at this
    exact h1 j this (by simpa using hb)
  · intro h1 j hj hb
    exact h1 ⟨j, h.pool _ (BUC_lt dev blockno) j hj, by simpa using hb⟩

/-- A hit of `bget` in a state with chain membership. -/
theorem bget_hit {NBUF : Nat} (pid : Nat) {s : State} {L : Nat → List Nat}
    (h : ChainInv NBUF s L) {dev blockno b : Nat}
    (hf : (L (BUC dev blockno)).find? (fun j => decide (bound s dev blockno j)) = some b) :
    ∃ t, SameMem t (incRef s b) ∧ bget NBUF pid s dev blockno = sleepReturn pid t b :=
  bget_of_lookup_some pid (by rw [lookup_of_chainInv h, hf])

/-- A miss of `bget` in a state with chain membership: a panic when the scan chooses no
buffer, else the rebinding of the buffer `v` the scan chooses. -/
theorem bget_miss {NBUF : Nat} (pid : Nat) {s : State} {L : Nat → List Nat}
    (h : ChainInv NBUF s L) {dev blockno : Nat}
    (hf : (L (BUC dev blockno)).find? (fun j => decide (bound s dev blockno j)) = none) :
    (pick s none (scanOrder L) = none ∧
      ∃ t, SameMem t s ∧ bget NBUF pid s dev blockno = .panic "bget: no buffers" t) ∨
    (∃ hb pre v post t6, hb < NBUCKET ∧ L hb = pre ++ v :: post ∧
      pick s none (scanOrder L) = some v ∧ (s.buf v).refcnt = 0 ∧
      SameMem t6 (rebindMem s dev blockno (lastRef (.head hb) pre) hb v) ∧
      bget NBUF pid s dev blockno = sleepReturn pid t6 v) := by
  rw [bget_of_lookup_miss (by rw [lookup_of_chainInv h, hf])]
  have hs0 : SameMem (acquire (release (acquire s (.bucket (BUC dev blockno)))
      (.bucket (BUC dev blockno))) .evic) s := ⟨rfl, rfl, rfl, rfl, rfl⟩
  obtain ⟨s3, bl, hb, h1, h2, h3, h4, h5⟩ :=
    scanBuckets_spec NBUF s L (List.range NBUCKET) _ none NOBUCKET
      (fun i hi => ⟨List.mem_range.1 hi, h.chain i (List.mem_range.1 hi),
        h.length_le (List.mem_range.1 hi)⟩) hs0 (fun r hr => by simp at hr) (Or.inl rfl)
  simp only [h1]
  have h5b : victim s bl = pick s none (scanOrder L) := h5
  cases bl with
  | none =>
    left
    exact ⟨by rw [← h5b]; rfl, s3, h2, rfl⟩
  | some r =>
    right
    rcases h4 with h4 | ⟨hhb, pre, v, post, hL, hr⟩
    · simp at h4
    · simp only [Option.some.injEq] at hr
      subst hr
      have hc : Chain (nxt s) (s.next (.head hb)) (pre ++ v :: post) := hL ▸ h.chain hb hhb
      have hnext := (chain_split s pre (.head hb) v post hc).1
      obtain ⟨m, hm1, hm2⟩ := h3 _ rfl
      rw [hnext] at hm1
      simp only [Option.some.injEq] at hm1
      subst hm1
      have hnext3 : s3.next (lastRef (.head hb) pre) = some v := by rw [h2.next]; exact hnext
      obtain ⟨t6, ht6, hreb⟩ := rebind_eq pid dev blockno hb hnext3
      refine ⟨hb, pre, v, post, t6, hhb, hL, ?_, hm2, ht6.trans (h2.rebindMem _ _ _ _ _), hreb⟩
      rw [← h5b]; simp [victim, hnext]

/-! ## Fields after a hit and after a rebinding -/

theorem rebindMem_buf_other (s : State) (dev blockno : Nat) (r : Ref) (hb v j : Nat)
    (h : j ≠ v) :
    (rebindMem s dev blockno r hb v).buf j =
      { s.buf j with next := ((rebindMem s dev blockno r hb v).buf j).next } := by
  simp only [rebindMem, setBuf_buf_other _ _ _ _ h]
  split
  · exact relink_buf_fields s r v _ j
  · rfl

theorem rebindMem_buf_same (s : State) (dev blockno : Nat) (r : Ref) (hb v : Nat) :
    (rebindMem s dev blockno r hb v).buf v =
      { s.buf v with dev := dev, blockno := blockno, refcnt := 1, valid := 0,
                     next := ((rebindMem s dev blockno r hb v).buf v).next } := by
  simp only [rebindMem, setBuf_buf_same]
  split
  · rw [relink_buf_fields s r v _ v]
  · rfl

theorem rebindMem_disk (s : State) (dev blockno : Nat) (r : Ref) (hb v : Nat) :
    (rebindMem s dev blockno r hb v).disk = s.disk ∧
      (rebindMem s dev blockno r hb v).nread = s.nread ∧
      (rebindMem s dev blockno r hb v).nwrite = s.nwrite := by
  simp only [rebindMem]
  split <;> cases r <;> exact ⟨rfl, rfl, rfl⟩

theorem missMem_buf_other (pid : Nat) (s : State) (dev blockno : Nat) (r : Ref) (hb v j : Nat)
    (h : j ≠ v) :
    (missMem pid s dev blockno r hb v).buf j =
      { s.buf j with next := ((missMem pid s dev blockno r hb v).buf j).next } := by
  simp only [missMem, setBuf_buf_other _ _ _ _ h]
  exact rebindMem_buf_other s dev blockno r hb v j h

theorem missMem_buf_same (pid : Nat) (s : State) (dev blockno : Nat) (r : Ref) (hb v : Nat) :
    (missMem pid s dev blockno r hb v).buf v =
      { s.buf v with dev := dev, blockno := blockno, refcnt := 1, valid := 0, lock := some pid,
                     next := ((missMem pid s dev blockno r hb v).buf v).next } := by
  simp only [missMem, setBuf_buf_same]
  rw [rebindMem_buf_same]

theorem hitMem_buf_other (pid : Nat) (s : State) (b j : Nat) (h : j ≠ b) :
    (hitMem pid s b).buf j = s.buf j := by
  simp [hitMem, incRef, h]

theorem hitMem_buf_same (pid : Nat) (s : State) (b : Nat) :
    (hitMem pid s b).buf b =
      { s.buf b with refcnt := ((s.buf b).refcnt + 1) % UINT, lock := some pid } := by
  simp [hitMem, incRef]

/-- A call of `bget` that returns, in a state with chain membership: a hit on the first
buffer of the key in its chain, or the rebinding of the buffer the scan chooses. -/
theorem bget_ok_cases {NBUF pid : Nat} {s s2 : State} {L : Nat → List Nat}
    {dev blockno b : Nat} (h : ChainInv NBUF s L)
    (hok : bget NBUF pid s dev blockno = .ok s2 b) :
    (resident NBUF s dev blockno ∧
      (L (BUC dev blockno)).find? (fun j => decide (bound s dev blockno j)) = some b ∧
      (s.buf b).lock = none ∧ SameMem s2 (hitMem pid s b)) ∨
    (¬ resident NBUF s dev blockno ∧ ∃ hb pre post, hb < NBUCKET ∧ L hb = pre ++ b :: post ∧
      pick s none (scanOrder L) = some b ∧ (s.buf b).refcnt = 0 ∧ (s.buf b).lock = none ∧
      SameMem s2 (missMem pid s dev blockno (lastRef (.head hb) pre) hb b)) := by
  cases hf : (L (BUC dev blockno)).find? (fun j => decide (bound s dev blockno j)) with
  | some b0 =>
    left
    obtain ⟨t, ht, e⟩ := bget_hit pid h hf
    rw [e] at hok
    obtain ⟨h1, rfl, rfl⟩ := sleepReturn_ok hok
    refine ⟨?_, rfl, ?_, ?_⟩
    · by_contra hn
      rw [(find_none_iff h dev blockno).2 hn] at hf
      cases hf
    · rw [ht.2.1] at h1
      simpa [incRef] using h1
    · exact ht.setBuf _ _
  | none =>
    right
    refine ⟨(find_none_iff h dev blockno).1 hf, ?_⟩
    rcases bget_miss pid h hf with ⟨_, t, _, e⟩ | ⟨hb, pre, v, post, t6, h1, h2, h3, h4, h5, e⟩
    · rw [e] at hok; cases hok
    · rw [e] at hok
      obtain ⟨k1, rfl, rfl⟩ := sleepReturn_ok hok
      refine ⟨hb, pre, post, h1, h2, h3, h4, ?_, h5.setBuf _ _⟩
      rw [h5.2.1, rebindMem_buf_same] at k1
      exact k1

/-! ## The invariant is kept by every call -/

theorem Inv.of_sameMem {NBUF : Nat} {σ : Sys} {L : Nat → List Nat} (h : Inv NBUF σ L)
    {t : State} (e : SameMem t σ.st) : Inv NBUF { σ with st := t } L := by
  have hb : t.buf = σ.st.buf := e.2.1
  refine ⟨h.chains.sameMem e, ?_, ?_⟩
  · intro i hi
    refine List.Pairwise.imp ?_ (h.uniq i hi)
    intro a c hs
    simpa [shadow, pristine, hb] using hs
  · intro j
    simpa [hb] using h.valid01 j

/-- A shadowed buffer stays shadowed when its key, the key of the buffer before it and
its own pristine status stay as they are. -/
theorem shadow_transfer {σ τ : Sys} {a c : Nat}
    (ha : (τ.st.buf a).dev = (σ.st.buf a).dev ∧ (τ.st.buf a).blockno = (σ.st.buf a).blockno)
    (hc : (τ.st.buf c).dev = (σ.st.buf c).dev ∧ (τ.st.buf c).blockno = (σ.st.buf c).blockno)
    (hp : pristine σ c → pristine τ c) (h : shadow σ a c) : shadow τ a c := by
  intro hne hd hn
  rw [ha.1, hc.1] at hd
  rw [ha.2, hc.2] at hn
  exact hp (h hne hd hn)

/-- A call that leaves all keys and changes one buffer `b` which is not pristine keeps
uniqueness. -/
theorem uniq_touch {σ τ : Sys} {b : Nat} {l : List Nat}
    (hk : ∀ j, (τ.st.buf j).dev = (σ.st.buf j).dev ∧ (τ.st.buf j).blockno = (σ.st.buf j).blockno)
    (hp : ∀ j, j ≠ b → pristine σ j → pristine τ j) (hb : ¬ pristine σ b)
    (h : l.Pairwise (shadow σ)) : l.Pairwise (shadow τ) := by
  refine List.Pairwise.imp ?_ h
  intro a c hs
  refine shadow_transfer (hk a) (hk c) ?_ hs
  intro hpc
  by_cases e : c = b
  · subst e; exact absurd hpc hb
  · exact hp c e hpc

/-- A call that leaves all keys and changes one buffer `b`, the first of its key in its
chain, keeps uniqueness. -/
theorem uniq_touch_first {σ τ : Sys} {b : Nat} {l as bs : List Nat}
    (hk : ∀ j, (τ.st.buf j).dev = (σ.st.buf j).dev ∧ (τ.st.buf j).blockno = (σ.st.buf j).blockno)
    (hp : ∀ j, j ≠ b → pristine σ j → pristine τ j)
    (hl : l = as ++ b :: bs) (hnd : l.Nodup)
    (hfirst : ∀ a ∈ as, ¬ ((σ.st.buf a).dev = (σ.st.buf b).dev ∧
      (σ.st.buf a).blockno = (σ.st.buf b).blockno))
    (h : l.Pairwise (shadow σ)) : l.Pairwise (shadow τ) := by
  subst hl
  have hnd1 := List.nodup_append.1 hnd
  have hnd2 := List.nodup_cons.1 hnd1.2.1
  have tr : ∀ a c, c ≠ b → shadow σ a c → shadow τ a c := fun a c hc hs =>
    shadow_transfer (hk a) (hk c) (hp c hc) hs
  rw [List.pairwise_append, List.pairwise_cons] at h ⊢
  obtain ⟨h1, ⟨h2, h3⟩, h4⟩ := h
  refine ⟨?_, ⟨?_, ?_⟩, ?_⟩
  · refine List.Pairwise.imp_of_mem ?_ h1
    intro a c _ hc hs
    exact tr a c (fun e => hnd1.2.2 (e ▸ hc) (List.mem_cons_self _ _)) hs
  · intro c hc
    exact tr b c (fun e => hnd2.1 (e ▸ hc)) (h2 c hc)
  · refine List.Pairwise.imp_of_mem ?_ h3
    intro a c _ hc hs
    exact tr a c (fun e => hnd2.1 (e ▸ hc)) hs
  · intro a ha c hc
    rcases List.mem_cons.1 hc with rfl | hc2
    · intro _ hd hn
      rw [(hk a).1, (hk c).1] at hd
      rw [(hk a).2, (hk c).2] at hn
      exact absurd ⟨hd, hn⟩ (hfirst a ha)
    · exact tr a c (fun e => hnd2.1 (e ▸ hc2)) (h4 a ha c hc)

theorem Inv.of_mem {NBUF : Nat} {σ : Sys} {L : Nat → List Nat} (h : Inv NBUF σ L)
    {t : State} (e1 : t.buckets = σ.st.buckets) (e2 : t.buf = σ.st.buf) :
    Inv NBUF { σ with st := t } L := by
  refine ⟨h.chains.of_links e1 (fun j => by rw [e2]; exact ⟨rfl, rfl, rfl⟩), ?_, ?_⟩
  · intro i hi
    refine List.Pairwise.imp ?_ (h.uniq i hi)
    intro a c hs
    simpa [shadow, pristine, e2] using hs
  · intro j
    simpa [e2] using h.valid01 j

/-- A call that changes neither keys nor links and only touches a buffer that is not
pristine keeps the invariant. -/
theorem Inv.touch {NBUF : Nat} {σ τ : Sys} {L : Nat → List Nat} {b : Nat} (h : Inv NBUF σ L)
    (hbk : τ.st.buckets = σ.st.buckets)
    (hf : ∀ j, (τ.st.buf j).next = (σ.st.buf j).next ∧ (τ.st.buf j).dev = (σ.st.buf j).dev ∧
      (τ.st.buf j).blockno = (σ.st.buf j).blockno)
    (ho : ∀ j, j ≠ b → τ.st.buf j = σ.st.buf j ∧ τ.pins j = σ.pins j)
    (hb : ¬ pristine σ b) (hv : ∀ j, (τ.st.buf j).valid ≤ 1) : Inv NBUF τ L := by
  refine ⟨h.chains.of_links hbk hf, ?_, hv⟩
  intro i hi
  refine uniq_touch (fun j => ⟨(hf j).2.1, (hf j).2.2⟩) ?_ hb (h.uniq i hi)
  intro j hj hp
  obtain ⟨e1, e2⟩ := ho j hj
  simpa [pristine, e1, e2] using hp

theorem uniq_of_not_mem {σ τ : Sys} {b : Nat} {l : List Nat}
    (hk : ∀ j, (τ.st.buf j).dev = (σ.st.buf j).dev ∧ (τ.st.buf j).blockno = (σ.st.buf j).blockno)
    (hp : ∀ j, j ≠ b → pristine σ j → pristine τ j) (hb : b ∉ l)
    (h : l.Pairwise (shadow σ)) : l.Pairwise (shadow τ) := by
  refine List.Pairwise.imp_of_mem ?_ h
  intro a c _ hc hs
  exact shadow_transfer (hk a) (hk c) (hp c (fun e => hb (e ▸ hc))) hs

/-- A hit of `bget` keeps the invariant. -/
theorem Inv.hit {NBUF : Nat} {σ : Sys} {L : Nat → List Nat} (h : Inv NBUF σ L) (pid : Nat)
    {dev blockno b : Nat}
    (hf : (L (BUC dev blockno)).find? (fun j => decide (bound σ.st dev blockno j)) = some b) :
    Inv NBUF { σ with st := hitMem pid σ.st b } L := by
  have hk : ∀ j, ((hitMem pid σ.st b).buf j).next = (σ.st.buf j).next ∧
      ((hitMem pid σ.st b).buf j).dev = (σ.st.buf j).dev ∧
      ((hitMem pid σ.st b).buf j).blockno = (σ.st.buf j).blockno := by
    intro j
    by_cases e : j = b
    · subst e; rw [hitMem_buf_same]; exact ⟨rfl, rfl, rfl⟩
    · rw [hitMem_buf_other _ _ _ _ e]; exact ⟨rfl, rfl, rfl⟩
  have hp : ∀ j, j ≠ b → pristine σ j → pristine { σ with st := hitMem pid σ.st b } j := by
    intro j hj hp
    simpa [pristine, hitMem_buf_other _ _ _ _ hj] using hp
  obtain ⟨hpb, as, bs, hl, hfirst⟩ := List.find?_eq_some.1 hf
  have hbm : b ∈ L (BUC dev blockno) := by rw [hl]; simp
  have hpb2 : bound σ.st dev blockno b := by simpa using hpb
  refine ⟨h.chains.of_links rfl hk, ?_, ?_⟩
  · intro i hi
    by_cases e : i = BUC dev blockno
    · subst e
      refine uniq_touch_first (fun j => ⟨(hk j).2.1, (hk j).2.2⟩) hp hl (h.chains.nodup _ hi) ?_
        (h.uniq _ hi)
      intro a ha hab
      have := hfirst a ha
      simp only [Bool.not_eq_true', decide_eq_false_iff_not] at this
      exact this ⟨hab.1.trans hpb2.1, hab.2.trans hpb2.2⟩
    · refine uniq_of_not_mem (fun j => ⟨(hk j).2.1, (hk j).2.2⟩) hp ?_ (h.uniq i hi)
      intro hbi
      exact e (h.chains.same_bucket hi (BUC_lt dev blockno) hbi hbm)
  · intro j
    by_cases e : j = b
    · subst e
      simp only [hitMem_buf_same]
      exact h.valid01 j
    · simp only [hitMem_buf_other _ _ _ _ e]
      exact h.valid01 j

/-- A rebinding of `bget` keeps the invariant. -/
theorem Inv.miss {NBUF : Nat} {σ : Sys} {L : Nat → List Nat} (h : Inv NBUF σ L) (pid : Nat)
    {dev blockno hb v : Nat} {pre post : List Nat}
    (hres : ¬ resident NBUF σ.st dev blockno) (hhb : hb < NBUCKET)
    (hL : L hb = pre ++ v :: post) :
    Inv NBUF { σ with st := missMem pid σ.st dev blockno (lastRef (.head hb) pre) hb v }
      (moveChains L hb (BUC dev blockno) v pre post) := by
  have hc := rebindMem_chainInv h.chains dev blockno hhb hL
  have hvhb : v ∈ L hb := by rw [hL]; simp
  have hnd : (pre ++ v :: post).Nodup := hL ▸ h.chains.nodup hb hhb
  -- the fields of the buffers after the call
  have hother : ∀ j, j ≠ v →
      ((missMem pid σ.st dev blockno (lastRef (.head hb) pre) hb v).buf j).dev = (σ.st.buf j).dev ∧
      ((missMem pid σ.st dev blockno (lastRef (.head hb) pre) hb v).buf j).blockno =
        (σ.st.buf j).blockno ∧
      ((missMem pid σ.st dev blockno (lastRef (.head hb) pre) hb v).buf j).refcnt =
        (σ.st.buf j).refcnt ∧
      ((missMem pid σ.st dev blockno (lastRef (.head hb) pre) hb v).buf j).valid =
        (σ.st.buf j).valid ∧
      ((missMem pid σ.st dev blockno (lastRef (.head hb) pre) hb v).buf j).lock =
        (σ.st.buf j).lock := by
    intro j hj
    rw [missMem_buf_other _ _ _ _ _ _ _ _ hj]
    exact ⟨rfl, rfl, rfl, rfl, rfl⟩
  have hsame : ((missMem pid σ.st dev blockno (lastRef (.head hb) pre) hb v).buf v).dev = dev ∧
      ((missMem pid σ.st dev blockno (lastRef (.head hb) pre) hb v).buf v).blockno = blockno ∧
      ((missMem pid σ.st dev blockno (lastRef (.head hb) pre) hb v).buf v).valid = 0 := by
    rw [missMem_buf_same]
    exact ⟨rfl, rfl, rfl⟩
  -- shadows among pool buffers survive, and the rebound buffer has a key of its own
  have sh : ∀ a c, a < NBUF → c < NBUF → (a ≠ v → c ≠ v → shadow σ a c) →
      shadow { σ with st := missMem pid σ.st dev blockno (lastRef (.head hb) pre) hb v } a c := by
    intro a c ha hcp hs hne hd hn
    by_cases ea : a = v
    · subst ea
      have hcv : c ≠ a := fun e => hne e.symm
      obtain ⟨k1, k2, _⟩ := hother c hcv
      simp only at hd hn
      rw [hsame.1, k1] at hd
      rw [hsame.2.1, k2] at hn
      exact absurd ⟨c, hcp, hd.symm, hn.symm⟩ hres
    · by_cases ec : c = v
      · subst ec
        obtain ⟨k1, k2, _⟩ := hother a ea
        simp only at hd hn
        rw [hsame.1, k1] at hd
        rw [hsame.2.1, k2] at hn
        exact absurd ⟨a, ha, hd, hn⟩ hres
      · obtain ⟨k1, k2, _⟩ := hother a ea
        obtain ⟨c1, c2, c3, c4, c5⟩ := hother c ec
        simp only at hd hn
        rw [k1, c1] at hd
        rw [k2, c2] at hn
        have := hs ea ec hne hd hn
        simpa [pristine, c3, c4, c5] using this
  have pw : ∀ l : List Nat, (∀ x ∈ l, x < NBUF) → l.Pairwise (shadow σ) →
      l.Pairwise
        (shadow { σ with st := missMem pid σ.st dev blockno (lastRef (.head hb) pre) hb v }) := by
    intro l hl hp
    refine List.Pairwise.imp_of_mem ?_ hp
    intro a c ha hc hs
    exact sh a c (hl a ha) (hl c hc) (fun _ _ => hs)
  refine ⟨?_, ?_, ?_⟩
  · refine hc.of_links rfl (fun j => ?_)
    by_cases e : j = v
    · subst e; simp [missMem]
    · simp [missMem, e]
  · intro i hi
    by_cases hne : hb = BUC dev blockno
    · have hm : moveChains L hb (BUC dev blockno) v pre post = L := by simp [moveChains, hne]
      rw [hm]
      exact pw _ (h.chains.pool i hi) (h.uniq i hi)
    · have hm : moveChains L hb (BUC dev blockno) v pre post =
          upd (upd L hb (pre ++ post)) (BUC dev blockno) (v :: L (BUC dev blockno)) := by
        simp [moveChains, hne]
      rw [hm]
      by_cases e : i = BUC dev blockno
      · subst e
        rw [upd_same, List.pairwise_cons]
        refine ⟨?_, pw _ (h.chains.pool _ hi) (h.uniq _ hi)⟩
        intro c hcm
        have hcv : c ≠ v := by
          rintro rfl
          exact hne (h.chains.same_bucket hhb hi hvhb hcm)
        exact sh v c (h.chains.pool hb hhb v hvhb) (h.chains.pool _ hi c hcm)
          (fun e => absurd rfl e)
      · rw [upd_other _ _ _ _ e]
        by_cases e2 : i = hb
        · subst e2
          rw [upd_same]
          have hsub : (pre ++ post).Sublist (L i) := by
            rw [hL]
            exact List.Sublist.append (List.Sublist.refl _) (List.sublist_cons_self _ _)
          refine pw _ ?_ (List.Pairwise.sublist hsub (h.uniq i hi))
          intro x hx
          exact h.chains.pool i hi x (hsub.subset hx)
        · rw [upd_other _ _ _ _ e2]
          exact pw _ (h.chains.pool i hi) (h.uniq i hi)
  · intro j
    by_cases e : j = v
    · subst e
      simp only [hsame.2.2]
      omega
    · simp only [(hother j e).2.2.2.1]
      exact h.valid01 j

/-- A call of `bget` that returns keeps the invariant. -/
theorem Inv.bget {NBUF pid : Nat} {σ : Sys} {L : Nat → List Nat} (h : Inv NBUF σ L)
    {dev blockno b : Nat} {s2 : State} (hok : bget NBUF pid σ.st dev blockno = .ok s2 b) :
    ∃ L2, Inv NBUF { σ with st := s2 } L2 := by
  rcases bget_ok_cases h.chains hok with ⟨_, hf, _, hs⟩ | ⟨hres, hb, pre, post, hhb, hL, _, _, _, hs⟩
  · exact ⟨L, (h.hit pid hf).of_sameMem hs⟩
  · exact ⟨_, (h.miss pid hres hhb hL).of_sameMem hs⟩

/-- What `bget` returns, in a state with chain membership: a buffer of the pool, bound to
the key, with the sleep lock held by the caller. -/
theorem bget_ok_post {NBUF pid : Nat} {s s2 : State} {L : Nat → List Nat}
    {dev blockno b : Nat} (h : ChainInv NBUF s L)
    (hok : bget NBUF pid s dev blockno = .ok s2 b) :
    b < NBUF ∧ bound s2 dev blockno b ∧ (s2.buf b).lock = some pid ∧
      (∀ j, j ≠ b → (s2.buf j).dev = (s.buf j).dev ∧ (s2.buf j).blockno = (s.buf j).blockno ∧
        (s2.buf j).valid = (s.buf j).valid ∧ (s2.buf j).data = (s.buf j).data ∧
        (s2.buf j).refcnt = (s.buf j).refcnt ∧ (s2.buf j).lock = (s.buf j).lock ∧
        (s2.buf j).last_used = (s.buf j).last_used) ∧
      (s2.buf b).data = (s.buf b).data ∧ (s2.buf b).last_used = (s.buf b).last_used ∧
      s2.disk = s.disk ∧ s2.nread = s.nread ∧ s2.nwrite = s.nwrite := by
  rcases bget_ok_cases h hok with ⟨_, hf, _, hs⟩ | ⟨_, hb, pre, post, hhb, hL, _, _, _, hs⟩
  · obtain ⟨hpb, as, bs, hl, _⟩ := List.find?_eq_some.1 hf
    have hpb2 : bound s dev blockno b := by simpa using hpb
    have hbm : b ∈ L (BUC dev blockno) := by rw [hl]; simp
    refine ⟨h.pool _ (BUC_lt dev blockno) b hbm, ?_, ?_, ?_, ?_, ?_, hs.2.2.1, hs.2.2.2.1,
      hs.2.2.2.2⟩
    · simp only [bound, hs.2.1, hitMem_buf_same]; exact hpb2
    · simp only [hs.2.1, hitMem_buf_same]
    · intro j hj
      simp [hs.2.1, hitMem_buf_other _ _ _ _ hj]
    · simp only [hs.2.1, hitMem_buf_same]
    · simp only [hs.2.1, hitMem_buf_same]
  · have hd := rebindMem_disk s dev blockno (lastRef (.head hb) pre) hb b
    refine ⟨h.pool hb hhb b (by rw [hL]; simp), ?_, ?_, ?_, ?_, ?_, ?_, ?_, ?_⟩
    · simp only [bound, hs.2.1]; rw [missMem_buf_same]; exact ⟨rfl, rfl⟩
    · simp only [hs.2.1]; rw [missMem_buf_same]
    · intro j hj
      simp only [hs.2.1]
      rw [missMem_buf_other _ _ _ _ _ _ _ _ hj]
      exact ⟨rfl, rfl, rfl, rfl, rfl, rfl, rfl⟩
    · simp only [hs.2.1]; rw [missMem_buf_same]
    · simp only [hs.2.1]; rw [missMem_buf_same]
    · rw [hs.2.2.1]; exact hd.1
    · rw [hs.2.2.2.1]; exact hd.2.1
    · rw [hs.2.2.2.2]; exact hd.2.2

/-! ## `binit` -/

theorem binitBuckets_spec (s : State) : ∀ n : Nat,
    ((List.range n).foldl binitBucket s).buf = s.buf ∧
    ((List.range n).foldl binitBucket s).disk = s.disk ∧
    ((List.range n).foldl binitBucket s).nread = s.nread ∧
    ((List.range n).foldl binitBucket s).nwrite = s.nwrite ∧
    ((List.range n).foldl binitBucket s).log = s.log ∧
    ∀ i, ((List.range n).foldl binitBucket s).buckets i = if i < n then none else s.buckets i := by
  intro n
  induction n with
  | zero => simp
  | succ n ih =>
    obtain ⟨h1, h2, h3, h4, h5, h6⟩ := ih
    rw [List.range_succ, List.foldl_append]
    simp only [List.foldl_cons, List.foldl_nil, binitBucket]
    refine ⟨h1, h2, h3, h4, h5, ?_⟩
    intro i
    by_cases e : i = n
    · subst e; simp
    · rw [upd_other _ _ _ _ e, h6]
      by_cases e2 : i < n
      · simp [e2, Nat.lt_succ_of_lt e2]
      · have : ¬ i < n + 1 := by omega
        simp [e2, this]

theorem binitBufs_spec (s : State) (hs : s.buckets 0 = none) : ∀ n : Nat,
    (∀ i, i ≠ 0 → ((List.range n).foldl binitBuf s).buckets i = s.buckets i) ∧
    Chain (nxt ((List.range n).foldl binitBuf s)) (((List.range n).foldl binitBuf s).buckets 0)
      (List.range n).reverse ∧
    (∀ j, n ≤ j → ((List.range n).foldl binitBuf s).buf j = s.buf j) ∧
    (∀ j, j < n → ((List.range n).foldl binitBuf s).buf j =
      { s.buf j with lock := none, last_used := 0, refcnt := 0,
                     next := (((List.range n).foldl binitBuf s).buf j).next }) ∧
    ((List.range n).foldl binitBuf s).disk = s.disk ∧
    ((List.range n).foldl binitBuf s).nread = s.nread ∧
    ((List.range n).foldl binitBuf s).nwrite = s.nwrite ∧
    ((List.range n).foldl binitBuf s).log = s.log := by
  intro n
  induction n with
  | zero =>
    refine ⟨fun _ _ => rfl, ?_, fun _ _ => rfl, fun j hj => absurd hj (by omega), rfl, rfl,
      rfl, rfl⟩
    show Chain (nxt s) (s.buckets 0) []
    rw [hs]
    exact Chain.nil
  | succ n ih =>
    obtain ⟨h1, h2, h3, h4, h5, h6, h7, h8⟩ := ih
    rw [List.range_succ, List.foldl_append]
    simp only [List.foldl_cons, List.foldl_nil, List.reverse_append, List.reverse_cons,
      List.reverse_nil, List.nil_append, List.singleton_append]
    generalize (List.range n).foldl binitBuf s = t at h1 h2 h3 h4 h5 h6 h7 h8
    refine ⟨?_, ?_, ?_, ?_, h5, h6, h7, h8⟩
    · intro i hi
      simp only [binitBuf, upd_other _ _ _ _ hi, setBuf_buckets]
      exact h1 i hi
    · have e1 : (binitBuf t n).buckets 0 = some n := by simp [binitBuf]
      have e2 : nxt (binitBuf t n) n = t.buckets 0 := by simp [binitBuf, nxt]
      rw [e1]
      refine Chain.cons ?_
      rw [e2]
      refine h2.congr (fun k hk => ?_)
      have hkn : k ≠ n := by
        rintro rfl
        simp at hk
      simp [binitBuf, nxt, hkn]
    · intro j hj
      have : j ≠ n := by omega
      simp only [binitBuf, setBuf_buf_other _ _ _ _ this]
      exact h3 j (by omega)
    · intro j hj
      by_cases e : j = n
      · subst e
        simp only [binitBuf, setBuf_buf_same, h3 j (le_refl _)]
      · simp only [binitBuf, setBuf_buf_other _ _ _ _ e]
        exact h4 j (by omega)

theorem binit_spec (NBUF : Nat) (s : State) :
    (∀ i, i < NBUCKET → Chain (nxt (binit NBUF s)) ((binit NBUF s).buckets i)
      (initChains NBUF i)) ∧
    (∀ j, NBUF ≤ j → (binit NBUF s).buf j = s.buf j) ∧
    (∀ j, j < NBUF → (binit NBUF s).buf j =
      { s.buf j with lock := none, last_used := 0, refcnt := 0,
                     next := ((binit NBUF s).buf j).next }) ∧
    (binit NBUF s).disk = s.disk ∧ (binit NBUF s).nread = s.nread ∧
    (binit NBUF s).nwrite = s.nwrite ∧ (binit NBUF s).log = s.log := by
  obtain ⟨a1, a2, a3, a4, a5, a6⟩ := binitBuckets_spec s NBUCKET
  have hs0 : ((List.range NBUCKET).foldl binitBucket s).buckets 0 = none := by
    rw [a6]; simp [NBUCKET]
  obtain ⟨h1, h2, h3, h4, h5, h6, h7, h8⟩ := binitBufs_spec _ hs0 NBUF
  simp only [binit]
  refine ⟨?_, ?_, ?_, h5.trans a2, h6.trans a3, h7.trans a4, h8.trans a5⟩
  · intro i hi
    by_cases e : i = 0
    · subst e
      simpa [initChains] using h2
    · rw [h1 i e, a6]
      simp only [hi, if_true, initChains, e, if_false]
      exact Chain.nil
  · intro j hj
    rw [h3 j hj, a1]
  · intro j hj
    rw [h4 j hj, a1]

/-! ## The invariant holds in every reachable state -/

theorem init_inv (NBUF : Nat) (d : Nat → Nat → List Nat) :
    Inv NBUF (init NBUF d) (initChains NBUF) := by
  obtain ⟨h1, h2, h3, _⟩ := binit_spec NBUF (boot d)
  have hz : ∀ j, ((binit NBUF (boot d)).buf j).dev = 0 ∧ ((binit NBUF (boot d)).buf j).blockno = 0 ∧
      ((binit NBUF (boot d)).buf j).valid = 0 ∧ ((binit NBUF (boot d)).buf j).refcnt = 0 ∧
      ((binit NBUF (boot d)).buf j).lock = none := by
    intro j
    by_cases hj : j < NBUF
    · rw [h3 j hj]; exact ⟨rfl, rfl, rfl, rfl, rfl⟩
    · rw [h2 j (by omega)]; exact ⟨rfl, rfl, rfl, rfl, rfl⟩
  refine ⟨⟨h1, ?_, ?_, ?_, ?_⟩, ?_, ?_⟩
  · intro i _
    simp only [initChains]
    split
    · exact List.nodup_reverse.2 (List.nodup_range NBUF)
    · exact List.nodup_nil
  · intro i _ j hj
    simp only [initChains] at hj
    split at hj
    · next e =>
      simp only [init, (hz j).1, (hz j).2.1]
      rw [e]; decide
    · simp at hj
  · intro i _ j hj
    simp only [initChains] at hj
    split at hj
    · simpa using hj
    · simp at hj
  · intro j hj
    exact ⟨0, by decide, by simp [initChains, hj]⟩
  · intro i _
    refine List.pairwise_of_forall ?_
    intro a c _ _ _
    exact ⟨(hz c).2.2.2.1, (hz c).2.2.1, (hz c).2.2.2.2, rfl⟩
  · intro j
    simp only [init, (hz j).2.2.1]
    omega

theorem bread_ok {NBUF pid : Nat} {s s2 : State} {dev blockno b : Nat}
    (h : bread NBUF pid s dev blockno = .ok s2 b) :
    ∃ s1, bget NBUF pid s dev blockno = .ok s1 b ∧
      s2 = if (s1.buf b).valid = 0 then
          (virtio_disk_rw s1 b false).setBuf b (fun x => { x with valid := 1 })
        else s1 := by
  simp only [bread] at h
  cases hg : bget NBUF pid s dev blockno with
  | ok s1 b1 =>
    simp only [hg] at h
    split at h
    · next hv =>
      simp only [Outcome.ok.injEq] at h
      obtain ⟨rfl, rfl⟩ := h
      exact ⟨s1, rfl, by simp [hv]⟩
    · next hv =>
      simp only [Outcome.ok.injEq] at h
      obtain ⟨rfl, rfl⟩ := h
      exact ⟨s1, rfl, by simp [hv]⟩
  | panic msg t => simp [hg] at h
  | blocked t b1 => simp [hg] at h
  | fault => simp [hg] at h
  | diverge => simp [hg] at h

theorem bwrite_ok {pid : Nat} {s s2 : State} {b : Nat} (h : bwrite pid s b = .ok s2 ()) :
    (s.buf b).lock = some pid ∧ s2 = virtio_disk_rw s b true := by
  simp only [bwrite, holdingsleep] at h
  split at h
  · simp at h
  · next hl =>
    simp only [Outcome.ok.injEq, and_true] at h
    simp only [decide_eq_false_iff_not, not_not] at hl
    exact ⟨hl, h.symm⟩

/-- The fields after a call of `brelse` that returns. -/
theorem brelse_ok {pid ticks : Nat} {s s2 : State} {b : Nat}
    (h : brelse pid ticks s b = .ok s2 ()) :
    (s.buf b).lock = some pid ∧ s2.buckets = s.buckets ∧ s2.disk = s.disk ∧
      s2.nread = s.nread ∧ s2.nwrite = s.nwrite ∧
      (∀ j, j ≠ b → s2.buf j = s.buf j) ∧
      s2.buf b = { s.buf b with
        lock := none
        refcnt := ((s.buf b).refcnt + (UINT - 1)) % UINT
        last_used := if ((s.buf b).refcnt + (UINT - 1)) % UINT = 0 then ticks
          else (s.buf b).last_used } := by
  simp only [brelse, holdingsleep] at h
  split at h
  · simp at h
  · next hl =>
    simp only [Outcome.ok.injEq, and_true] at h
    simp only [decide_eq_false_iff_not, not_not] at hl
    subst h
    refine ⟨hl, ?_, ?_, ?_, ?_, ?_, ?_⟩
    · split <;> rfl
    · split <;> rfl
    · split <;> rfl
    · split <;> rfl
    · intro j hj
      split <;> simp [releasesleep, decRef, hj]
    · split
      · next h0 =>
        simp only [releasesleep, decRef, release_buf, acquire_buf, setBuf_buf_same] at h0 ⊢
        simp [h0]
      · next h0 =>
        simp only [releasesleep, decRef, release_buf, acquire_buf, setBuf_buf_same] at h0 ⊢
        simp [h0]

theorem bpin_spec (s : State) (b : Nat) :
    (bpin s b).buckets = s.buckets ∧ (bpin s b).disk = s.disk ∧ (bpin s b).nread = s.nread ∧
      (bpin s b).nwrite = s.nwrite ∧ (∀ j, j ≠ b → (bpin s b).buf j = s.buf j) ∧
      (bpin s b).buf b = { s.buf b with refcnt := ((s.buf b).refcnt + 1) % UINT } := by
  refine ⟨rfl, rfl, rfl, rfl, ?_, ?_⟩
  · intro j hj
    simp [bpin, incRef, hj]
  · simp [bpin, incRef]

theorem bunpin_spec (s : State) (b : Nat) :
    (bunpin s b).buckets = s.buckets ∧ (bunpin s b).disk = s.disk ∧
      (bunpin s b).nread = s.nread ∧ (bunpin s b).nwrite = s.nwrite ∧
      (∀ j, j ≠ b → (bunpin s b).buf j = s.buf j) ∧
      (bunpin s b).buf b = { s.buf b with refcnt := ((s.buf b).refcnt + (UINT - 1)) % UINT } := by
  refine ⟨rfl, rfl, rfl, rfl, ?_, ?_⟩
  · intro j hj
    simp [bunpin, decRef, hj]
  · simp [bunpin, decRef]

/-- The second half of `bread` keeps the invariant. -/
theorem Inv.load {NBUF : Nat} {σ : Sys} {L : Nat → List Nat} (h : Inv NBUF σ L) (pid : Nat)
    {b : Nat} (hl : (σ.st.buf b).lock = some pid) :
    Inv NBUF { σ with st := if (σ.st.buf b).valid = 0 then
        (virtio_disk_rw σ.st b false).setBuf b (fun x => { x with valid := 1 })
      else σ.st } L := by
  split
  · refine h.touch (b := b) rfl ?_ ?_ ?_ ?_
    · intro j
      by_cases e : j = b
      · subst e; simp [virtio_disk_rw]
      · simp [virtio_disk_rw, e]
    · intro j hj
      simp [virtio_disk_rw, hj]
    · intro hp
      rw [hp.2.2.1] at hl
      cases hl
    · intro j
      by_cases e : j = b
      · subst e; simp [virtio_disk_rw]
      · simpa [virtio_disk_rw, e] using h.valid01 j
  · exact h

/-- Every call of a trace keeps the invariant. -/
theorem step_inv {NBUF : Nat} {σ τ : Sys} {L : Nat → List Nat} (h : Inv NBUF σ L) (op : Op)
    (hs : step NBUF σ op = some τ) : ∃ L2, Inv NBUF τ L2 := by
  cases op with
  | get pid dev blockno =>
    simp only [step] at hs
    split at hs
    · next s2 b hok =>
      simp only [Option.some.injEq] at hs
      subst hs
      exact h.bget hok
    · cases hs
  | read pid dev blockno =>
    simp only [step] at hs
    split at hs
    · next s2 b hok =>
      simp only [Option.some.injEq] at hs
      subst hs
      obtain ⟨s1, hg, rfl⟩ := bread_ok hok
      obtain ⟨L2, h2⟩ := h.bget hg
      have hl := (bget_ok_post h.chains hg).2.2.1
      exact ⟨L2, h2.load pid hl⟩
    · cases hs
  | write pid b =>
    simp only [step] at hs
    split at hs
    · split at hs
      · next s2 u hok =>
        simp only [Option.some.injEq] at hs
        subst hs
        obtain ⟨_, rfl⟩ := bwrite_ok hok
        exact ⟨L, h.of_mem (by simp [virtio_disk_rw]) (by simp [virtio_disk_rw])⟩
      · cases hs
    · cases hs
  | release pid ticks b =>
    simp only [step] at hs
    split at hs
    · split at hs
      · next s2 u hok =>
        simp only [Option.some.injEq] at hs
        subst hs
        obtain ⟨hl, k1, _, _, _, k2, k3⟩ := brelse_ok hok
        refine ⟨L, h.touch (b := b) k1 ?_ ?_ ?_ ?_⟩
        · intro j
          by_cases e : j = b
          · subst e; simp [k3]
          · simp [k2 j e]
        · intro j hj
          exact ⟨k2 j hj, rfl⟩
        · intro hp
          rw [hp.2.2.1] at hl
          cases hl
        · intro j
          by_cases e : j = b
          · subst e; simp only [k3]; exact h.valid01 j
          · simp only [k2 j e]; exact h.valid01 j
      · cases hs
    · cases hs
  | pin pid b =>
    simp only [step] at hs
    split at hs
    · next hc =>
      simp only [Option.some.injEq] at hs
      subst hs
      obtain ⟨k1, _, _, _, k2, k3⟩ := bpin_spec σ.st b
      refine ⟨L, h.touch (b := b) k1 ?_ ?_ ?_ ?_⟩
      · intro j
        by_cases e : j = b
        · subst e; simp [k3]
        · simp [k2 j e]
      · intro j hj
        exact ⟨k2 j hj, by simp [hj]⟩
      · intro hp
        rw [hp.2.2.1] at hc
        cases hc.2
      · intro j
        by_cases e : j = b
        · subst e; simp only [k3]; exact h.valid01 j
        · simp only [k2 j e]; exact h.valid01 j
    · cases hs
  | unpin b =>
    simp only [step] at hs
    split at hs
    · next hc =>
      simp only [Option.some.injEq] at hs
      subst hs
      obtain ⟨k1, _, _, _, k2, k3⟩ := bunpin_spec σ.st b
      refine ⟨L, h.touch (b := b) k1 ?_ ?_ ?_ ?_⟩
      · intro j
        by_cases e : j = b
        · subst e; simp [k3]
        · simp [k2 j e]
      · intro j hj
        exact ⟨k2 j hj, by simp [hj]⟩
      · intro hp
        have := hc.2
        rw [hp.2.2.2] at this
        omega
      · intro j
        by_cases e : j = b
        · subst e; simp only [k3]; exact h.valid01 j
        · simp only [k2 j e]; exact h.valid01 j
    · cases hs
  | store pid b d =>
    simp only [step] at hs
    split at hs
    · next hc =>
      simp only [Option.some.injEq] at hs
      subst hs
      refine ⟨L, h.touch (b := b) rfl ?_ ?_ ?_ ?_⟩
      · intro j
        by_cases e : j = b
        · subst e; simp
        · simp [e]
      · intro j hj
        simp [hj]
      · intro hp
        rw [hp.2.2.1] at hc
        cases hc.2
      · intro j
        by_cases e : j = b
        · subst e; simpa using h.valid01 j
        · simpa [e] using h.valid01 j
    · cases hs

theorem run_inv {NBUF : Nat} : ∀ (ops : List Op) (σ τ : Sys) (L : Nat → List Nat),
    Inv NBUF σ L → run NBUF ops σ = some τ → ∃ L2, Inv NBUF τ L2 := by
  intro ops
  induction ops with
  | nil =>
    intro σ τ L h hr
    simp only [run, Option.some.injEq] at hr
    subst hr
    exact ⟨L, h⟩
  | cons op ops ih =>
    intro σ τ L h hr
    simp only [run] at hr
    cases hst : step NBUF σ op with
    | none => simp [hst] at hr
    | some σ1 =>
      simp only [hst] at hr
      obtain ⟨L1, h1⟩ := step_inv h op hst
      exact ih σ1 τ L1 h1 hr

/-- Every reachable state satisfies the invariant. -/
theorem reachable_inv {NBUF : Nat} {σ : Sys} (h : Reachable NBUF σ) : ∃ L, Inv NBUF σ L := by
  obtain ⟨d, ops, hr⟩ := h
  exact run_inv ops _ _ _ (init_inv NBUF d) hr

theorem reachable_step {NBUF : Nat} {σ τ : Sys} (h : Reachable NBUF σ) (op : Op)
    (hs : step NBUF σ op = some τ) : Reachable NBUF τ := by
  obtain ⟨d, ops, hr⟩ := h
  refine ⟨d, ops ++ [op], ?_⟩
  have run_append : ∀ (l1 l2 : List Op) (x : Sys),
      run NBUF (l1 ++ l2) x = (run NBUF l1 x).bind (run NBUF l2) := by
    intro l1
    induction l1 with
    | nil => intro l2 x; rfl
    | cons o l1 ih =>
      intro l2 x
      simp only [List.cons_append, run]
      cases step NBUF x o with
      | none => rfl
      | some y => exact ih l2 y
  rw [run_append, hr]
  simp [run, hs]

/-! ## Helpers for `brelse` -/

theorem chainFrom_congr {s t : State} (h : ∀ j, (t.buf j).next = (s.buf j).next) :
    ∀ (fuel : Nat) (p : Option Nat), chainFrom t fuel p = chainFrom s fuel p := by
  intro fuel
  induction fuel with
  | zero => intro p; rfl
  | succ f ih =>
    intro p
    cases p with
    | none => rfl
    | some j => simp only [chainFrom, h j, ih]

theorem brelse_of_held {pid : Nat} (ticks : Nat) {s : State} {b : Nat}
    (h : (s.buf b).lock = some pid) : ∃ s2, brelse pid ticks s b = .ok s2 () := by
  simp only [brelse, holdingsleep, h, decide_True]
  exact ⟨_, rfl⟩

/-! ## What `bget` and `bread` return (claim C1) -/

theorem run_cons_of_step {NBUF : Nat} {σ σ1 : Sys} {op : Op} (h : step NBUF σ op = some σ1)
    (ops : List Op) : run NBUF (op :: ops) σ = run NBUF ops σ1 := by
  simp [run, h]

theorem run_append (NBUF : Nat) : ∀ (l1 l2 : List Op) (x : Sys),
    run NBUF (l1 ++ l2) x = (run NBUF l1 x).bind (run NBUF l2) := by
  intro l1
  induction l1 with
  | nil => intro l2 x; rfl
  | cons o l1 ih =>
    intro l2 x
    simp only [List.cons_append, run]
    cases step NBUF x o with
    | none => rfl
    | some y => exact ih l2 y

theorem reachable_init (NBUF : Nat) (d : Nat → Nat → List Nat) : Reachable NBUF (init NBUF d) :=
  ⟨d, [], rfl⟩

/-- Repeated pinning of a held buffer adds to its `refcnt` modulo `2^32` and changes
nothing else in memory. -/
theorem run_pins (NBUF pid b : Nat) (hb : b < NBUF) : ∀ (n : Nat) (σ : Sys),
    (σ.st.buf b).lock = some pid → (σ.st.buf b).refcnt < UINT →
    ∃ τ, run NBUF (List.replicate n (Op.pin pid b)) σ = some τ ∧
      τ.st.buckets = σ.st.buckets ∧ (∀ j, j ≠ b → τ.st.buf j = σ.st.buf j) ∧
      τ.st.buf b = { σ.st.buf b with refcnt := ((σ.st.buf b).refcnt + n) % UINT } := by
  intro n
  induction n with
  | zero =>
    intro σ _ hr
    refine ⟨σ, rfl, rfl, fun _ _ => rfl, ?_⟩
    simp [Nat.mod_eq_of_lt hr]
  | succ n ih =>
    intro σ hl hr
    obtain ⟨k1, _, _, _, k2, k3⟩ := bpin_spec σ.st b
    have hst : step NBUF σ (Op.pin pid b) =
        some { st := bpin σ.st b, pins := upd σ.pins b (σ.pins b + 1) } := by
      simp [step, hb, hl]
    have hl1 : ((bpin σ.st b).buf b).lock = some pid := by rw [k3]; exact hl
    have hr1 : ((bpin σ.st b).buf b).refcnt < UINT := by
      rw [k3]; exact Nat.mod_lt _ (by decide)
    obtain ⟨τ, h1, h2, h3, h4⟩ := ih { st := bpin σ.st b, pins := upd σ.pins b (σ.pins b + 1) }
      hl1 hr1
    refine ⟨τ, ?_, h2.trans k1, fun j hj => (h3 j hj).trans (k2 j hj), ?_⟩
    · rw [List.replicate_succ, run_cons_of_step hst]
      exact h1
    · rw [h4]
      simp only [k3]
      have : (((σ.st.buf b).refcnt + 1) % UINT + n) % UINT = ((σ.st.buf b).refcnt + (n + 1)) % UINT := by
        simp only [UINT]; omega
      rw [this]

/-- The `refcnt` and the `valid` bit of the buffer `bget` returns. -/
theorem bget_ok_refcnt {NBUF pid : Nat} {s s2 : State} {L : Nat → List Nat}
    {dev blockno b : Nat} (h : ChainInv NBUF s L)
    (hok : bget NBUF pid s dev blockno = .ok s2 b) :
    (resident NBUF s dev blockno → bound s dev blockno b ∧
      (s2.buf b).refcnt = ((s.buf b).refcnt + 1) % UINT ∧ (s2.buf b).valid = (s.buf b).valid) ∧
    (¬ resident NBUF s dev blockno → (s.buf b).refcnt = 0 ∧ (s2.buf b).refcnt = 1 ∧
      (s2.buf b).valid = 0) := by
  rcases bget_ok_cases h hok with ⟨hres, hf, _, hs⟩ | ⟨hres, hb, pre, post, _, _, _, h0, _, hs⟩
  · refine ⟨fun _ => ?_, fun hn => absurd hres hn⟩
    obtain ⟨hpb, _⟩ := List.find?_eq_some.1 hf
    refine ⟨by simpa using hpb, ?_, ?_⟩
    · simp only [hs.2.1, hitMem_buf_same]
    · simp only [hs.2.1, hitMem_buf_same]
  · refine ⟨fun hr => absurd hr hres, fun _ => ⟨h0, ?_, ?_⟩⟩
    · simp only [hs.2.1]; rw [missMem_buf_same]
    · simp only [hs.2.1]; rw [missMem_buf_same]

/-- The fields of the buffer `b` after the second half of `bread`. -/
theorem load_fields (s1 : State) (b : Nat) :
    ((if (s1.buf b).valid = 0 then
        (virtio_disk_rw s1 b false).setBuf b (fun x => { x with valid := 1 })
      else s1).buf b).dev = (s1.buf b).dev ∧
    ((if (s1.buf b).valid = 0 then
        (virtio_disk_rw s1 b false).setBuf b (fun x => { x with valid := 1 })
      else s1).buf b).blockno = (s1.buf b).blockno ∧
    ((if (s1.buf b).valid = 0 then
        (virtio_disk_rw s1 b false).setBuf b (fun x => { x with valid := 1 })
      else s1).buf b).lock = (s1.buf b).lock ∧
    ((if (s1.buf b).valid = 0 then
        (virtio_disk_rw s1 b false).setBuf b (fun x => { x with valid := 1 })
      else s1).buf b).refcnt = (s1.buf b).refcnt := by
  split <;> simp [virtio_disk_rw]

/-- C1 (as amended).  In every state reachable from init, a call of `bget` or `bread` that
returns hands out a pool buffer `b` with `b.dev == dev`, `b.blockno == blockno` and the
sleep lock held by the caller; on a hit `b` was bound to the key and its `refcnt` is the old
`refcnt` plus 1 modulo `2^32` (so it is the old value plus 1, hence at least 1, unless the
old value was `2^32 - 1`); on a miss its `refcnt` is exactly 1; and the buffer `bread`
returns has `valid == 1`. -/
theorem C1_get_read_result (NBUF : Nat) (σ : Sys) (hreach : Reachable NBUF σ)
    (pid dev blockno : Nat) (s2 : State) (b : Nat)
    (hret : bget NBUF pid σ.st dev blockno = .ok s2 b ∨
      bread NBUF pid σ.st dev blockno = .ok s2 b) :
    b < NBUF ∧ (s2.buf b).dev = dev ∧ (s2.buf b).blockno = blockno ∧
      (s2.buf b).lock = some pid ∧
      (resident NBUF σ.st dev blockno → bound σ.st dev blockno b ∧
        (s2.buf b).refcnt = ((σ.st.buf b).refcnt + 1) % UINT) ∧
      (resident NBUF σ.st dev blockno → (σ.st.buf b).refcnt + 1 < UINT →
        (s2.buf b).refcnt = (σ.st.buf b).refcnt + 1 ∧ 1 ≤ (s2.buf b).refcnt) ∧
      (¬ resident NBUF σ.st dev blockno → (s2.buf b).refcnt = 1) ∧
      (bread NBUF pid σ.st dev blockno = .ok s2 b → (s2.buf b).valid = 1) := by
  obtain ⟨L, hinv⟩ := reachable_inv hreach
  have key : ∀ s1, bget NBUF pid σ.st dev blockno = .ok s1 b →
      b < NBUF ∧ (s1.buf b).dev = dev ∧ (s1.buf b).blockno = blockno ∧
      (s1.buf b).lock = some pid ∧
      (resident NBUF σ.st dev blockno → bound σ.st dev blockno b ∧
        (s1.buf b).refcnt = ((σ.st.buf b).refcnt + 1) % UINT) ∧
      (resident NBUF σ.st dev blockno → (σ.st.buf b).refcnt + 1 < UINT →
        (s1.buf b).refcnt = (σ.st.buf b).refcnt + 1 ∧ 1 ≤ (s1.buf b).refcnt) ∧
      (¬ resident NBUF σ.st dev blockno → (s1.buf b).refcnt = 1) := by
    intro s1 hg
    obtain ⟨p1, p2, p3, _⟩ := bget_ok_post hinv.chains hg
    obtain ⟨r1, r2⟩ := bget_ok_refcnt hinv.chains hg
    refine ⟨p1, p2.1, p2.2, p3, fun hr => ⟨(r1 hr).1, (r1 hr).2.1⟩, ?_, fun hn => (r2 hn).2.1⟩
    intro hr hlt
    have := (r1 hr).2.1
    rw [Nat.mod_eq_of_lt hlt] at this
    exact ⟨this, by omega⟩
  have hvalid : ∀ s1, bget NBUF pid σ.st dev blockno = .ok s1 b → (s1.buf b).valid ≤ 1 := by
    intro s1 hg
    obtain ⟨L2, h2⟩ := hinv.bget hg
    exact h2.valid01 b
  rcases hret with hg | hr
  · obtain ⟨k1, k2, k3, k4, k5, k6, k7⟩ := key s2 hg
    refine ⟨k1, k2, k3, k4, k5, k6, k7, ?_⟩
    intro hr
    obtain ⟨s1, hg1, e⟩ := bread_ok hr
    rw [hg] at hg1
    simp only [Outcome.ok.injEq, and_true] at hg1
    subst hg1
    have hv := hvalid s2 hg
    by_cases h0 : (s2.buf b).valid = 0
    · rw [if_pos h0] at e
      have : (s2.buf b).valid = 1 := by
        rw [e]; simp
      omega
    · omega
  · obtain ⟨s1, hg, e⟩ := bread_ok hr
    obtain ⟨k1, k2, k3, k4, k5, k6, k7⟩ := key s1 hg
    obtain ⟨f1, f2, f3, f4⟩ := load_fields s1 b
    rw [← e] at f1 f2 f3 f4
    refine ⟨k1, f1.trans k2, f2.trans k3, f3.trans k4, ?_, ?_, ?_, ?_⟩
    · intro hres; rw [f4]; exact k5 hres
    · intro hres hlt; rw [f4]; exact k6 hres hlt
    · intro hn; rw [f4]; exact k7 hn
    · intro _
      have hv := hvalid s1 hg
      by_cases h0 : (s1.buf b).valid = 0
      · rw [if_pos h0] at e
        rw [e]; simp
      · rw [if_neg h0] at e
        rw [e]; omega

/-- Witness of C1: the first `bget(1, 1)` on a freshly initialised cache of two buffers. -/
theorem C1_get_read_result_witness :
    Reachable 2 (init 2 blankDisk) ∧
    bget 2 7 (init 2 blankDisk).st 1 1 = .ok getOnce 1 ∧
    (1 < 2 ∧ (getOnce.buf 1).dev = 1 ∧ (getOnce.buf 1).blockno = 1 ∧
      (getOnce.buf 1).lock = some 7 ∧
      (resident 2 (init 2 blankDisk).st 1 1 → bound (init 2 blankDisk).st 1 1 1 ∧
        (getOnce.buf 1).refcnt = (((init 2 blankDisk).st.buf 1).refcnt + 1) % UINT) ∧
      (resident 2 (init 2 blankDisk).st 1 1 → ((init 2 blankDisk).st.buf 1).refcnt + 1 < UINT →
        (getOnce.buf 1).refcnt = ((init 2 blankDisk).st.buf 1).refcnt + 1 ∧
          1 ≤ (getOnce.buf 1).refcnt) ∧
      (¬ resident 2 (init 2 blankDisk).st 1 1 → (getOnce.buf 1).refcnt = 1) ∧
      (bread 2 7 (init 2 blankDisk).st 1 1 = .ok getOnce 1 → (getOnce.buf 1).valid = 1)) :=
  ⟨reachable_init 2 blankDisk, rfl,
    C1_get_read_result 2 (init 2 blankDisk) (reachable_init 2 blankDisk) 7 1 1 getOnce 1
      (Or.inl rfl)⟩

/-- After `read(1,1)` and `2^32 - 1` calls of `pin` the buffer is still held by process 7,
and its `refcnt` has wrapped to 0. -/
theorem wrap_held :
    ∃ τ, run 1 wrapHeldTrace (init 1 blankDisk) = some τ ∧ τ.st.buckets 9 = some 0 ∧
      τ.st.buf 0 = { (after 1 [Op.read 7 1 1]).st.buf 0 with refcnt := 0 } := by
  have h1 : step 1 (init 1 blankDisk) (Op.read 7 1 1) = some (after 1 [Op.read 7 1 1]) := rfl
  have l1 : ((after 1 [Op.read 7 1 1]).st.buf 0).lock = some 7 := by decide
  have r1 : ((after 1 [Op.read 7 1 1]).st.buf 0).refcnt = 1 := by decide
  have b1 : (after 1 [Op.read 7 1 1]).st.buckets 9 = some 0 := by decide
  obtain ⟨τ, t1, t2, _, t4⟩ := run_pins 1 7 0 (by decide) 4294967295 (after 1 [Op.read 7 1 1]) l1
    (by rw [r1]; decide)
  refine ⟨τ, ?_, ?_, ?_⟩
  · rw [wrapHeldTrace, run_cons_of_step h1]; exact t1
  · rw [t2]; exact b1
  · rw [t4, r1]; simp [UINT]

/-- After `read(1,1)`, `2^32 - 1` calls of `pin` and a `release` the buffer is free with
`refcnt == 2^32 - 1`. -/
theorem wrap_released :
    ∃ σ, run 1 wrapTrace (init 1 blankDisk) = some σ ∧ σ.st.buckets 9 = some 0 ∧
      σ.st.buf 0 = { (after 1 [Op.read 7 1 1]).st.buf 0 with
        lock := none, refcnt := 4294967295 } := by
  obtain ⟨τ, t1, t2, t3⟩ := wrap_held
  have lτ : (τ.st.buf 0).lock = some 7 := by rw [t3]; decide
  obtain ⟨s3, hs3⟩ := brelse_of_held 5 lτ
  obtain ⟨_, k1, _, _, _, _, k4⟩ := brelse_ok hs3
  have hst : step 1 τ (Op.release 7 5 0) = some { τ with st := s3 } := by
    simp [step, hs3]
  refine ⟨{ τ with st := s3 }, ?_, ?_, ?_⟩
  · have e : wrapTrace = wrapHeldTrace ++ [Op.release 7 5 0] := rfl
    rw [e, run_append, t1]
    simp [run, hst]
  · show s3.buckets 9 = some 0
    rw [k1]; exact t2
  · show s3.buf 0 = _
    rw [k4, t3]
    simp [UINT]

/-- The `bget(1,1)` of process 7 in a state where buffer 0, bound to `(1,1)` and first in
bucket 9, is free: a hit that returns buffer 0. -/
theorem bget_wrapped (s : State) (hb : s.buckets 9 = some 0) (hd : (s.buf 0).dev = 1)
    (hn : (s.buf 0).blockno = 1) (hl : (s.buf 0).lock = none) :
    ∃ s2, bget 1 7 s 1 1 = .ok s2 0 ∧
      (s2.buf 0).refcnt = ((s.buf 0).refcnt + 1) % UINT ∧ (s2.buf 0).valid = (s.buf 0).valid ∧
      s2.nread = s.nread := by
  have hlook : lookup s 1 1 (1 + 1) (s.buckets (BUC 1 1)) = some (some 0) := by
    have e : BUC 1 1 = 9 := by decide
    rw [e, hb]
    simp [lookup, hd, hn]
  obtain ⟨t, ht, e⟩ := bget_of_lookup_some 7 hlook
  have hfree : (t.buf 0).lock = none := by
    rw [ht.2.1]; simp [incRef, hl]
  rw [sleepReturn_of_free hfree] at e
  refine ⟨_, e, ?_, ?_, ?_⟩
  · simp [ht.2.1, incRef]
  · simp [ht.2.1, incRef]
  · show t.nread = s.nread
    rw [ht.2.2.2.1]; rfl

/-- Counterexample to C1: after `read(1,1)`, `2^32 - 1` calls of `pin` and a `release`, all
by the process that holds the buffer, the buffer is free with `refcnt == 2^32 - 1`; the next
`bget(1,1)` hits it, returns it, and its `refcnt` is 0, not at least 1. -/
theorem C1_counterexample :
    ∃ σ s2, run 1 wrapTrace (init 1 blankDisk) = some σ ∧
      (σ.st.buf 0).refcnt = 4294967295 ∧ resident 1 σ.st 1 1 ∧
      bget 1 7 σ.st 1 1 = .ok s2 0 ∧ (s2.buf 0).refcnt = 0 := by
  obtain ⟨σ, h1, h2, h3⟩ := wrap_released
  have d1 : (σ.st.buf 0).dev = 1 := by rw [h3]; decide
  have n1 : (σ.st.buf 0).blockno = 1 := by rw [h3]; decide
  have l1 : (σ.st.buf 0).lock = none := by rw [h3]
  have r1 : (σ.st.buf 0).refcnt = 4294967295 := by rw [h3]
  obtain ⟨s2, k1, k2, _⟩ := bget_wrapped σ.st h2 d1 n1 l1
  refine ⟨σ, s2, h1, r1, ⟨0, by decide, d1, n1⟩, k1, ?_⟩
  rw [k2, r1]; decide

/-! ## Uniqueness and chain membership (claims C2 and C3) -/

theorem pairwise_of_mem {R : Nat → Nat → Prop} : ∀ {l : List Nat} {a b : Nat},
    l.Pairwise R → a ∈ l → b ∈ l → a ≠ b → R a b ∨ R b a := by
  intro l
  induction l with
  | nil => intro a b _ ha; simp at ha
  | cons x l ih =>
    intro a b hp ha hb hne
    rw [List.pairwise_cons] at hp
    rcases List.mem_cons.1 ha with rfl | ha2
    · rcases List.mem_cons.1 hb with rfl | hb2
      · exact absurd rfl hne
      · exact Or.inl (hp.1 b hb2)
    · rcases List.mem_cons.1 hb with rfl | hb2
      · exact Or.inr (hp.1 a ha2)
      · exact ih hp.2 ha2 hb2 hne

/-- Of two distinct pool buffers with the same key, one is pristine. -/
theorem Inv.pristine_of_same_key {NBUF : Nat} {σ : Sys} {L : Nat → List Nat}
    (h : Inv NBUF σ L) {a b : Nat} (ha : a < NBUF) (hb : b < NBUF) (hne : a ≠ b)
    (hdev : (σ.st.buf a).dev = (σ.st.buf b).dev)
    (hbno : (σ.st.buf a).blockno = (σ.st.buf b).blockno) : pristine σ a ∨ pristine σ b := by
  have hma := h.chains.mem_bucket ha
  have hmb := h.chains.mem_bucket hb
  rw [hdev, hbno] at hma
  rcases pairwise_of_mem (h.uniq _ (BUC_lt _ _)) hma hmb hne with hs | hs
  · exact Or.inr (hs hne hdev hbno)
  · exact Or.inl (hs (Ne.symm hne) hdev.symm hbno.symm)

/-- C2 (uniqueness).  In every state reachable from init by a single-threaded trace of
read/get, write, release, pin and unpin that respects the preconditions, two buffers of
the pool with the same `dev` and `blockno`, each with `refcnt > 0` or `valid` set (or with
its sleep lock held, as a buffer `bget` has handed out), are the same buffer. -/
theorem C2_uniqueness (NBUF : Nat) (σ : Sys) (hreach : Reachable NBUF σ) (a b : Nat)
    (ha : a < NBUF) (hb : b < NBUF)
    (hdev : (σ.st.buf a).dev = (σ.st.buf b).dev)
    (hbno : (σ.st.buf a).blockno = (σ.st.buf b).blockno)
    (hua : 0 < (σ.st.buf a).refcnt ∨ (σ.st.buf a).valid ≠ 0 ∨ (σ.st.buf a).lock ≠ none)
    (hub : 0 < (σ.st.buf b).refcnt ∨ (σ.st.buf b).valid ≠ 0 ∨ (σ.st.buf b).lock ≠ none) :
    a = b := by
  obtain ⟨L, hinv⟩ := reachable_inv hreach
  by_contra hne
  rcases hinv.pristine_of_same_key ha hb hne hdev hbno with hp | hp
  · obtain ⟨p1, p2, p3, _⟩ := hp
    rcases hua with h | h | h
    · omega
    · exact h p2
    · exact h p3
  · obtain ⟨p1, p2, p3, _⟩ := hp
    rcases hub with h | h | h
    · omega
    · exact h p2
    · exact h p3

/-- Witness of C2: after `read(1,1)` on a cache of two buffers, buffer 1 is in use. -/
theorem C2_uniqueness_witness :
    Reachable 2 (after 2 [.read 7 1 1]) ∧ (1 < 2) ∧
    0 < ((after 2 [.read 7 1 1]).st.buf 1).refcnt ∧ 1 = 1 :=
  ⟨⟨blankDisk, [.read 7 1 1], rfl⟩, by decide, by decide,
    C2_uniqueness 2 (after 2 [.read 7 1 1]) ⟨blankDisk, [.read 7 1 1], rfl⟩ 1 1 (by decide)
      (by decide) rfl rfl (Or.inl (by decide)) (Or.inl (by decide))⟩

theorem chainOf_of_inv {NBUF : Nat} {s : State} {L : Nat → List Nat} (h : ChainInv NBUF s L)
    {i : Nat} (hi : i < NBUCKET) : chainOf NBUF s i = some (L i) :=
  chainFrom_of_chain s (h.chain i hi) (NBUF + 1) (Nat.lt_succ_of_le (h.length_le hi))

/-- C3 (chain membership).  In every state reachable from init the chain of every bucket
ends, has no repetition and consists of pool buffers whose current `dev` and `blockno`
hash to the bucket; and every buffer of the pool occurs exactly once in the chain of the
bucket `BUC(b.dev, b.blockno)` and in no other chain. -/
theorem C3_chain_membership (NBUF : Nat) (σ : Sys) (hreach : Reachable NBUF σ) :
    (∀ i, i < NBUCKET → ∃ l, chainOf NBUF σ.st i = some l ∧ l.Nodup ∧
      ∀ j ∈ l, j < NBUF ∧ BUC (σ.st.buf j).dev (σ.st.buf j).blockno = i) ∧
    (∀ j, j < NBUF →
      ∃ l, chainOf NBUF σ.st (BUC (σ.st.buf j).dev (σ.st.buf j).blockno) = some l ∧
        l.count j = 1 ∧
        ∀ k, k < NBUCKET → k ≠ BUC (σ.st.buf j).dev (σ.st.buf j).blockno →
          ∀ l2, chainOf NBUF σ.st k = some l2 → j ∉ l2) := by
  obtain ⟨L, hinv⟩ := reachable_inv hreach
  have hc := hinv.chains
  refine ⟨?_, ?_⟩
  · intro i hi
    exact ⟨L i, chainOf_of_inv hc hi, hc.nodup i hi,
      fun j hj => ⟨hc.pool i hi j hj, hc.hash i hi j hj⟩⟩
  · intro j hj
    refine ⟨_, chainOf_of_inv hc (BUC_lt _ _), ?_, ?_⟩
    · exact List.count_eq_one_of_mem (hc.nodup _ (BUC_lt _ _)) (hc.mem_bucket hj)
    · intro k hk hne l2 hl2 hmem
      rw [chainOf_of_inv hc hk] at hl2
      simp only [Option.some.injEq] at hl2
      subst hl2
      exact hne (hc.hash k hk j hmem).symm

/-- Witness of C3: the cache of two buffers right after `binit`. -/
theorem C3_chain_membership_witness :
    Reachable 2 (init 2 blankDisk) ∧
    ((∀ i, i < NBUCKET → ∃ l, chainOf 2 (init 2 blankDisk).st i = some l ∧ l.Nodup ∧
      ∀ j ∈ l, j < 2 ∧
        BUC ((init 2 blankDisk).st.buf j).dev ((init 2 blankDisk).st.buf j).blockno = i) ∧
    (∀ j, j < 2 →
      ∃ l, chainOf 2 (init 2 blankDisk).st
          (BUC ((init 2 blankDisk).st.buf j).dev ((init 2 blankDisk).st.buf j).blockno) = some l ∧
        l.count j = 1 ∧
        ∀ k, k < NBUCKET →
          k ≠ BUC ((init 2 blankDisk).st.buf j).dev ((init 2 blankDisk).st.buf j).blockno →
          ∀ l2, chainOf 2 (init 2 blankDisk).st k = some l2 → j ∉ l2)) :=
  ⟨reachable_init 2 blankDisk, C3_chain_membership 2 (init 2 blankDisk) (reachable_init 2 blankDisk)⟩

/-! ## The victim of a miss (claims C4, C5 and C6) -/

/-- A call of `bget` in an arbitrary state: it walks a cyclic chain for ever, or hits a
buffer `b`, or panics after a scan that found no buffer, or rebinds a buffer `v` that had
`refcnt == 0`. -/
theorem bget_any (NBUF pid : Nat) (s : State) (dev blockno : Nat) :
    bget NBUF pid s dev blockno = .diverge ∨
    (∃ b t, lookup s dev blockno (NBUF + 1) (s.buckets (BUC dev blockno)) = some (some b) ∧
      SameMem t (incRef s b) ∧ bget NBUF pid s dev blockno = sleepReturn pid t b) ∨
    (lookup s dev blockno (NBUF + 1) (s.buckets (BUC dev blockno)) = some none ∧
      ∃ t, SameMem t s ∧ bget NBUF pid s dev blockno = .panic "bget: no buffers" t) ∨
    (lookup s dev blockno (NBUF + 1) (s.buckets (BUC dev blockno)) = some none ∧
      ∃ r hb v t6, s.next r = some v ∧ (s.buf v).refcnt = 0 ∧
        SameMem t6 (rebindMem s dev blockno r hb v) ∧
        bget NBUF pid s dev blockno = sleepReturn pid t6 v) := by
  cases hl : lookup s dev blockno (NBUF + 1) (s.buckets (BUC dev blockno)) with
  | none => exact Or.inl (bget_of_lookup_none hl)
  | some x =>
    cases x with
    | some b =>
      obtain ⟨t, ht, e⟩ := bget_of_lookup_some pid hl
      exact Or.inr (Or.inl ⟨b, t, rfl, ht, e⟩)
    | none =>
      rw [bget_of_lookup_miss hl]
      have hs0 : SameMem (acquire (release (acquire s (.bucket (BUC dev blockno)))
          (.bucket (BUC dev blockno))) .evic) s := ⟨rfl, rfl, rfl, rfl, rfl⟩
      cases hsc : scanBuckets NBUF (List.range NBUCKET)
          (acquire (release (acquire s (.bucket (BUC dev blockno))) (.bucket (BUC dev blockno)))
            .evic) none NOBUCKET with
      | none => exact Or.inl rfl
      | some res =>
        obtain ⟨s3, bl, hb⟩ := res
        obtain ⟨h1, h2⟩ := scanBuckets_any NBUF s _ _ _ _ _ _ _ hs0
          (fun r hr => by simp at hr) hsc
        cases bl with
        | none => exact Or.inr (Or.inr (Or.inl ⟨rfl, s3, h1, rfl⟩))
        | some r =>
          obtain ⟨v, hv1, hv2⟩ := h2 r rfl
          have hv3 : s3.next r = some v := by rw [h1.next]; exact hv1
          obtain ⟨t6, ht6, e⟩ := rebind_eq pid dev blockno hb hv3
          exact Or.inr (Or.inr (Or.inr ⟨rfl, r, hb, v, t6, hv1, hv2,
            ht6.trans (h1.rebindMem _ _ _ _ _), e⟩))

/-- C4 (rebinding needs `refcnt == 0`).  For every state and every call of `bget` that
ends or sleeps: at most one buffer has its `dev` or `blockno` changed, every buffer whose
`dev` or `blockno` changed had `refcnt == 0` before the call, and on a miss the buffer that
is rebound (the one `bget` returns or sleeps on) had `refcnt == 0` before the call.  In
scenario S4 the miss of `(1,3)` rebinds the released buffer and not the pinned one. -/
theorem C4_rebind_only_unreferenced (NBUF pid : Nat) (s : State) (dev blockno : Nat)
    (s2 : State) (hend : (bget NBUF pid s dev blockno).state? = some s2) :
    (∃ v, ∀ j, ((s2.buf j).dev ≠ (s.buf j).dev ∨ (s2.buf j).blockno ≠ (s.buf j).blockno) →
      j = v) ∧
    (∀ j, ((s2.buf j).dev ≠ (s.buf j).dev ∨ (s2.buf j).blockno ≠ (s.buf j).blockno) →
      (s.buf j).refcnt = 0) ∧
    (∀ b, lookup s dev blockno (NBUF + 1) (s.buckets (BUC dev blockno)) = some none →
      (bget NBUF pid s dev blockno = .ok s2 b ∨ bget NBUF pid s dev blockno = .blocked s2 b) →
      (s.buf b).refcnt = 0) ∧
    (((after 2 pinnedTrace).st.buf 1).dev = 1 ∧ ((after 2 pinnedTrace).st.buf 1).blockno = 1 ∧
      ((after 2 pinnedTrace).st.buf 1).refcnt = 0 ∧
      ((after 2 pinnedTrace).st.buf 0).dev = 1 ∧ ((after 2 pinnedTrace).st.buf 0).blockno = 2 ∧
      ((after 2 pinnedTrace).st.buf 0).refcnt = 2 ∧
      (run 2 [.read 7 1 3] (after 2 pinnedTrace)).map
        (fun τ => ((τ.st.buf 1).dev, (τ.st.buf 1).blockno, (τ.st.buf 1).refcnt,
          (τ.st.buf 0).dev, (τ.st.buf 0).blockno, (τ.st.buf 0).refcnt)) =
        some (1, 3, 1, 1, 2, 2)) := by
  refine ⟨?_, ?_, ?_, by decide⟩
  all_goals
    rcases bget_any NBUF pid s dev blockno with e | ⟨b, t, hl, ht, e⟩ | ⟨hl, t, ht, e⟩ |
      ⟨hl, r, hb, v, t6, hv1, hv2, ht6, e⟩
  -- at most one buffer changes
  · rw [e] at hend; cases hend
  · refine ⟨0, fun j hj => ?_⟩
    rw [e] at hend
    obtain ⟨u, hu1, hu2⟩ := sleepReturn_state pid t b
    rw [hu1] at hend
    simp only [Option.some.injEq] at hend
    subst hend
    have hi : SameMem t (s.setBuf b (fun x => { x with refcnt := (x.refcnt + 1) % UINT })) := ht
    have k : ∀ j, (u.buf j).dev = (s.buf j).dev ∧ (u.buf j).blockno = (s.buf j).blockno := by
      intro j
      rcases hu2 with rfl | rfl
      · rw [hi.2.1]
        by_cases e2 : j = b
        · subst e2; simp
        · simp [e2]
      · by_cases e2 : j = b
        · subst e2; simp [hi.2.1]
        · simp [e2, hi.2.1]
    rcases hj with hj | hj
    · exact absurd (k j).1 hj
    · exact absurd (k j).2 hj
  · refine ⟨0, fun j hj => ?_⟩
    rw [e] at hend
    simp only [Outcome.state?, Option.some.injEq] at hend
    subst hend
    rcases hj with hj | hj
    · exact absurd (by rw [ht.2.1]) hj
    · exact absurd (by rw [ht.2.1]) hj
  · refine ⟨v, fun j hj => ?_⟩
    rw [e] at hend
    obtain ⟨u, hu1, hu2⟩ := sleepReturn_state pid t6 v
    rw [hu1] at hend
    simp only [Option.some.injEq] at hend
    subst hend
    by_contra hne
    have k : (u.buf j).dev = (s.buf j).dev ∧ (u.buf j).blockno = (s.buf j).blockno := by
      rcases hu2 with rfl | rfl
      · rw [ht6.2.1, rebindMem_buf_other _ _ _ _ _ _ _ hne]; exact ⟨rfl, rfl⟩
      · rw [setBuf_buf_other _ _ _ _ hne, ht6.2.1, rebindMem_buf_other _ _ _ _ _ _ _ hne]
        exact ⟨rfl, rfl⟩
    rcases hj with hj | hj
    · exact hj k.1
    · exact hj k.2
  -- a buffer that changes had `refcnt == 0`
  · rw [e] at hend; cases hend
  · intro j hj
    rw [e] at hend
    obtain ⟨u, hu1, hu2⟩ := sleepReturn_state pid t b
    rw [hu1] at hend
    simp only [Option.some.injEq] at hend
    subst hend
    have hi : SameMem t (s.setBuf b (fun x => { x with refcnt := (x.refcnt + 1) % UINT })) := ht
    have k : (u.buf j).dev = (s.buf j).dev ∧ (u.buf j).blockno = (s.buf j).blockno := by
      rcases hu2 with rfl | rfl
      · rw [hi.2.1]
        by_cases e2 : j = b
        · subst e2; simp
        · simp [e2]
      · by_cases e2 : j = b
        · subst e2; simp [hi.2.1]
        · simp [e2, hi.2.1]
    rcases hj with hj | hj
    · exact absurd k.1 hj
    · exact absurd k.2 hj
  · intro j hj
    rw [e] at hend
    simp only [Outcome.state?, Option.some.injEq] at hend
    subst hend
    rcases hj with hj | hj
    · exact absurd (by rw [ht.2.1]) hj
    · exact absurd (by rw [ht.2.1]) hj
  · intro j hj
    rw [e] at hend
    obtain ⟨u, hu1, hu2⟩ := sleepReturn_state pid t6 v
    rw [hu1] at hend
    simp only [Option.some.injEq] at hend
    subst hend
    by_cases hne : j = v
    · subst hne; exact hv2
    · have k : (u.buf j).dev = (s.buf j).dev ∧ (u.buf j).blockno = (s.buf j).blockno := by
        rcases hu2 with rfl | rfl
        · rw [ht6.2.1, rebindMem_buf_other _ _ _ _ _ _ _ hne]; exact ⟨rfl, rfl⟩
        · rw [setBuf_buf_other _ _ _ _ hne, ht6.2.1, rebindMem_buf_other _ _ _ _ _ _ _ hne]
          exact ⟨rfl, rfl⟩
      rcases hj with hj | hj
      · exact absurd k.1 hj
      · exact absurd k.2 hj
  -- the victim of a miss had `refcnt == 0`
  · rw [e] at hend; cases hend
  · intro b2 hmiss
    rw [hl] at hmiss; cases hmiss
  · intro b2 _ hret
    rw [e] at hret
    rcases hret with h | h <;> cases h
  · intro b2 _ hret
    rw [e] at hret
    rcases hret with h | h
    · rw [(sleepReturn_ok h).2.1]; exact hv2
    · rw [(sleepReturn_blocked h).2.1]; exact hv2

/-- Witness of C4: the first `bget(1, 1)` on a freshly initialised cache of two buffers. -/
theorem C4_rebind_only_unreferenced_witness :
    (bget 2 7 (init 2 blankDisk).st 1 1).state? = some getOnce ∧
    ((∃ v, ∀ j, ((getOnce.buf j).dev ≠ ((init 2 blankDisk).st.buf j).dev ∨
        (getOnce.buf j).blockno ≠ ((init 2 blankDisk).st.buf j).blockno) → j = v) ∧
    (∀ j, ((getOnce.buf j).dev ≠ ((init 2 blankDisk).st.buf j).dev ∨
        (getOnce.buf j).blockno ≠ ((init 2 blankDisk).st.buf j).blockno) →
      ((init 2 blankDisk).st.buf j).refcnt = 0) ∧
    (∀ b, lookup (init 2 blankDisk).st 1 1 (2 + 1) ((init 2 blankDisk).st.buckets (BUC 1 1)) =
        some none →
      (bget 2 7 (init 2 blankDisk).st 1 1 = .ok getOnce b ∨
        bget 2 7 (init 2 blankDisk).st 1 1 = .blocked getOnce b) →
      ((init 2 blankDisk).st.buf b).refcnt = 0) ∧
    (((after 2 pinnedTrace).st.buf 1).dev = 1 ∧ ((after 2 pinnedTrace).st.buf 1).blockno = 1 ∧
      ((after 2 pinnedTrace).st.buf 1).refcnt = 0 ∧
      ((after 2 pinnedTrace).st.buf 0).dev = 1 ∧ ((after 2 pinnedTrace).st.buf 0).blockno = 2 ∧
      ((after 2 pinnedTrace).st.buf 0).refcnt = 2 ∧
      (run 2 [.read 7 1 3] (after 2 pinnedTrace)).map
        (fun τ => ((τ.st.buf 1).dev, (τ.st.buf 1).blockno, (τ.st.buf 1).refcnt,
          (τ.st.buf 0).dev, (τ.st.buf 0).blockno, (τ.st.buf 0).refcnt)) =
        some (1, 3, 1, 1, 2, 2))) :=
  ⟨rfl, C4_rebind_only_unreferenced 2 7 (init 2 blankDisk).st 1 1 getOnce rfl⟩

/-- C5 (LRU preference).  In every state reachable from init, when `bget` misses and does
not panic, the buffer it rebinds (the pool buffer it returns or sleeps on, bound to the key
afterwards) had `refcnt == 0` before the call and a `last_used` less than or equal to the
`last_used` of every pool buffer with `refcnt == 0`.  In scenario S3, with three buffers
released at the ticks 10, 11 and 12, the miss of `(1,4)` rebinds the buffer released first
and the fourth disk read is issued. -/
theorem C5_lru_preference (NBUF : Nat) (σ : Sys) (hreach : Reachable NBUF σ)
    (pid dev blockno : Nat) (hmiss : ¬ resident NBUF σ.st dev blockno) (s2 : State) (b : Nat)
    (hret : bget NBUF pid σ.st dev blockno = .ok s2 b ∨
      bget NBUF pid σ.st dev blockno = .blocked s2 b) :
    b < NBUF ∧ (σ.st.buf b).refcnt = 0 ∧
    (∀ j, j < NBUF → (σ.st.buf j).refcnt = 0 →
      (σ.st.buf b).last_used ≤ (σ.st.buf j).last_used) ∧
    bound s2 dev blockno b ∧
    (((after 3 threeTrace).st.buf 2).dev = 1 ∧ ((after 3 threeTrace).st.buf 2).blockno = 1 ∧
      ((after 3 threeTrace).st.buf 2).last_used = 10 ∧
      ((after 3 threeTrace).st.buf 1).last_used = 11 ∧
      ((after 3 threeTrace).st.buf 0).last_used = 12 ∧
      (run 3 [.read 7 1 4] (after 3 threeTrace)).map
        (fun τ => ((τ.st.buf 2).dev, (τ.st.buf 2).blockno, (τ.st.buf 1).dev,
          (τ.st.buf 1).blockno, (τ.st.buf 0).dev, (τ.st.buf 0).blockno, τ.st.nread)) =
        some (1, 4, 1, 2, 1, 3, 4)) := by
  obtain ⟨L, hinv⟩ := reachable_inv hreach
  have hc := hinv.chains
  have hf := (find_none_iff hc dev blockno).2 hmiss
  rcases bget_miss pid hc hf with ⟨_, t, _, e⟩ | ⟨hb, pre, v, post, t6, h1, h2, h3, h4, h5, e⟩
  · rw [e] at hret
    rcases hret with h | h <;> cases h
  · have hbv : b = v ∧ (s2 = t6 ∨ s2 = t6.setBuf v (fun x => { x with lock := some pid })) := by
      rw [e] at hret
      rcases hret with h | h
      · obtain ⟨_, k1, k2⟩ := sleepReturn_ok h
        exact ⟨k1, Or.inr k2⟩
      · obtain ⟨_, k1, k2⟩ := sleepReturn_blocked h
        exact ⟨k1, Or.inl k2⟩
    obtain ⟨rfl, hs2⟩ := hbv
    have hvp : b < NBUF := hc.pool hb h1 b (by rw [h2]; simp)
    refine ⟨hvp, h4, ?_, ?_, by decide, by decide, by decide, by decide, by decide, rfl⟩
    · intro j hj hr
      exact (pick_min σ.st _ _ _ h3).2 j ((hc.mem_scanOrder j).2 hj) hr
    · rcases hs2 with rfl | rfl
      · simp only [bound, h5.2.1]
        rw [rebindMem_buf_same]
        exact ⟨rfl, rfl⟩
      · simp only [bound, setBuf_buf_same, h5.2.1]
        rw [rebindMem_buf_same]
        exact ⟨rfl, rfl⟩

/-- Witness of C5: the first `bget(1, 1)` on a freshly initialised cache of two buffers. -/
theorem C5_lru_preference_witness :
    Reachable 2 (init 2 blankDisk) ∧ ¬ resident 2 (init 2 blankDisk).st 1 1 ∧
    bget 2 7 (init 2 blankDisk).st 1 1 = .ok getOnce 1 ∧
    (1 < 2 ∧ ((init 2 blankDisk).st.buf 1).refcnt = 0 ∧
    (∀ j, j < 2 → ((init 2 blankDisk).st.buf j).refcnt = 0 →
      ((init 2 blankDisk).st.buf 1).last_used ≤ ((init 2 blankDisk).st.buf j).last_used) ∧
    bound getOnce 1 1 1 ∧
    (((after 3 threeTrace).st.buf 2).dev = 1 ∧ ((after 3 threeTrace).st.buf 2).blockno = 1 ∧
      ((after 3 threeTrace).st.buf 2).last_used = 10 ∧
      ((after 3 threeTrace).st.buf 1).last_used = 11 ∧
      ((after 3 threeTrace).st.buf 0).last_used = 12 ∧
      (run 3 [.read 7 1 4] (after 3 threeTrace)).map
        (fun τ => ((τ.st.buf 2).dev, (τ.st.buf 2).blockno, (τ.st.buf 1).dev,
          (τ.st.buf 1).blockno, (τ.st.buf 0).dev, (τ.st.buf 0).blockno, τ.st.nread)) =
        some (1, 4, 1, 2, 1, 3, 4))) :=
  ⟨reachable_init 2 blankDisk, by decide, rfl,
    C5_lru_preference 2 (init 2 blankDisk) (reachable_init 2 blankDisk) 7 1 1 (by decide)
      getOnce 1 (Or.inl rfl)⟩

/-- C6 (as amended).  In every state with chain membership, `bget` panics with
"bget: no buffers" if and only if no buffer in the chain of bucket `BUC(dev, blockno)` is
bound to the key and no buffer of the pool has `refcnt == 0`; in every other case it
chooses a pool buffer and does not panic: it returns that buffer when the sleep lock of the
buffer is free and sleeps on that sleep lock when it is taken. -/
theorem C6_pool_exhaustion (NBUF pid : Nat) (s : State) (dev blockno : Nat)
    (hcm : ChainMembership NBUF s) :
    ((∃ t, bget NBUF pid s dev blockno = .panic "bget: no buffers" t) ↔
      ((∀ l, chainOf NBUF s (BUC dev blockno) = some l → ∀ j ∈ l, ¬ bound s dev blockno j) ∧
        ∀ j, j < NBUF → (s.buf j).refcnt ≠ 0)) ∧
    (¬ ((∀ l, chainOf NBUF s (BUC dev blockno) = some l → ∀ j ∈ l, ¬ bound s dev blockno j) ∧
        ∀ j, j < NBUF → (s.buf j).refcnt ≠ 0) →
      ∃ b, b < NBUF ∧
        (((s.buf b).lock = none ∧ ∃ s2, bget NBUF pid s dev blockno = .ok s2 b) ∨
          ((s.buf b).lock ≠ none ∧ ∃ s2, bget NBUF pid s dev blockno = .blocked s2 b))) ∧
    (∀ msg t, bget NBUF pid s dev blockno = .panic msg t → msg = "bget: no buffers") := by
  obtain ⟨L, hc⟩ := hcm
  have hchain : chainOf NBUF s (BUC dev blockno) = some (L (BUC dev blockno)) :=
    chainOf_of_inv hc (BUC_lt dev blockno)
  have hnobound : (∀ l, chainOf NBUF s (BUC dev blockno) = some l →
      ∀ j ∈ l, ¬ bound s dev blockno j) ↔
      (L (BUC dev blockno)).find? (fun j => decide (bound s dev blockno j)) = none := by
    rw [List.find?_eq_none]
    constructor
    · intro h j hj
      simpa using h _ hchain j hj
    · intro h l hl j hj
      rw [hchain] at hl
      simp only [Option.some.injEq] at hl
      subst hl
      simpa using h j hj
  have sleepCase : ∀ (t : State) (b : Nat), (t.buf b).lock = (s.buf b).lock → b < NBUF →
      bget NBUF pid s dev blockno = sleepReturn pid t b →
      (¬ ∃ u, bget NBUF pid s dev blockno = .panic "bget: no buffers" u) ∧
      (∃ b, b < NBUF ∧
        (((s.buf b).lock = none ∧ ∃ s2, bget NBUF pid s dev blockno = .ok s2 b) ∨
          ((s.buf b).lock ≠ none ∧ ∃ s2, bget NBUF pid s dev blockno = .blocked s2 b))) ∧
      (∀ msg u, bget NBUF pid s dev blockno = .panic msg u → msg = "bget: no buffers") := by
    intro t b hl hb e
    refine ⟨?_, ⟨b, hb, ?_⟩, ?_⟩
    · rintro ⟨u, hu⟩
      rw [e] at hu
      exact sleepReturn_ne_panic hu
    · cases hlk : (s.buf b).lock with
      | none =>
        left
        rw [hlk] at hl
        exact ⟨rfl, _, e.trans (sleepReturn_of_free hl)⟩
      | some q =>
        right
        rw [hlk] at hl
        exact ⟨by simp, _, e.trans (sleepReturn_of_held hl)⟩
    · intro msg u hu
      rw [e] at hu
      exact absurd hu sleepReturn_ne_panic
  cases hf : (L (BUC dev blockno)).find? (fun j => decide (bound s dev blockno j)) with
  | some b0 =>
    obtain ⟨t, ht, e⟩ := bget_hit pid hc hf
    obtain ⟨_, as, bs, hl, _⟩ := List.find?_eq_some.1 hf
    have hb0 : b0 < NBUF := hc.pool _ (BUC_lt dev blockno) b0 (by rw [hl]; simp)
    have hlock : (t.buf b0).lock = (s.buf b0).lock := by
      rw [ht.2.1]; simp [incRef]
    obtain ⟨k1, k2, k3⟩ := sleepCase t b0 hlock hb0 e
    have hnot : ¬ ((∀ l, chainOf NBUF s (BUC dev blockno) = some l →
        ∀ j ∈ l, ¬ bound s dev blockno j) ∧ ∀ j, j < NBUF → (s.buf j).refcnt ≠ 0) := by
      rintro ⟨h1, _⟩
      rw [hnobound, hf] at h1
      cases h1
    exact ⟨⟨fun h => absurd h k1, fun h => absurd h hnot⟩, fun _ => k2, k3⟩
  | none =>
    rcases bget_miss pid hc hf with ⟨h0, t, _, e⟩ | ⟨hb, pre, v, post, t6, h1, h2, h3, h4, h5, e⟩
    · have hall : ∀ j, j < NBUF → (s.buf j).refcnt ≠ 0 := by
        intro j hj
        exact ((pick_none s _ _).1 h0).2 j ((hc.mem_scanOrder j).2 hj)
      refine ⟨⟨fun _ => ⟨hnobound.2 hf, hall⟩, fun _ => ⟨t, e⟩⟩, ?_, ?_⟩
      · intro hn
        exact absurd ⟨hnobound.2 hf, hall⟩ hn
      · intro msg u hu
        rw [e] at hu
        simp only [Outcome.panic.injEq] at hu
        exact hu.1.symm
    · have hvp : v < NBUF := hc.pool hb h1 v (by rw [h2]; simp)
      have hlock : (t6.buf v).lock = (s.buf v).lock := by
        rw [h5.2.1, rebindMem_buf_same]
      obtain ⟨k1, k2, k3⟩ := sleepCase t6 v hlock hvp e
      have hnot : ¬ ((∀ l, chainOf NBUF s (BUC dev blockno) = some l →
          ∀ j ∈ l, ¬ bound s dev blockno j) ∧ ∀ j, j < NBUF → (s.buf j).refcnt ≠ 0) := by
        rintro ⟨_, h6⟩
        exact h6 v hvp h4
      exact ⟨⟨fun h => absurd h k1, fun h => absurd h hnot⟩, fun _ => k2, k3⟩

/-- Witness of C6: the cache of two buffers right after `binit`. -/
theorem C6_pool_exhaustion_witness :
    ChainMembership 2 (init 2 blankDisk).st ∧
    (((∃ t, bget 2 7 (init 2 blankDisk).st 1 1 = .panic "bget: no buffers" t) ↔
      ((∀ l, chainOf 2 (init 2 blankDisk).st (BUC 1 1) = some l →
          ∀ j ∈ l, ¬ bound (init 2 blankDisk).st 1 1 j) ∧
        ∀ j, j < 2 → ((init 2 blankDisk).st.buf j).refcnt ≠ 0)) ∧
    (¬ ((∀ l, chainOf 2 (init 2 blankDisk).st (BUC 1 1) = some l →
          ∀ j ∈ l, ¬ bound (init 2 blankDisk).st 1 1 j) ∧
        ∀ j, j < 2 → ((init 2 blankDisk).st.buf j).refcnt ≠ 0) →
      ∃ b, b < 2 ∧
        ((((init 2 blankDisk).st.buf b).lock = none ∧
            ∃ s2, bget 2 7 (init 2 blankDisk).st 1 1 = .ok s2 b) ∨
          (((init 2 blankDisk).st.buf b).lock ≠ none ∧
            ∃ s2, bget 2 7 (init 2 blankDisk).st 1 1 = .blocked s2 b))) ∧
    (∀ msg t, bget 2 7 (init 2 blankDisk).st 1 1 = .panic msg t → msg = "bget: no buffers")) :=
  ⟨⟨_, (init_inv 2 blankDisk).chains⟩,
    C6_pool_exhaustion 2 7 (init 2 blankDisk).st 1 1 ⟨_, (init_inv 2 blankDisk).chains⟩⟩

/-- Counterexample to C6: process 7 holds the buffer of key `(1,1)`; the state has chain
membership and the key is resident, so the pool is not exhausted, yet `bget(1,1)` does not
return a buffer: it sleeps on the sleep lock of buffer 1. -/
theorem C6_counterexample :
    ChainMembership 2 heldState ∧ resident 2 heldState 1 1 ∧
    bget 2 7 heldState 1 1 = .blocked ((bget 2 7 heldState 1 1).stateD heldState) 1 ∧
    (∀ s2 b, bget 2 7 heldState 1 1 ≠ .ok s2 b) := by
  have hb : bget 2 7 heldState 1 1 =
      .blocked ((bget 2 7 heldState 1 1).stateD heldState) 1 := rfl
  have hr : Reachable 2 (after 2 [.read 7 1 1]) := ⟨blankDisk, [.read 7 1 1], rfl⟩
  obtain ⟨L, hinv⟩ := reachable_inv hr
  refine ⟨⟨L, hinv.chains⟩, by decide, hb, ?_⟩
  intro s2 b h
  rw [hb] at h
  cases h

/-! ## The hit path of `bread` (claim C7) -/

/-- The lookup finds a pool buffer that is bound to the key and not pristine. -/
theorem Inv.find_eq {NBUF : Nat} {σ : Sys} {L : Nat → List Nat} (h : Inv NBUF σ L)
    {dev blockno b : Nat} (hb : b < NBUF) (hbound : bound σ.st dev blockno b)
    (hnp : ¬ pristine σ b) :
    (L (BUC dev blockno)).find? (fun j => decide (bound σ.st dev blockno j)) = some b := by
  have hmem : b ∈ L (BUC dev blockno) := by
    have := h.chains.mem_bucket hb
    rw [hbound.1, hbound.2] at this
    exact this
  cases hf : (L (BUC dev blockno)).find? (fun j => decide (bound σ.st dev blockno j)) with
  | none =>
    have := List.find?_eq_none.1 hf b hmem
    simp only [decide_eq_true_eq] at this
    exact absurd hbound this
  | some a =>
    obtain ⟨hpa, as, bs, hl, hfirst⟩ := List.find?_eq_some.1 hf
    have hpa2 : bound σ.st dev blockno a := by simpa using hpa
    by_cases e : a = b
    · rw [e]
    · exfalso
      have hp := h.uniq _ (BUC_lt dev blockno)
      rw [hl] at hp hmem
      rcases List.mem_append.1 hmem with hm | hm
      · have := hfirst b hm
        simp only [Bool.not_eq_true', decide_eq_false_iff_not] at this
        exact this hbound
      · rcases List.mem_cons.1 hm with hm | hm
        · exact e hm.symm
        · have hsh := (List.pairwise_cons.1 (List.pairwise_append.1 hp).2.1).1 b hm
          exact hnp (hsh e (hpa2.1.trans hbound.1.symm) (hpa2.2.trans hbound.2.symm))

theorem load_other (s1 : State) (b j : Nat) (h : j ≠ b) :
    (if (s1.buf b).valid = 0 then
        (virtio_disk_rw s1 b false).setBuf b (fun x => { x with valid := 1 })
      else s1).buf j = s1.buf j := by
  split <;> simp [virtio_disk_rw, h]

theorem load_disk (s1 : State) (b : Nat) :
    (if (s1.buf b).valid = 0 then
        (virtio_disk_rw s1 b false).setBuf b (fun x => { x with valid := 1 })
      else s1).disk = s1.disk := by
  split <;> simp [virtio_disk_rw]

theorem load_data (s1 : State) (b : Nat) :
    ((if (s1.buf b).valid = 0 then
        (virtio_disk_rw s1 b false).setBuf b (fun x => { x with valid := 1 })
      else s1).buf b).data =
      if (s1.buf b).valid = 0 then s1.disk (s1.buf b).dev (s1.buf b).blockno
      else (s1.buf b).data := by
  split <;> simp [virtio_disk_rw]

theorem step_store {NBUF : Nat} {σ τ : Sys} {pid b : Nat} {d : List Nat}
    (h : step NBUF σ (.store pid b d) = some τ) :
    b < NBUF ∧ (σ.st.buf b).lock = some pid ∧
      τ = { σ with st := σ.st.setBuf b (fun x => { x with data := d }) } := by
  simp only [step] at h
  split at h
  · next hc =>
    simp only [Option.some.injEq] at h
    exact ⟨hc.1, hc.2, h.symm⟩
  · cases h

theorem step_write {NBUF : Nat} {σ τ : Sys} {pid b : Nat}
    (h : step NBUF σ (.write pid b) = some τ) :
    b < NBUF ∧ (σ.st.buf b).lock = some pid ∧
      τ = { σ with st := virtio_disk_rw σ.st b true } := by
  simp only [step] at h
  split at h
  · next hc =>
    split at h
    · next s2 u hok =>
      simp only [Option.some.injEq] at h
      obtain ⟨hl, rfl⟩ := bwrite_ok hok
      exact ⟨hc, hl, h.symm⟩
    · cases h
  · cases h

theorem step_release {NBUF : Nat} {σ τ : Sys} {pid ticks b : Nat}
    (h : step NBUF σ (.release pid ticks b) = some τ) :
    b < NBUF ∧ τ.pins = σ.pins ∧ brelse pid ticks σ.st b = .ok τ.st () := by
  simp only [step] at h
  split at h
  · next hc =>
    split at h
    · next s2 u hok =>
      simp only [Option.some.injEq] at h
      subst h
      exact ⟨hc, rfl, hok⟩
    · cases h
  · cases h

theorem run_cons_some {NBUF : Nat} {σ τ : Sys} {op : Op} {ops : List Op}
    (h : run NBUF (op :: ops) σ = some τ) :
    ∃ σ1, step NBUF σ op = some σ1 ∧ run NBUF ops σ1 = some τ := by
  simp only [run] at h
  cases hs : step NBUF σ op with
  | none => simp [hs] at h
  | some σ1 => exact ⟨σ1, rfl, by simpa [hs] using h⟩

/-- A `read` of another key and a `release` keep the block `(d, n)` stable. -/
theorem step_stable {NBUF d n : Nat} {B : List Nat} {σ τ : Sys} {L : Nat → List Nat}
    (hinv : Inv NBUF σ L) (hst : Stable NBUF d n B σ) (op : Op) (hop : otherKey d n op)
    (hs : step NBUF σ op = some τ) : Stable NBUF d n B τ := by
  cases op with
  | read pid d2 n2 =>
    simp only [step] at hs
    split at hs
    · next s2 b hok =>
      simp only [Option.some.injEq] at hs
      subst hs
      obtain ⟨s1, hg, rfl⟩ := bread_ok hok
      obtain ⟨_, p2, _, p4, _, _, p7, _⟩ := bget_ok_post hinv.chains hg
      refine ⟨?_, ?_⟩
      · show (if (s1.buf b).valid = 0 then _ else s1).disk d n = B
        rw [load_disk, p7]; exact hst.1
      · intro j hj hb
        by_cases e : j = b
        · subst e
          exfalso
          have k := load_fields s1 j
          have hb2 : bound s1 d n j := ⟨k.1.symm.trans hb.1, k.2.1.symm.trans hb.2⟩
          exact hop ⟨p2.1.symm.trans hb2.1, p2.2.symm.trans hb2.2⟩
        · have k : (if (s1.buf b).valid = 0 then
              (virtio_disk_rw s1 b false).setBuf b (fun x => { x with valid := 1 })
            else s1).buf j = s1.buf j := load_other s1 b j e
          have hb2 : bound s1 d n j := by
            have := hb
            simp only [bound] at this ⊢
            rw [k] at this
            exact this
          obtain ⟨q1, q2, q3, q4, _⟩ := p4 j e
          have hb3 : bound σ.st d n j := ⟨q1.symm.trans hb2.1, q2.symm.trans hb2.2⟩
          show ((if (s1.buf b).valid = 0 then _ else s1).buf j).valid = 0 ∨
            ((if (s1.buf b).valid = 0 then _ else s1).buf j).data = B
          rw [k, q3, q4]
          exact hst.2 j hj hb3
    · cases hs
  | release pid ticks b =>
    obtain ⟨_, _, hok⟩ := step_release hs
    obtain ⟨_, _, k2, _, _, k3, k4⟩ := brelse_ok hok
    have key : ∀ j, (τ.st.buf j).dev = (σ.st.buf j).dev ∧
        (τ.st.buf j).blockno = (σ.st.buf j).blockno ∧
        (τ.st.buf j).valid = (σ.st.buf j).valid ∧ (τ.st.buf j).data = (σ.st.buf j).data := by
      intro j
      by_cases e : j = b
      · subst e; rw [k4]; exact ⟨rfl, rfl, rfl, rfl⟩
      · rw [k3 j e]; exact ⟨rfl, rfl, rfl, rfl⟩
    refine ⟨by rw [k2]; exact hst.1, ?_⟩
    intro j hj hb
    obtain ⟨q1, q2, q3, q4⟩ := key j
    rw [q3, q4]
    exact hst.2 j hj ⟨q1.symm.trans hb.1, q2.symm.trans hb.2⟩
  | get pid d2 n2 => exact absurd hop (by simp [otherKey])
  | write pid b => exact absurd hop (by simp [otherKey])
  | pin pid b => exact absurd hop (by simp [otherKey])
  | unpin b => exact absurd hop (by simp [otherKey])
  | store pid b x => exact absurd hop (by simp [otherKey])

theorem run_stable {NBUF d n : Nat} {B : List Nat} : ∀ (ops : List Op) (σ τ : Sys)
    (L : Nat → List Nat), Inv NBUF σ L → Stable NBUF d n B σ →
    (∀ op ∈ ops, otherKey d n op) → run NBUF ops σ = some τ →
    (∃ L2, Inv NBUF τ L2) ∧ Stable NBUF d n B τ := by
  intro ops
  induction ops with
  | nil =>
    intro σ τ L hinv hst _ hr
    simp only [run, Option.some.injEq] at hr
    subst hr
    exact ⟨⟨L, hinv⟩, hst⟩
  | cons op ops ih =>
    intro σ τ L hinv hst hops hr
    obtain ⟨σ1, h1, h2⟩ := run_cons_some hr
    obtain ⟨L1, hinv1⟩ := step_inv hinv op h1
    have hst1 := step_stable hinv hst op (hops op (List.mem_cons_self _ _)) h1
    exact ih σ1 τ L1 hinv1 hst1 (fun o ho => hops o (List.mem_cons_of_mem _ ho)) h2

/-- In a stable state a `bread(d, n)` that returns hands out a buffer that holds `B`. -/
theorem stable_read {NBUF d n : Nat} {B : List Nat} {σ : Sys} {L : Nat → List Nat}
    (hinv : Inv NBUF σ L) (hst : Stable NBUF d n B σ) {pid : Nat} {s4 : State} {b4 : Nat}
    (hread : bread NBUF pid σ.st d n = .ok s4 b4) : (s4.buf b4).data = B := by
  obtain ⟨s5, hg, e⟩ := bread_ok hread
  obtain ⟨p1, p2, _, _, p5, _, p7, _⟩ := bget_ok_post hinv.chains hg
  obtain ⟨r1, r2⟩ := bget_ok_refcnt hinv.chains hg
  rw [e, load_data]
  by_cases hv : (s5.buf b4).valid = 0
  · rw [if_pos hv, p2.1, p2.2, p7]
    exact hst.1
  · rw [if_neg hv, p5]
    by_cases hres : resident NBUF σ.st d n
    · obtain ⟨q1, _, q3⟩ := r1 hres
      rcases hst.2 b4 p1 q1 with h0 | h0
      · rw [q3] at hv
        exact absurd h0 hv
      · exact h0
    · exact absurd (r2 hres).2.2 hv

/-- A `bread` of a key whose first buffer in the chain is `b`, with the sleep lock of `b`
free, returns `b`. -/
theorem bread_of_find {NBUF : Nat} (pid : Nat) {s : State} {L : Nat → List Nat}
    (h : ChainInv NBUF s L) {dev blockno b : Nat}
    (hf : (L (BUC dev blockno)).find? (fun j => decide (bound s dev blockno j)) = some b)
    (hfree : (s.buf b).lock = none) : ∃ s2, bread NBUF pid s dev blockno = .ok s2 b := by
  obtain ⟨t, ht, e⟩ := bget_hit pid h hf
  have hfree2 : (t.buf b).lock = none := by
    rw [ht.2.1]; simpa [incRef] using hfree
  rw [sleepReturn_of_free hfree2] at e
  simp only [bread, e]
  split
  · exact ⟨_, rfl⟩
  · exact ⟨_, rfl⟩

/-- C8 (as amended).  With the disk a map from `(dev, blockno)` to block contents: in every
reachable state, after `b = bget(d, n)` or `b = bread(d, n)` has returned, the store
`b.data := B`, `bwrite(b)` and `brelse(b)` by the caller return; then the block `(d, n)` of
the disk is `B` and a `bread(d, n)` right away returns `b` with `data` equal to `B`; and
after any further trace of reads of other keys and of releases (also ones that rebind `b`),
the block `(d, n)` of the disk is `B` and every `bread(d, n)` that returns hands out a
buffer whose `data` is `B`. -/
theorem C8_round_trip (NBUF : Nat) (σ0 : Sys) (hreach : Reachable NBUF σ0)
    (pid d n : Nat) (B : List Nat) (ticks : Nat) (s1 : State) (b : Nat)
    (hget : bget NBUF pid σ0.st d n = .ok s1 b ∨ bread NBUF pid σ0.st d n = .ok s1 b) :
    ∃ σ2, run NBUF [.store pid b B, .write pid b, .release pid ticks b]
        { σ0 with st := s1 } = some σ2 ∧
      (∀ pid2, ∃ s5, bread NBUF pid2 σ2.st d n = .ok s5 b ∧ (s5.buf b).data = B) ∧
      σ2.st.disk d n = B ∧
      ∀ ops σ3, (∀ op ∈ ops, otherKey d n op) → run NBUF ops σ2 = some σ3 →
        σ3.st.disk d n = B ∧
        ∀ pid2 s4 b4, bread NBUF pid2 σ3.st d n = .ok s4 b4 → (s4.buf b4).data = B := by
  -- the state after the first call
  have hstep1 : ∃ op, step NBUF σ0 op = some { σ0 with st := s1 } := by
    rcases hget with h | h
    · exact ⟨.get pid d n, by simp [step, h]⟩
    · exact ⟨.read pid d n, by simp [step, h]⟩
  obtain ⟨op1, hop1⟩ := hstep1
  obtain ⟨L0, hinv0⟩ := reachable_inv hreach
  obtain ⟨L1, hinv1⟩ := step_inv hinv0 op1 hop1
  have hpost : b < NBUF ∧ bound s1 d n b ∧ (s1.buf b).lock = some pid := by
    rcases hget with h | h
    · obtain ⟨p1, p2, p3, _⟩ := bget_ok_post hinv0.chains h
      exact ⟨p1, p2, p3⟩
    · obtain ⟨s0, hg, e⟩ := bread_ok h
      obtain ⟨p1, p2, p3, _⟩ := bget_ok_post hinv0.chains hg
      obtain ⟨f1, f2, f3, _⟩ := load_fields s0 b
      rw [← e] at f1 f2 f3
      exact ⟨p1, ⟨f1.trans p2.1, f2.trans p2.2⟩, f3.trans p3⟩
  obtain ⟨hbN, hbb, hbl⟩ := hpost
  have hnp : ¬ pristine { σ0 with st := s1 } b := by
    intro hp
    have := hp.2.2.1
    rw [hbl] at this
    cases this
  have hfind1 := hinv1.find_eq hbN hbb hnp
  -- store, write and release return
  have hex : ∃ σ2, run NBUF [.store pid b B, .write pid b, .release pid ticks b]
      { σ0 with st := s1 } = some σ2 := by
    have hlb : ((virtio_disk_rw (s1.setBuf b (fun x => { x with data := B })) b true).buf
        b).lock = some pid := by
      simp [virtio_disk_rw, hbl]
    obtain ⟨s2, hs2⟩ := brelse_of_held ticks hlb
    refine ⟨{ σ0 with st := s2 }, ?_⟩
    have h1 : step NBUF { σ0 with st := s1 } (.store pid b B) =
        some { σ0 with st := s1.setBuf b (fun x => { x with data := B }) } := by
      simp [step, hbN, hbl]
    have h2 : step NBUF { σ0 with st := s1.setBuf b (fun x => { x with data := B }) }
        (.write pid b) =
        some { σ0 with
          st := virtio_disk_rw (s1.setBuf b (fun x => { x with data := B })) b true } := by
      simp [step, hbN, bwrite, holdingsleep, hbl]
    have h3 : step NBUF { σ0 with
          st := virtio_disk_rw (s1.setBuf b (fun x => { x with data := B })) b true }
        (.release pid ticks b) = some { σ0 with st := s2 } := by
      simp only [step, hbN, if_true, hs2]
    simp only [run, h1, h2, h3]
  obtain ⟨σ2, hwrite⟩ := hex
  refine ⟨σ2, hwrite, ?_⟩
  obtain ⟨σa, ha, hr1⟩ := run_cons_some hwrite
  obtain ⟨σb, hb2, hr2⟩ := run_cons_some hr1
  obtain ⟨σc, hc, hr3⟩ := run_cons_some hr2
  simp only [run, Option.some.injEq] at hr3
  subst hr3
  obtain ⟨La, hinva⟩ := step_inv hinv1 _ ha
  obtain ⟨Lb, hinvb⟩ := step_inv hinva _ hb2
  obtain ⟨Lc, hinvc⟩ := step_inv hinvb _ hc
  obtain ⟨_, _, rfl⟩ := step_store ha
  obtain ⟨_, _, rfl⟩ := step_write hb2
  obtain ⟨_, _, hok⟩ := step_release hc
  obtain ⟨_, k1, k2, _, _, k3, k4⟩ := brelse_ok hok
  have hfields : ∀ j, (σc.st.buf j).next = (s1.buf j).next ∧ (σc.st.buf j).dev = (s1.buf j).dev ∧
      (σc.st.buf j).blockno = (s1.buf j).blockno ∧ (σc.st.buf j).valid = (s1.buf j).valid := by
    intro j
    by_cases e : j = b
    · subst e
      rw [k4]
      simp [virtio_disk_rw]
    · rw [k3 j e]
      simp [virtio_disk_rw, e]
  have hstable : Stable NBUF d n B σc := by
    refine ⟨?_, ?_⟩
    · rw [k2]
      simp [virtio_disk_rw, hbb.1, hbb.2]
    · intro j hj hjb
      by_cases e : j = b
      · subst e
        right
        rw [k4]
        simp [virtio_disk_rw]
      · left
        obtain ⟨_, f2, f3, f4⟩ := hfields j
        have hjb1 : bound s1 d n j := ⟨f2.symm.trans hjb.1, f3.symm.trans hjb.2⟩
        rw [f4]
        have hkey := hinv1.pristine_of_same_key (a := j) (b := b) hj hbN e
          (hjb1.1.trans hbb.1.symm) (hjb1.2.trans hbb.2.symm)
        rcases hkey with hp | hp
        · exact hp.2.1
        · exact absurd hp hnp
  -- the read right after the release
  have hchainc : ChainInv NBUF σc.st L1 := by
    refine hinv1.chains.of_links ?_ (fun j => ⟨(hfields j).1, (hfields j).2.1, (hfields j).2.2.1⟩)
    rw [k1]
    simp [virtio_disk_rw]
  have hfindc : (L1 (BUC d n)).find? (fun j => decide (bound σc.st d n j)) = some b := by
    have e : (fun j => decide (bound σc.st d n j)) = (fun j => decide (bound s1 d n j)) := by
      funext j
      simp only [bound, (hfields j).2.1, (hfields j).2.2.1]
    rw [e]
    exact hfind1
  have hfreec : (σc.st.buf b).lock = none := by rw [k4]
  refine ⟨fun pid2 => ?_, hstable.1, ?_⟩
  · obtain ⟨s5, hs5⟩ := bread_of_find pid2 hchainc hfindc hfreec
    exact ⟨s5, hs5, stable_read hinvc hstable hs5⟩
  · -- the trace of other keys
    intro ops σ3 hops hrun
    obtain ⟨⟨L3, hinv3⟩, hst3⟩ := run_stable ops σc σ3 Lc hinvc hstable hops hrun
    exact ⟨hst3.1, fun pid2 s4 b4 hread => stable_read hinv3 hst3 hread⟩

/-- Witness of C8: on a cache of two buffers process 7 gets the buffer of `(1,1)`, stores
`[42]`, writes and releases it, reads and releases the key `(1,2)`, and reads `(1,1)`
again. -/
theorem C8_round_trip_witness :
    Reachable 2 (init 2 blankDisk) ∧
    bget 2 7 (init 2 blankDisk).st 1 1 = .ok getOnce 1 ∧
    run 2 [.store 7 1 [42], .write 7 1, .release 7 5 1] tripStart = some tripWritten ∧
    (∀ op ∈ [Op.read 7 1 2, Op.release 7 6 0], otherKey 1 1 op) ∧
    run 2 [.read 7 1 2, .release 7 6 0] tripWritten = some tripLater ∧
    bread 2 7 tripLater.st 1 1 = .ok tripFinal 1 ∧
    (tripFinal.buf 1).data = [42] ∧ tripLater.st.disk 1 1 = [42] ∧
    (∃ σ2, run 2 [.store 7 1 [42], .write 7 1, .release 7 5 1]
        { init 2 blankDisk with st := getOnce } = some σ2 ∧
      (∀ pid2, ∃ s5, bread 2 pid2 σ2.st 1 1 = .ok s5 1 ∧ (s5.buf 1).data = [42]) ∧
      σ2.st.disk 1 1 = [42] ∧
      ∀ ops σ3, (∀ op ∈ ops, otherKey 1 1 op) → run 2 ops σ2 = some σ3 →
        σ3.st.disk 1 1 = [42] ∧
        ∀ pid2 s4 b4, bread 2 pid2 σ3.st 1 1 = .ok s4 b4 → (s4.buf b4).data = [42]) :=
  ⟨reachable_init 2 blankDisk, rfl, rfl, by simp [otherKey], rfl, rfl, rfl, rfl,
    C8_round_trip 2 (init 2 blankDisk) (reachable_init 2 blankDisk) 7 1 1 [42] 5 getOnce 1
      (Or.inl rfl)⟩

/-- Counterexample to C8: on a cache of two buffers, after the round trip of `[42]`
through the key `(1,1)`, the reads of the keys `(1,2)` and `(1,3)` take both buffers and
rebind the one of `(1,1)`; the subsequent `bread(1,1)` does not return a buffer, it panics
with "bget: no buffers". -/
theorem C8_counterexample :
    Reachable 2 (init 2 blankDisk) ∧
    bget 2 7 (init 2 blankDisk).st 1 1 = .ok getOnce 1 ∧
    run 2 [.store 7 1 [42], .write 7 1, .release 7 5 1] tripStart = some tripWritten ∧
    (∀ op ∈ [Op.read 7 1 2, Op.read 7 1 3], otherKey 1 1 op) ∧
    run 2 [.read 7 1 2, .read 7 1 3] tripWritten = some tripFull ∧
    bread 2 7 tripFull.st 1 1 =
      .panic "bget: no buffers" ((bread 2 7 tripFull.st 1 1).stateD (boot blankDisk)) ∧
    (∀ s4 b4, bread 2 7 tripFull.st 1 1 ≠ .ok s4 b4) := by
  have hp : bread 2 7 tripFull.st 1 1 =
      .panic "bget: no buffers" ((bread 2 7 tripFull.st 1 1).stateD (boot blankDisk)) := rfl
  refine ⟨reachable_init 2 blankDisk, rfl, rfl, by simp [otherKey], rfl, hp, ?_⟩
  intro s4 b4 h
  rw [hp] at h
  cases h

/-! ## `brelse` and `bunpin` (claims C9 and C10) -/

/-- C9 (as amended).  For every state and every buffer `b` whose sleep lock the caller
holds, `brelse` returns; it frees the sleep lock, sets `refcnt` to the old value minus 1
modulo `2^32` (the old value minus 1 whenever the old value is positive), sets `last_used`
to the current tick when the new `refcnt` is 0 and leaves it unchanged otherwise, and
leaves `dev`, `blockno`, `valid`, `data`, the links, every bucket chain, every other buffer
and the disk unchanged. -/
theorem C9_release_postcondition (pid ticks : Nat) (s : State) (b : Nat)
    (hold : (s.buf b).lock = some pid) :
    ∃ s2, brelse pid ticks s b = .ok s2 () ∧
      (s2.buf b).lock = none ∧
      (s2.buf b).refcnt = ((s.buf b).refcnt + (UINT - 1)) % UINT ∧
      (0 < (s.buf b).refcnt → (s.buf b).refcnt < UINT →
        (s2.buf b).refcnt = (s.buf b).refcnt - 1) ∧
      ((s2.buf b).refcnt = 0 → (s2.buf b).last_used = ticks) ∧
      ((s2.buf b).refcnt ≠ 0 → (s2.buf b).last_used = (s.buf b).last_used) ∧
      (s2.buf b).dev = (s.buf b).dev ∧ (s2.buf b).blockno = (s.buf b).blockno ∧
      (s2.buf b).valid = (s.buf b).valid ∧ (s2.buf b).data = (s.buf b).data ∧
      (s2.buf b).disk = (s.buf b).disk ∧ (s2.buf b).next = (s.buf b).next ∧
      s2.buckets = s.buckets ∧ (∀ j, j ≠ b → s2.buf j = s.buf j) ∧ s2.disk = s.disk ∧
      (∀ NBUF i, chainOf NBUF s2 i = chainOf NBUF s i) := by
  obtain ⟨s2, hs2⟩ := brelse_of_held ticks hold
  obtain ⟨_, k1, k2, _, _, k3, k4⟩ := brelse_ok hs2
  refine ⟨s2, hs2, ?_, ?_, ?_, ?_, ?_, ?_, ?_, ?_, ?_, ?_, ?_, k1, k3, k2, ?_⟩
  · rw [k4]
  · rw [k4]
  · intro h0 h1
    rw [k4]
    simp only [UINT] at h1 ⊢
    omega
  · intro h0
    rw [k4] at h0 ⊢
    simp only at h0
    simp [h0]
  · intro h0
    rw [k4] at h0 ⊢
    simp only at h0
    simp [h0]
  · rw [k4]
  · rw [k4]
  · rw [k4]
  · rw [k4]
  · rw [k4]
  · rw [k4]
  · intro NBUF i
    simp only [chainOf, k1]
    refine chainFrom_congr (fun j => ?_) _ _
    by_cases e : j = b
    · subst e; rw [k4]
    · rw [k3 j e]

/-- Witness of C9: process 7 releases buffer 0, which it holds with `refcnt == 1`, at
tick 5. -/
theorem C9_release_postcondition_witness :
    (heldOnce.buf 0).lock = some 7 ∧
    ∃ s2, brelse 7 5 heldOnce 0 = .ok s2 () ∧
      (s2.buf 0).lock = none ∧
      (s2.buf 0).refcnt = ((heldOnce.buf 0).refcnt + (UINT - 1)) % UINT ∧
      (0 < (heldOnce.buf 0).refcnt → (heldOnce.buf 0).refcnt < UINT →
        (s2.buf 0).refcnt = (heldOnce.buf 0).refcnt - 1) ∧
      ((s2.buf 0).refcnt = 0 → (s2.buf 0).last_used = 5) ∧
      ((s2.buf 0).refcnt ≠ 0 → (s2.buf 0).last_used = (heldOnce.buf 0).last_used) ∧
      (s2.buf 0).dev = (heldOnce.buf 0).dev ∧ (s2.buf 0).blockno = (heldOnce.buf 0).blockno ∧
      (s2.buf 0).valid = (heldOnce.buf 0).valid ∧ (s2.buf 0).data = (heldOnce.buf 0).data ∧
      (s2.buf 0).disk = (heldOnce.buf 0).disk ∧ (s2.buf 0).next = (heldOnce.buf 0).next ∧
      s2.buckets = heldOnce.buckets ∧ (∀ j, j ≠ 0 → s2.buf j = heldOnce.buf j) ∧
      s2.disk = heldOnce.disk ∧
      (∀ NBUF i, chainOf NBUF s2 i = chainOf NBUF heldOnce i) :=
  ⟨by decide, C9_release_postcondition 7 5 heldOnce 0 (by decide)⟩

/-- Counterexample to C9: after `read(1,1)` and `2^32 - 1` calls of `pin` process 7 holds
the sleep lock of the buffer and `refcnt` has wrapped to 0; `brelse` then sets `refcnt` to
`2^32 - 1`, which is not the old value minus 1, and does not stamp `last_used`. -/
theorem C9_counterexample :
    ∃ τ s2, run 1 wrapHeldTrace (init 1 blankDisk) = some τ ∧
      (τ.st.buf 0).lock = some 7 ∧ (τ.st.buf 0).refcnt = 0 ∧
      brelse 7 5 τ.st 0 = .ok s2 () ∧ (s2.buf 0).refcnt = 4294967295 := by
  obtain ⟨τ, t1, _, t3⟩ := wrap_held
  have lτ : (τ.st.buf 0).lock = some 7 := by rw [t3]; decide
  obtain ⟨s2, hs2⟩ := brelse_of_held 5 lτ
  obtain ⟨_, _, _, _, _, _, k4⟩ := brelse_ok hs2
  refine ⟨τ, s2, t1, lτ, by rw [t3], hs2, ?_⟩
  rw [k4, t3]
  simp [UINT]

/-- C10 (as amended).  When `brelse` takes the `refcnt` of a buffer to 0, the `last_used`
of the buffer after the call is the tick at which the call ran; `bunpin` never changes
`last_used`, also when it takes `refcnt` to 0. -/
theorem C10_last_used_set_by_release (pid ticks : Nat) (s s2 : State) (b : Nat)
    (hret : brelse pid ticks s b = .ok s2 ()) (hzero : (s2.buf b).refcnt = 0) :
    (s2.buf b).last_used = ticks ∧
      ∀ (t : State) (c : Nat), ((bunpin t c).buf c).last_used = (t.buf c).last_used := by
  obtain ⟨_, _, _, _, _, _, k4⟩ := brelse_ok hret
  refine ⟨?_, ?_⟩
  · rw [k4] at hzero ⊢
    simp only at hzero
    simp [hzero]
  · intro t c
    rw [(bunpin_spec t c).2.2.2.2.2]

/-- Witness of C10: process 7 releases buffer 0, held with `refcnt == 1`, at tick 5. -/
theorem C10_last_used_set_by_release_witness :
    brelse 7 5 heldOnce 0 = .ok ((brelse 7 5 heldOnce 0).stateD heldOnce) () ∧
    (((brelse 7 5 heldOnce 0).stateD heldOnce).buf 0).refcnt = 0 ∧
    ((((brelse 7 5 heldOnce 0).stateD heldOnce).buf 0).last_used = 5 ∧
      ∀ (t : State) (c : Nat), ((bunpin t c).buf c).last_used = (t.buf c).last_used) :=
  ⟨rfl, by decide,
    C10_last_used_set_by_release 7 5 heldOnce ((brelse 7 5 heldOnce 0).stateD heldOnce) 0 rfl
      (by decide)⟩

/-- Counterexample to C10: after `read(1,1)`, `pin` and `release` at tick 5 the buffer has
`refcnt == 1` and `last_used == 0`; `bunpin` then takes `refcnt` from 1 to 0 and
`last_used` is still 0, not the tick (5 or later) at which `bunpin` ran. -/
theorem C10_counterexample :
    run 1 [.read 7 1 1, .pin 7 0, .release 7 5 0] (init 1 blankDisk) =
        some (after 1 [.read 7 1 1, .pin 7 0, .release 7 5 0]) ∧
      ((after 1 [.read 7 1 1, .pin 7 0, .release 7 5 0]).st.buf 0).refcnt = 1 ∧
      ((bunpin (after 1 [.read 7 1 1, .pin 7 0, .release 7 5 0]).st 0).buf 0).refcnt = 0 ∧
      ((bunpin (after 1 [.read 7 1 1, .pin 7 0, .release 7 5 0]).st 0).buf 0).last_used = 0 ∧
      (∀ ticks, 5 ≤ ticks →
        ((bunpin (after 1 [.read 7 1 1, .pin 7 0, .release 7 5 0]).st 0).buf 0).last_used ≠
          ticks) :=
  ⟨rfl, by decide, by decide, by decide, fun ticks h e => by
    have h0 : ((bunpin (after 1 [.read 7 1 1, .pin 7 0, .release 7 5 0]).st 0).buf 0).last_used
        = 0 := by decide
    omega⟩

/-! ## Pin and unpin, the sleep-lock protocol, initialisation -/

theorem chainOf_congr {s t : State} (hb : t.buckets = s.buckets)
    (h : ∀ j, (t.buf j).next = (s.buf j).next) (NBUF i : Nat) :
    chainOf NBUF t i = chainOf NBUF s i := by
  unfold chainOf
  rw [hb]
  exact chainFrom_congr h _ _

/-- C11 (pin/unpin symmetry).  For every state and buffer `b`: `bpin` changes only
`b.refcnt`, by exactly +1 modulo `2^32`, and `bunpin` changes only `b.refcnt`, by exactly
-1 modulo `2^32` (the old value minus 1 when it is positive, `2^32 - 1` when it is 0);
neither changes the sleep lock, `last_used`, `valid`, `dev`, `blockno`, a link, a bucket
chain, another buffer or the disk; and `bunpin` after `bpin` restores the memory exactly. -/
theorem C11_pin_unpin_symmetry (s : State) (b : Nat) :
    (bpin s b).buf b = { s.buf b with refcnt := ((s.buf b).refcnt + 1) % UINT } ∧
    (bunpin s b).buf b = { s.buf b with refcnt := ((s.buf b).refcnt + (UINT - 1)) % UINT } ∧
    ((s.buf b).refcnt + 1 < UINT → ((bpin s b).buf b).refcnt = (s.buf b).refcnt + 1) ∧
    (0 < (s.buf b).refcnt → (s.buf b).refcnt < UINT →
      ((bunpin s b).buf b).refcnt + 1 = (s.buf b).refcnt) ∧
    ((s.buf b).refcnt = 0 → ((bunpin s b).buf b).refcnt = UINT - 1) ∧
    (∀ j, j ≠ b → (bpin s b).buf j = s.buf j ∧ (bunpin s b).buf j = s.buf j) ∧
    ((bpin s b).buckets = s.buckets ∧ (bpin s b).disk = s.disk ∧
      (bpin s b).nread = s.nread ∧ (bpin s b).nwrite = s.nwrite) ∧
    ((bunpin s b).buckets = s.buckets ∧ (bunpin s b).disk = s.disk ∧
      (bunpin s b).nread = s.nread ∧ (bunpin s b).nwrite = s.nwrite) ∧
    (∀ NBUF i, chainOf NBUF (bpin s b) i = chainOf NBUF s i ∧
      chainOf NBUF (bunpin s b) i = chainOf NBUF s i) ∧
    ((s.buf b).refcnt < UINT → SameMem (bunpin (bpin s b) b) s) := by
  obtain ⟨p1, p2, p3, p4, p5, p6⟩ := bpin_spec s b
  obtain ⟨u1, u2, u3, u4, u5, u6⟩ := bunpin_spec s b
  have pn : ∀ j, ((bpin s b).buf j).next = (s.buf j).next := by
    intro j
    by_cases hj : j = b
    · subst hj; rw [p6]
    · rw [p5 j hj]
  have un : ∀ j, ((bunpin s b).buf j).next = (s.buf j).next := by
    intro j
    by_cases hj : j = b
    · subst hj; rw [u6]
    · rw [u5 j hj]
  refine ⟨p6, u6, ?_, ?_, ?_, fun j hj => ⟨p5 j hj, u5 j hj⟩, ⟨p1, p2, p3, p4⟩,
    ⟨u1, u2, u3, u4⟩, fun NBUF i => ⟨chainOf_congr p1 pn NBUF i, chainOf_congr u1 un NBUF i⟩, ?_⟩
  · intro h
    rw [p6]
    exact Nat.mod_eq_of_lt h
  · intro h0 h1
    rw [u6]
    simp only [UINT] at h1 ⊢
    omega
  · intro h0
    rw [u6]
    simp only [h0, UINT]
  · intro h
    obtain ⟨v1, v2, v3, v4, v5, v6⟩ := bunpin_spec (bpin s b) b
    refine ⟨v1.trans p1, ?_, v2.trans p2, v3.trans p3, v4.trans p4⟩
    funext j
    by_cases hj : j = b
    · subst hj
      rw [v6, p6]
      revert h
      generalize s.buf j = x
      intro h
      cases x
      simp only [Buf.mk.injEq, true_and, and_true, UINT] at h ⊢
      omega
    · rw [v5 j hj, p5 j hj]

/-- C12 (sleep-lock protocol).  `bwrite(b)` and `brelse(b)` panic if and only if the caller
does not hold the sleep lock of `b`; when they panic the state is the state before the
call: no field of a buffer, no chain and no disk block has changed; when the caller holds
the sleep lock both return, and `bwrite` leaves every field of every buffer (so every
`valid` bit and every `refcnt`), every link and every bucket chain as it was and writes the
data of `b` to its block of the disk. -/
theorem C12_sleep_lock_protocol (pid ticks : Nat) (s : State) (b : Nat) :
    ((∃ msg t, bwrite pid s b = .panic msg t) ↔ (s.buf b).lock ≠ some pid) ∧
    ((∃ msg t, brelse pid ticks s b = .panic msg t) ↔ (s.buf b).lock ≠ some pid) ∧
    (∀ msg t, bwrite pid s b = .panic msg t → msg = "bwrite" ∧ t = s) ∧
    (∀ msg t, brelse pid ticks s b = .panic msg t → msg = "brelse" ∧ t = s) ∧
    ((s.buf b).lock = some pid →
      ∃ s2, bwrite pid s b = .ok s2 () ∧ s2.buf = s.buf ∧ s2.buckets = s.buckets ∧
        (∀ j, (s2.buf j).valid = (s.buf j).valid ∧ (s2.buf j).refcnt = (s.buf j).refcnt) ∧
        (∀ NBUF i, chainOf NBUF s2 i = chainOf NBUF s i) ∧
        s2.disk (s.buf b).dev (s.buf b).blockno = (s.buf b).data ∧
        (∀ d n, ¬ (d = (s.buf b).dev ∧ n = (s.buf b).blockno) → s2.disk d n = s.disk d n)) ∧
    ((s.buf b).lock = some pid → ∃ s2, brelse pid ticks s b = .ok s2 ()) := by
  by_cases hl : (s.buf b).lock = some pid
  · have hh : holdingsleep pid s b = true := by simp [holdingsleep, hl]
    have hw : bwrite pid s b = .ok (virtio_disk_rw s b true) () := by
      simp [bwrite, hh]
    obtain ⟨s3, hr⟩ := brelse_of_held ticks hl
    refine ⟨?_, ?_, ?_, ?_, ?_, ?_⟩
    · constructor
      · rintro ⟨msg, t, h⟩
        rw [hw] at h
        cases h
      · intro h
        exact absurd hl h
    · constructor
      · rintro ⟨msg, t, h⟩
        rw [hr] at h
        cases h
      · intro h
        exact absurd hl h
    · intro msg t h
      rw [hw] at h
      cases h
    · intro msg t h
      rw [hr] at h
      cases h
    · intro _
      refine ⟨_, hw, ?_, ?_, ?_, ?_, ?_, ?_⟩
      · simp [virtio_disk_rw]
      · simp [virtio_disk_rw]
      · intro j
        simp [virtio_disk_rw]
      · intro NBUF i
        apply chainOf_congr
        · simp [virtio_disk_rw]
        · intro j
          simp [virtio_disk_rw]
      · simp [virtio_disk_rw]
      · intro d n h
        simp [virtio_disk_rw, h]
    · intro _
      exact ⟨s3, hr⟩
  · have hh : holdingsleep pid s b = false := by simp [holdingsleep, hl]
    have hw : bwrite pid s b = .panic "bwrite" s := by simp [bwrite, hh]
    have hr : brelse pid ticks s b = .panic "brelse" s := by simp [brelse, hh]
    refine ⟨?_, ?_, ?_, ?_, fun h => absurd h hl, fun h => absurd h hl⟩
    · exact ⟨fun _ => hl, fun _ => ⟨_, _, hw⟩⟩
    · exact ⟨fun _ => hl, fun _ => ⟨_, _, hr⟩⟩
    · intro msg t h
      rw [hw] at h
      cases h
      exact ⟨rfl, rfl⟩
    · intro msg t h
      rw [hr] at h
      cases h
      exact ⟨rfl, rfl⟩

/-- C14 (initialisation).  For every prior state, after `binit` every buffer of the pool
has `refcnt == 0`, `last_used == 0` and a free sleep lock; the chain of bucket 0 is
`buf[NBUF-1], ..., buf[1], buf[0]`, so it contains every buffer of the pool exactly once,
the last one first; the buckets `1 .. NBUCKET-1` are empty; and no disk access occurs. -/
theorem C14_initialization (NBUF : Nat) (s : State) :
    (∀ j, j < NBUF → ((binit NBUF s).buf j).refcnt = 0 ∧
      ((binit NBUF s).buf j).last_used = 0 ∧ ((binit NBUF s).buf j).lock = none) ∧
    chainOf NBUF (binit NBUF s) 0 = some (List.range NBUF).reverse ∧
    (∀ k, k < NBUF → (List.range NBUF).reverse[k]? = some (NBUF - 1 - k)) ∧
    (List.range NBUF).reverse.Nodup ∧
    (∀ j, j < NBUF → (List.range NBUF).reverse.count j = 1) ∧
    (∀ i, 1 ≤ i → i < NBUCKET →
      (binit NBUF s).buckets i = none ∧ chainOf NBUF (binit NBUF s) i = some []) ∧
    ((binit NBUF s).disk = s.disk ∧ (binit NBUF s).nread = s.nread ∧
      (binit NBUF s).nwrite = s.nwrite) := by
  obtain ⟨h1, _, h3, h4, h5, h6, _⟩ := binit_spec NBUF s
  have hnd : (List.range NBUF).reverse.Nodup := List.nodup_reverse.mpr (List.nodup_range NBUF)
  refine ⟨?_, ?_, ?_, hnd, ?_, ?_, ⟨h4, h5, h6⟩⟩
  · intro j hj
    rw [h3 j hj]
    exact ⟨rfl, rfl, rfl⟩
  · have hc := h1 0 (by decide)
    simp only [initChains, if_true] at hc
    exact chainFrom_of_chain _ hc (NBUF + 1) (by simp)
  · intro k hk
    rw [List.getElem?_reverse (by simpa using hk)]
    simp only [List.length_range]
    rw [List.getElem?_range (by omega)]
  · intro j hj
    exact List.count_eq_one_of_mem hnd (by simpa using hj)
  · intro i hi1 hi
    have hc := h1 i hi
    have hne : i ≠ 0 := by omega
    simp only [initChains, if_neg hne] at hc
    exact ⟨hc.nil_eq, chainFrom_of_chain _ hc (NBUF + 1) (by simp)⟩

/-! ## Scenario S2 -/

/-- The fields of every buffer right after `binit` at boot. -/
theorem init_fields (NBUF : Nat) (d : Nat → Nat → List Nat) (j : Nat) :
    ((init NBUF d).st.buf j).dev = 0 ∧ ((init NBUF d).st.buf j).blockno = 0 ∧
      ((init NBUF d).st.buf j).valid = 0 ∧ ((init NBUF d).st.buf j).refcnt = 0 ∧
      ((init NBUF d).st.buf j).lock = none := by
  obtain ⟨_, h2, h3, _⟩ := binit_spec NBUF (boot d)
  by_cases hj : j < NBUF
  · simp only [init]
    rw [h3 j hj]
    exact ⟨rfl, rfl, rfl, rfl, rfl⟩
  · simp only [init]
    rw [h2 j (by omega)]
    exact ⟨rfl, rfl, rfl, rfl, rfl⟩

/-- A miss of `bget` returns when some buffer of the pool has `refcnt == 0` and the sleep
locks of all such buffers are free. -/
theorem bget_miss_ok {NBUF : Nat} (pid : Nat) {s : State} {L : Nat → List Nat}
    (h : ChainInv NBUF s L) {dev blockno : Nat} (hres : ¬ resident NBUF s dev blockno)
    {j : Nat} (hj : j < NBUF) (hj0 : (s.buf j).refcnt = 0)
    (hfree : ∀ k, k < NBUF → (s.buf k).refcnt = 0 → (s.buf k).lock = none) :
    ∃ s2 b, bget NBUF pid s dev blockno = .ok s2 b := by
  have hf := (find_none_iff h dev blockno).mpr hres
  rcases bget_miss pid h hf with ⟨hp, _⟩ | ⟨hb, pre, v, post, t6, hhb, hL, _, hv0, hsm, hget⟩
  · have := ((pick_none s (scanOrder L) none).mp hp).2 j ((h.mem_scanOrder j).mpr hj)
    exact absurd hj0 this
  · have hv : v < NBUF := h.pool hb hhb v (by rw [hL]; simp)
    have hl : (t6.buf v).lock = none := by
      rw [hsm.2.1, rebindMem_buf_same]
      exact hfree v hv hv0
    exact ⟨_, v, hget.trans (sleepReturn_of_free hl)⟩

theorem bread_of_bget {NBUF pid : Nat} {s s1 : State} {dev blockno b : Nat}
    (h : bget NBUF pid s dev blockno = .ok s1 b) :
    ∃ s2, bread NBUF pid s dev blockno = .ok s2 b := by
  by_cases hv : (s1.buf b).valid = 0
  · refine ⟨(virtio_disk_rw s1 b false).setBuf b (fun x => { x with valid := 1 }), ?_⟩
    simp only [bread, h, if_pos hv]
  · refine ⟨s1, ?_⟩
    simp only [bread, h, if_neg hv]

/-- What a `bread` of a key that is not resident leaves behind when it returns. -/
theorem bread_miss_post {NBUF pid : Nat} {s s2 : State} {L : Nat → List Nat}
    {dev blockno b : Nat} (h : ChainInv NBUF s L) (hres : ¬ resident NBUF s dev blockno)
    (hok : bread NBUF pid s dev blockno = .ok s2 b) :
    b < NBUF ∧ (s.buf b).refcnt = 0 ∧ bound s2 dev blockno b ∧ (s2.buf b).refcnt = 1 ∧
      (s2.buf b).lock = some pid ∧ (s2.buf b).valid = 1 ∧ s2.nread = s.nread + 1 ∧
      ∀ j, j ≠ b → (s2.buf j).dev = (s.buf j).dev ∧ (s2.buf j).blockno = (s.buf j).blockno ∧
        (s2.buf j).refcnt = (s.buf j).refcnt ∧ (s2.buf j).lock = (s.buf j).lock ∧
        (s2.buf j).valid = (s.buf j).valid := by
  obtain ⟨s1, hg, hs2⟩ := bread_ok hok
  obtain ⟨hb, hbd, hlk, hoth, _, _, _, hnr, _⟩ := bget_ok_post h hg
  obtain ⟨hr0, hr1, hv0⟩ := (bget_ok_refcnt h hg).2 hres
  obtain ⟨f1, f2, f3, f4⟩ := load_fields s1 b
  rw [← hs2] at f1 f2 f3 f4
  refine ⟨hb, hr0, ⟨f1.trans hbd.1, f2.trans hbd.2⟩, f4.trans hr1, f3.trans hlk, ?_, ?_, ?_⟩
  · rw [hs2, if_pos hv0]
    simp [State.setBuf, upd]
  · rw [hs2, if_pos hv0, ← hnr]
    simp [State.setBuf, virtio_disk_rw]
  · intro j hj
    have e : s2.buf j = s1.buf j := by
      rw [hs2]
      exact load_other s1 b j hj
    obtain ⟨o1, o2, o3, _, o5, o6, _⟩ := hoth j hj
    rw [e]
    exact ⟨o1, o2, o5, o6, o3⟩

/-- C13 (as amended).  With `NBUCKET = 13` the bucket index the cache computes for the
key `(1, 17)` is `((1 << 27) | 17) % 13 = 12` and the one for `(1, 30)` is
`((1 << 27) | 30) % 13 = 12`, so the two keys share a bucket; on a fresh cache of at least
two buffers `read(1,17)` and `read(1,30)` both return, afterwards both keys are resident in
two distinct valid buffers of the chain of that bucket, and exactly 2 disk reads were
issued. -/
theorem C13_scenario_S2 (NBUF : Nat) (hn : 2 ≤ NBUF) (d : Nat → Nat → List Nat) (p q : Nat) :
    BUC 1 17 = 12 ∧ BUC 1 30 = 12 ∧ BUC 1 17 = BUC 1 30 ∧ (init NBUF d).st.nread = 0 ∧
    ∃ τ, run NBUF [.read p 1 17, .read q 1 30] (init NBUF d) = some τ ∧ τ.st.nread = 2 ∧
      ∃ l a c, chainOf NBUF τ.st (BUC 1 17) = some l ∧ a ∈ l ∧ c ∈ l ∧ a ≠ c ∧
        a < NBUF ∧ c < NBUF ∧ bound τ.st 1 17 a ∧ bound τ.st 1 30 c ∧
        (τ.st.buf a).valid = 1 ∧ (τ.st.buf c).valid = 1 := by
  have hnr0 : (init NBUF d).st.nread = 0 := by
    simp only [init]
    rw [(binit_spec NBUF (boot d)).2.2.2.2.1]
    rfl
  refine ⟨by decide, by decide, by decide, hnr0, ?_⟩
  have f0 := init_fields NBUF d
  have hinv0 := init_inv NBUF d
  -- the first read
  have hres1 : ¬ resident NBUF (init NBUF d).st 1 17 := by
    rintro ⟨j, _, hb, _⟩
    rw [(f0 j).1] at hb
    exact absurd hb (by decide)
  obtain ⟨t1, b1, hg1⟩ := bget_miss_ok p hinv0.chains hres1 (show 0 < NBUF by omega)
    (f0 0).2.2.2.1 (fun k _ _ => (f0 k).2.2.2.2)
  obtain ⟨s1, hr1⟩ := bread_of_bget hg1
  have hstep1 : step NBUF (init NBUF d) (.read p 1 17) = some { init NBUF d with st := s1 } := by
    simp only [step, hr1]
  obtain ⟨hb1, _, hbd1, hrc1, _, hv1, hn1, ho1⟩ := bread_miss_post hinv0.chains hres1 hr1
  obtain ⟨L1, hinv1⟩ := step_inv hinv0 _ hstep1
  -- the second read
  have hres2 : ¬ resident NBUF s1 1 30 := by
    rintro ⟨j, _, hbj, hbn⟩
    by_cases hj : j = b1
    · subst hj
      rw [hbd1.2] at hbn
      exact absurd hbn (by decide)
    · rw [(ho1 j hj).1, (f0 j).1] at hbj
      exact absurd hbj (by decide)
  have hex : ∃ j, j < NBUF ∧ j ≠ b1 := by
    by_cases h0 : b1 = 0
    · exact ⟨1, by omega, by omega⟩
    · exact ⟨0, by omega, fun h => h0 h.symm⟩
  obtain ⟨j2, hj2, hj2b⟩ := hex
  have hfree2 : ∀ k, k < NBUF → (s1.buf k).refcnt = 0 → (s1.buf k).lock = none := by
    intro k _ hk0
    by_cases hk : k = b1
    · subst hk
      rw [hrc1] at hk0
      exact absurd hk0 (by decide)
    · rw [(ho1 k hk).2.2.2.1]
      exact (f0 k).2.2.2.2
  obtain ⟨t2, b2, hg2⟩ := bget_miss_ok (s := s1) q hinv1.chains hres2 hj2
    (by rw [(ho1 j2 hj2b).2.2.1]; exact (f0 j2).2.2.2.1) hfree2
  obtain ⟨s2, hr2⟩ := bread_of_bget hg2
  have hstep2 : step NBUF { init NBUF d with st := s1 } (.read q 1 30) =
      some { init NBUF d with st := s2 } := by
    simp only [step, hr2]
  obtain ⟨hb2, hz2, hbd2, _, _, hv2, hn2, ho2⟩ := bread_miss_post hinv1.chains hres2 hr2
  obtain ⟨L2, hinv2⟩ := step_inv hinv1 _ hstep2
  have hne : b1 ≠ b2 := by
    intro h
    rw [← h, hrc1] at hz2
    exact absurd hz2 (by decide)
  have hbd1b : bound s2 1 17 b1 :=
    ⟨(ho2 b1 hne).1.trans hbd1.1, (ho2 b1 hne).2.1.trans hbd1.2⟩
  refine ⟨{ init NBUF d with st := s2 }, ?_, ?_, L2 (BUC 1 17), b1, b2,
    chainOf_of_inv hinv2.chains (BUC_lt 1 17), ?_, ?_, hne, hb1, hb2, hbd1b, hbd2, ?_, hv2⟩
  · simp only [run, hstep1, hstep2]
  · show s2.nread = 2
    rw [hn2]
    show s1.nread + 1 = 2
    rw [hn1, hnr0]
  · have := hinv2.chains.mem_bucket hb1
    rw [hbd1b.1, hbd1b.2] at this
    exact this
  · have := hinv2.chains.mem_bucket hb2
    rw [hbd2.1, hbd2.2] at this
    exact this
  · exact (ho2 b1 hne).2.2.2.2.trans hv1

/-- Witness of C13: a cache of two buffers with a blank disk, both reads by process 7. -/
theorem C13_scenario_S2_witness :
    2 ≤ 2 ∧
    (BUC 1 17 = 12 ∧ BUC 1 30 = 12 ∧ BUC 1 17 = BUC 1 30 ∧ (init 2 blankDisk).st.nread = 0 ∧
    ∃ τ, run 2 [.read 7 1 17, .read 7 1 30] (init 2 blankDisk) = some τ ∧ τ.st.nread = 2 ∧
      ∃ l a c, chainOf 2 τ.st (BUC 1 17) = some l ∧ a ∈ l ∧ c ∈ l ∧ a ≠ c ∧
        a < 2 ∧ c < 2 ∧ bound τ.st 1 17 a ∧ bound τ.st 1 30 c ∧
        (τ.st.buf a).valid = 1 ∧ (τ.st.buf c).valid = 1) :=
  ⟨by decide, C13_scenario_S2 2 (by decide) blankDisk 7 7⟩

/-- Counterexample to C13: the bucket index the cache computes for the key `(1, 17)` is 12,
not `17 % 13 = 4`, and the one for `(1, 30)` is 12, not `30 % 13 = 4`: the macro `BUC`
hashes `(dev << 27) | blockno`; after `read(1,17)` and `read(1,30)` on a fresh cache of two
buffers the chain of bucket 4 is empty and both buffers are in the chain of bucket 12. -/
theorem C13_counterexample :
    BUC 1 17 = 12 ∧ BUC 1 17 ≠ 17 % 13 ∧ BUC 1 30 = 12 ∧ BUC 1 30 ≠ 30 % 13 ∧
    chainOf 2 (after 2 [.read 7 1 17, .read 7 1 30]).st 4 = some [] ∧
    chainOf 2 (after 2 [.read 7 1 17, .read 7 1 30]).st 12 = some [0, 1] := by
  refine ⟨by decide, by decide, by decide, by decide, ?_, ?_⟩
  · rfl
  · rfl

/-! ## The choice of the victim and the effect of the rebinding -/

/-- The choice of the scan over a list: either the initial choice stays, and no buffer of
the list with `refcnt == 0` is strictly older, or the choice is a buffer `w` of the list
that is strictly older than the initial choice and than every buffer with `refcnt == 0`
before it, and at least as old as every one after it. -/
theorem pick_first (s : State) : ∀ (l : List Nat) (v : Option Nat) (w : Nat),
    pick s v l = some w →
      (v = some w ∧
        ∀ n ∈ l, (s.buf n).refcnt = 0 → (s.buf w).last_used ≤ (s.buf n).last_used) ∨
      (∃ pre post, l = pre ++ w :: post ∧ (s.buf w).refcnt = 0 ∧
        (∀ m, v = some m → (s.buf w).last_used < (s.buf m).last_used) ∧
        (∀ n ∈ pre, (s.buf n).refcnt = 0 → (s.buf w).last_used < (s.buf n).last_used) ∧
        (∀ n ∈ post, (s.buf n).refcnt = 0 → (s.buf w).last_used ≤ (s.buf n).last_used)) := by
  intro l
  induction l with
  | nil =>
    intro v w h
    left
    simp only [pick] at h
    exact ⟨h, by simp⟩
  | cons n l ih =>
    intro v w h
    simp only [pick] at h
    split at h
    · rename_i hc
      rcases ih (some n) w h with ⟨e, hall⟩ | ⟨pre, post, hl, hw0, hv, hpre, hpost⟩
      · have e2 : n = w := Option.some.inj e
        subst e2
        right
        refine ⟨[], l, rfl, hc.1, ?_, by simp, hall⟩
        intro m hm
        subst hm
        simpa [beats] using hc.2
      · right
        have hwn := hv n rfl
        refine ⟨n :: pre, post, by simp [hl], hw0, ?_, ?_, hpost⟩
        · intro m hm
          subst hm
          have : (s.buf n).last_used < (s.buf m).last_used := by simpa [beats] using hc.2
          omega
        · intro x hx hx0
          rcases List.mem_cons.mp hx with e | hx
          · rw [e]; exact hwn
          · exact hpre x hx hx0
    · rename_i hc
      rcases ih v w h with ⟨e, hall⟩ | ⟨pre, post, hl, hw0, hv, hpre, hpost⟩
      · left
        refine ⟨e, ?_⟩
        intro x hx hx0
        rcases List.mem_cons.mp hx with e2 | hx
        · rw [e2] at hx0 ⊢
          have hnb : ¬ beats s n (some w) = true := fun hb => hc ⟨hx0, by rw [e]; exact hb⟩
          simp only [beats, decide_eq_true_eq] at hnb
          omega
        · exact hall x hx hx0
      · right
        refine ⟨n :: pre, post, by simp [hl], hw0, hv, ?_, hpost⟩
        intro x hx hx0
        rcases List.mem_cons.mp hx with e2 | hx
        · rw [e2] at hx0 ⊢
          cases v with
          | none => exact absurd ⟨hx0, rfl⟩ hc
          | some m =>
            have h1 := hv m rfl
            have hnb : ¬ beats s n (some m) = true := fun hb => hc ⟨hx0, hb⟩
            simp only [beats, decide_eq_true_eq] at hnb
            omega
        · exact hpre x hx hx0

theorem flatMap_congr_mem {f g : Nat → List Nat} : ∀ l : List Nat,
    (∀ i ∈ l, f i = g i) → l.flatMap f = l.flatMap g := by
  intro l
  induction l with
  | nil => intro _; rfl
  | cons a l ih =>
    intro h
    simp only [List.flatMap_cons]
    rw [h a (by simp), ih (fun i hi => h i (by simp [hi]))]

/-- With chain membership the scan order of the state is the scan order of its chains. -/
theorem scanList_eq {NBUF : Nat} {s : State} {L : Nat → List Nat} (h : ChainInv NBUF s L) :
    scanList NBUF s = scanOrder L := by
  unfold scanList scanOrder
  apply flatMap_congr_mem
  intro i hi
  rw [chainOf_of_inv h (List.mem_range.mp hi)]
  rfl

/-- A miss of `bget` that ends or sleeps, with chain membership: the buffer is the choice
of the scan, found in some chain, and the memory is the one after the rebinding. -/
theorem bget_miss_cases {NBUF pid : Nat} {s s2 : State} {L : Nat → List Nat}
    {dev blockno v : Nat} (h : ChainInv NBUF s L) (hres : ¬ resident NBUF s dev blockno)
    (hret : bget NBUF pid s dev blockno = .ok s2 v ∨
      bget NBUF pid s dev blockno = .blocked s2 v) :
    ∃ hb pre post, hb < NBUCKET ∧ L hb = pre ++ v :: post ∧
      pick s none (scanOrder L) = some v ∧ (s.buf v).refcnt = 0 ∧
      s2.buckets = (rebindMem s dev blockno (lastRef (.head hb) pre) hb v).buckets ∧
      (∀ j, j ≠ v → s2.buf j = (rebindMem s dev blockno (lastRef (.head hb) pre) hb v).buf j) ∧
      (∃ lk, s2.buf v =
        { (rebindMem s dev blockno (lastRef (.head hb) pre) hb v).buf v with lock := lk }) := by
  have hf := (find_none_iff h dev blockno).mpr hres
  rcases bget_miss pid h hf with ⟨_, t, _, hp⟩ | ⟨hb, pre, w, post, t6, hhb, hL, hpick, hw0, hsm, hget⟩
  · rw [hp] at hret
    rcases hret with e | e <;> cases e
  · rw [hget] at hret
    rcases hret with e | e
    · obtain ⟨_, e1, e2⟩ := sleepReturn_ok e
      subst e1
      refine ⟨hb, pre, post, hhb, hL, hpick, hw0, ?_, ?_, ?_⟩
      · rw [e2]
        exact hsm.1
      · intro j hj
        rw [e2, setBuf_buf_other _ _ _ _ hj, hsm.2.1]
      · refine ⟨some pid, ?_⟩
        rw [e2, setBuf_buf_same, hsm.2.1]
    · obtain ⟨_, e1, e2⟩ := sleepReturn_blocked e
      subst e1
      refine ⟨hb, pre, post, hhb, hL, hpick, hw0, ?_, ?_, ?_⟩
      · rw [e2]
        exact hsm.1
      · intro j _
        rw [e2, hsm.2.1]
      · refine ⟨(s2.buf v).lock, ?_⟩
        rw [e2, hsm.2.1]

/-- C16 (tie-break).  With chain membership, whenever `bget` misses and does not panic,
the buffer `b` it rebinds is the first buffer, in scan order (the chains of the buckets
`0 .. NBUCKET-1`, each from its head), among the buffers with `refcnt == 0` of least
`last_used`: `b` has `refcnt == 0`, every buffer with `refcnt == 0` before it in scan order
has a strictly greater `last_used`, and every one after it a `last_used` at least as great;
and the test of the scan replaces the running best only by a buffer with `refcnt == 0`
whose `last_used` is strictly smaller. -/
theorem C16_tie_break (NBUF pid : Nat) (s : State) (hcm : ChainMembership NBUF s)
    (dev blockno : Nat) (hmiss : ¬ resident NBUF s dev blockno) (s2 : State) (b : Nat)
    (hret : bget NBUF pid s dev blockno = .ok s2 b ∨
      bget NBUF pid s dev blockno = .blocked s2 b) :
    (∃ pre post, scanList NBUF s = pre ++ b :: post ∧ (s.buf b).refcnt = 0 ∧
      (∀ n ∈ pre, (s.buf n).refcnt = 0 → (s.buf b).last_used < (s.buf n).last_used) ∧
      (∀ n ∈ post, (s.buf n).refcnt = 0 → (s.buf b).last_used ≤ (s.buf n).last_used)) ∧
    (∀ j, j < NBUF → (s.buf j).refcnt = 0 → (s.buf b).last_used ≤ (s.buf j).last_used) ∧
    (∀ n r, better s n (some r) = true →
      (s.buf n).refcnt = 0 ∧ (s.buf n).last_used < lastUsedAfter s r) := by
  obtain ⟨L, hc⟩ := hcm
  obtain ⟨hb, pre, post, _, _, hpick, _, _⟩ := bget_miss_cases hc hmiss hret
  refine ⟨?_, ?_, ?_⟩
  · rcases pick_first s (scanOrder L) none b hpick with ⟨e, _⟩ | ⟨p1, p2, hl, h0, _, hp1, hp2⟩
    · cases e
    · exact ⟨p1, p2, by rw [scanList_eq hc]; exact hl, h0, hp1, hp2⟩
  · intro j hj hj0
    exact (pick_min s (scanOrder L) none b hpick).2 j ((hc.mem_scanOrder j).mpr hj) hj0
  · intro n r h
    simp only [better, Bool.and_eq_true, decide_eq_true_eq] at h
    exact h

/-- Witness of C16: the first `bget(1, 1)` on a freshly initialised cache of two buffers
rebinds buffer 1, the first of the chain of bucket 0. -/
theorem C16_tie_break_witness :
    ChainMembership 2 (init 2 blankDisk).st ∧ ¬ resident 2 (init 2 blankDisk).st 1 1 ∧
    bget 2 7 (init 2 blankDisk).st 1 1 = .ok getOnce 1 ∧
    scanList 2 (init 2 blankDisk).st = [1, 0] ∧
    ((∃ pre post, scanList 2 (init 2 blankDisk).st = pre ++ 1 :: post ∧
      ((init 2 blankDisk).st.buf 1).refcnt = 0 ∧
      (∀ n ∈ pre, ((init 2 blankDisk).st.buf n).refcnt = 0 →
        ((init 2 blankDisk).st.buf 1).last_used < ((init 2 blankDisk).st.buf n).last_used) ∧
      (∀ n ∈ post, ((init 2 blankDisk).st.buf n).refcnt = 0 →
        ((init 2 blankDisk).st.buf 1).last_used ≤ ((init 2 blankDisk).st.buf n).last_used)) ∧
    (∀ j, j < 2 → ((init 2 blankDisk).st.buf j).refcnt = 0 →
      ((init 2 blankDisk).st.buf 1).last_used ≤ ((init 2 blankDisk).st.buf j).last_used) ∧
    (∀ n r, better (init 2 blankDisk).st n (some r) = true →
      ((init 2 blankDisk).st.buf n).refcnt = 0 ∧
        ((init 2 blankDisk).st.buf n).last_used < lastUsedAfter (init 2 blankDisk).st r)) :=
  ⟨⟨_, (init_inv 2 blankDisk).chains⟩, by decide, rfl, rfl,
    C16_tie_break 2 7 (init 2 blankDisk).st ⟨_, (init_inv 2 blankDisk).chains⟩ 1 1 (by decide)
      getOnce 1 (Or.inl rfl)⟩

theorem lastRef_getLast : ∀ (pre : List Nat) (b : Ref),
    lastRef b pre = (match pre.getLast? with
      | none => b
      | some m => .slot m) := by
  intro pre
  induction pre with
  | nil => intro b; rfl
  | cons a pre ih =>
    intro b
    simp only [lastRef]
    rw [ih]
    cases pre with
    | nil => rfl
    | cons c t =>
      rw [List.getLast?_cons_cons]
      obtain ⟨m, hm⟩ : ∃ m, (c :: t).getLast? = some m :=
        ⟨_, List.getLast?_eq_getLast _ (by simp)⟩
      rw [hm]

/-- The unlinking writes the link of the predecessor only. -/
theorem relink_buf_other (s : State) (hb v key j : Nat) (pre : List Nat) (hj : j ≠ v)
    (hp : pre.getLast? ≠ some j) :
    (relink s (lastRef (.head hb) pre) v key).buf j = s.buf j := by
  simp only [relink]
  show ((s.setNext (lastRef (.head hb) pre) (s.buf v).next).setBuf v _).buf j = s.buf j
  rw [setBuf_buf_other _ _ _ _ hj, lastRef_getLast]
  cases hg : pre.getLast? with
  | none => rfl
  | some m =>
    have hm : j ≠ m := by
      intro e
      rw [hg, e] at hp
      exact hp rfl
    simp only [State.setNext]
    exact setBuf_buf_other _ _ _ _ hm

/-- C17 (as amended).  With chain membership, on a miss of the key `(dev, blockno)` that
rebinds the victim `v`, found in the chain of bucket `src` between the buffers `pre` and
`post`: `bget` sets `v.dev := dev`, `v.blockno := blockno`, `v.valid := 0`, `v.refcnt := 1`
and changes no field other than the link `next` of any other buffer.  If
`src == BUC(dev, blockno)` no link changes and every chain is left as it was.  If
`src != BUC(dev, blockno)` the only other buffer with a changed field is the predecessor of
`v` in chain `src`, whose `next` now skips `v`; the chain of `src` becomes `pre ++ post`,
the chain of `BUC(dev, blockno)` becomes `v` followed by its former elements, and all
other chains are unchanged. -/
theorem C17_rebind_effect (NBUF pid : Nat) (s : State) (hcm : ChainMembership NBUF s)
    (dev blockno : Nat) (hmiss : ¬ resident NBUF s dev blockno) (s2 : State) (v : Nat)
    (hret : bget NBUF pid s dev blockno = .ok s2 v ∨
      bget NBUF pid s dev blockno = .blocked s2 v) :
    ((s2.buf v).dev = dev ∧ (s2.buf v).blockno = blockno ∧ (s2.buf v).valid = 0 ∧
      (s2.buf v).refcnt = 1) ∧
    (∀ j, j ≠ v → s2.buf j = { s.buf j with next := (s2.buf j).next }) ∧
    ∃ src pre post, src < NBUCKET ∧ chainOf NBUF s src = some (pre ++ v :: post) ∧
      (src = BUC dev blockno →
        s2.buckets = s.buckets ∧ (∀ j, (s2.buf j).next = (s.buf j).next) ∧
        (∀ j, j ≠ v → s2.buf j = s.buf j) ∧
        ∀ i, chainOf NBUF s2 i = chainOf NBUF s i) ∧
      (src ≠ BUC dev blockno →
        chainOf NBUF s2 src = some (pre ++ post) ∧
        (∃ l, chainOf NBUF s (BUC dev blockno) = some l ∧
          chainOf NBUF s2 (BUC dev blockno) = some (v :: l)) ∧
        (∀ i, i < NBUCKET → i ≠ src → i ≠ BUC dev blockno →
          chainOf NBUF s2 i = chainOf NBUF s i) ∧
        (∀ j, j ≠ v → pre.getLast? ≠ some j → s2.buf j = s.buf j)) := by
  obtain ⟨L, hc⟩ := hcm
  obtain ⟨hb, pre, post, hhb, hL, _, _, f1, f2, lk, f3⟩ := bget_miss_cases hc hmiss hret
  have hM := rebindMem_buf_same s dev blockno (lastRef (.head hb) pre) hb v
  have hcM := rebindMem_chainInv hc dev blockno hhb hL
  have hc2 : ChainInv NBUF s2 (moveChains L hb (BUC dev blockno) v pre post) := by
    refine hcM.of_links f1 ?_
    intro j
    by_cases hj : j = v
    · subst hj
      rw [f3]
      exact ⟨rfl, rfl, rfl⟩
    · rw [f2 j hj]
      exact ⟨rfl, rfl, rfl⟩
  refine ⟨?_, ?_, hb, pre, post, hhb, ?_, ?_, ?_⟩
  · rw [f3, hM]
    exact ⟨rfl, rfl, rfl, rfl⟩
  · intro j hj
    rw [f2 j hj]
    exact rebindMem_buf_other s dev blockno _ hb v j hj
  · rw [chainOf_of_inv hc hhb, hL]
  · intro hsrc
    have hM2 : rebindMem s dev blockno (lastRef (.head hb) pre) hb v =
        s.setBuf v (fun x => { x with dev := dev, blockno := blockno, refcnt := 1, valid := 0 }) := by
      simp only [rebindMem, hsrc, ne_eq, not_true_eq_false, if_false]
    have hbk : s2.buckets = s.buckets := by rw [f1, hM2]; rfl
    have hoth : ∀ j, j ≠ v → s2.buf j = s.buf j := by
      intro j hj
      rw [f2 j hj, hM2, setBuf_buf_other _ _ _ _ hj]
    have hnx : ∀ j, (s2.buf j).next = (s.buf j).next := by
      intro j
      by_cases hj : j = v
      · subst hj
        rw [f3, hM2, setBuf_buf_same]
      · rw [hoth j hj]
    exact ⟨hbk, hnx, hoth, fun i => chainOf_congr hbk hnx NBUF i⟩
  · intro hsrc
    have hkey := BUC_lt dev blockno
    have hmv : moveChains L hb (BUC dev blockno) v pre post =
        upd (upd L hb (pre ++ post)) (BUC dev blockno) (v :: L (BUC dev blockno)) := by
      simp only [moveChains, ne_eq, hsrc, not_false_eq_true, if_true]
    refine ⟨?_, ⟨L (BUC dev blockno), chainOf_of_inv hc hkey, ?_⟩, ?_, ?_⟩
    · rw [chainOf_of_inv hc2 hhb, hmv]
      simp [upd, hsrc]
    · rw [chainOf_of_inv hc2 hkey, hmv]
      simp [upd]
    · intro i hi h1 h2
      rw [chainOf_of_inv hc2 hi, chainOf_of_inv hc hi, hmv]
      simp [upd, h1, h2]
    · intro j hj hp
      rw [f2 j hj]
      simp only [rebindMem, ne_eq, hsrc, not_false_eq_true, if_true,
        setBuf_buf_other _ _ _ _ hj]
      exact relink_buf_other s hb v _ j pre hj hp

/-- Witness of C17: the first `bget(1, 1)` on a freshly initialised cache of two buffers
moves buffer 1 from bucket 0 to bucket 9. -/
theorem C17_rebind_effect_witness :
    ChainMembership 2 (init 2 blankDisk).st ∧ ¬ resident 2 (init 2 blankDisk).st 1 1 ∧
    bget 2 7 (init 2 blankDisk).st 1 1 = .ok getOnce 1 ∧
    (((getOnce.buf 1).dev = 1 ∧ (getOnce.buf 1).blockno = 1 ∧ (getOnce.buf 1).valid = 0 ∧
      (getOnce.buf 1).refcnt = 1) ∧
    (∀ j, j ≠ 1 →
      getOnce.buf j = { (init 2 blankDisk).st.buf j with next := (getOnce.buf j).next }) ∧
    ∃ src pre post, src < NBUCKET ∧
      chainOf 2 (init 2 blankDisk).st src = some (pre ++ 1 :: post) ∧
      (src = BUC 1 1 →
        getOnce.buckets = (init 2 blankDisk).st.buckets ∧
        (∀ j, (getOnce.buf j).next = ((init 2 blankDisk).st.buf j).next) ∧
        (∀ j, j ≠ 1 → getOnce.buf j = (init 2 blankDisk).st.buf j) ∧
        ∀ i, chainOf 2 getOnce i = chainOf 2 (init 2 blankDisk).st i) ∧
      (src ≠ BUC 1 1 →
        chainOf 2 getOnce src = some (pre ++ post) ∧
        (∃ l, chainOf 2 (init 2 blankDisk).st (BUC 1 1) = some l ∧
          chainOf 2 getOnce (BUC 1 1) = some (1 :: l)) ∧
        (∀ i, i < NBUCKET → i ≠ src → i ≠ BUC 1 1 →
          chainOf 2 getOnce i = chainOf 2 (init 2 blankDisk).st i) ∧
        (∀ j, j ≠ 1 → pre.getLast? ≠ some j → getOnce.buf j = (init 2 blankDisk).st.buf j))) :=
  ⟨⟨_, (init_inv 2 blankDisk).chains⟩, by decide, rfl,
    C17_rebind_effect 2 7 (init 2 blankDisk).st ⟨_, (init_inv 2 blankDisk).chains⟩ 1 1
      (by decide) getOnce 1 (Or.inl rfl)⟩

/-- Counterexample to C17: process 7 holds buffer 1, bound to the key `(1, 5)` of bucket 0,
and buffer 0 follows it in that chain; the miss of `bget(1, 1)` rebinds buffer 0, a victim
found in bucket 0 for a key of bucket 9, and the unlinking changes a field of another
buffer: `buf[1].next` pointed at buffer 0 before the call and is null after it. -/
theorem C17_counterexample :
    ChainMembership 2 firstHeld ∧ chainOf 2 firstHeld 0 = some [1, 0] ∧
    ¬ resident 2 firstHeld 1 1 ∧ BUC 1 1 = 9 ∧
    bget 2 7 firstHeld 1 1 = .ok secondGet 0 ∧
    (firstHeld.buf 1).next = some 0 ∧ (secondGet.buf 1).next = none ∧
    secondGet.buf 1 ≠ firstHeld.buf 1 := by
  have hr : Reachable 2 (after 2 [.get 7 1 5]) := ⟨blankDisk, [.get 7 1 5], rfl⟩
  obtain ⟨L, hinv⟩ := reachable_inv hr
  refine ⟨⟨L, hinv.chains⟩, rfl, by decide, by decide, rfl, rfl, rfl, ?_⟩
  intro h
  have h2 : (secondGet.buf 1).next = (firstHeld.buf 1).next := by rw [h]
  exact absurd h2 (by decide)

/-! ## The spinlock events of a call -/

theorem always_append (P : List Lock → Ev → Bool) : ∀ (a b : List Ev) (h : List Lock),
    always P h (a ++ b) = (always P h a && always P (heldAfter h a) b) := by
  intro a
  induction a with
  | nil => intro b h; simp [always, heldAfter]
  | cons e a ih =>
    intro b h
    show (P h e && always P (holdStep h e) (a ++ b)) = _
    rw [ih]
    simp only [always, heldAfter, List.foldl_cons, Bool.and_assoc]

theorem heldAfter_append (h : List Lock) (a b : List Ev) :
    heldAfter h (a ++ b) = heldAfter (heldAfter h a) b := by
  simp only [heldAfter, List.foldl_append]

theorem always_mono {P Q : List Lock → Ev → Bool} (hPQ : ∀ h e, P h e = true → Q h e = true) :
    ∀ (evs : List Ev) (h : List Lock), always P h evs = true → always Q h evs = true := by
  intro evs
  induction evs with
  | nil => intro h _; rfl
  | cons e evs ih =>
    intro h hp
    simp only [always, Bool.and_eq_true] at hp ⊢
    exact ⟨hPQ h e hp.1, ih _ hp.2⟩

theorem sleepReturn_log {pid : Nat} {t s2 : State} {b : Nat}
    (h : (sleepReturn pid t b).state? = some s2) : s2.log = t.log := by
  obtain ⟨s3, e, hor⟩ := sleepReturn_state pid t b
  rw [e] at h
  cases h
  rcases hor with rfl | rfl <;> rfl

/-- The flag `newfound` of the inner loop of the scan: it stays clear only when the
pointer `before_least` stays as it was, and once it is set the pointer is not null. -/
theorem scanChain_flag (s : State) : ∀ (fuel : Nat) (b : Ref) (bl : Option Ref) (nf : Bool)
    (bl2 : Option Ref) (nf2 : Bool), scanChain s fuel b bl nf = some (bl2, nf2) →
      (nf2 = false → bl2 = bl ∧ nf = false) ∧ (bl ≠ none → bl2 ≠ none) ∧
      (nf2 = true → nf = true ∨ bl2 ≠ none) := by
  intro fuel
  induction fuel with
  | zero =>
    intro b bl nf bl2 nf2 h
    simp [scanChain] at h
  | succ fuel ih =>
    intro b bl nf bl2 nf2 h
    simp only [scanChain] at h
    cases hn : s.next b with
    | none =>
      rw [hn] at h
      simp only [Option.some.injEq, Prod.mk.injEq] at h
      obtain ⟨e1, e2⟩ := h
      subst e1 e2
      exact ⟨fun h => ⟨rfl, h⟩, id, fun h => Or.inl h⟩
    | some n =>
      rw [hn] at h
      simp only at h
      split at h
      · obtain ⟨h1, h2, _⟩ := ih _ _ _ _ _ h
        refine ⟨fun hf => ?_, fun _ => h2 (by simp), fun _ => Or.inr (h2 (by simp))⟩
        have := (h1 hf).2
        cases this
      · exact ih _ _ _ _ _ h

theorem Retained.weaken {is : List Nat} {bl : Option Ref} {hb : Nat} {h : List Lock}
    (hr : Retained is bl hb h) : Retained [] bl hb h := by
  rcases hr with h1 | ⟨h1, h2, h3, _⟩
  · exact Or.inl h1
  · exact Or.inr ⟨h1, h2, h3, by simp⟩

/-- The spinlock events of the victim scan: they respect the discipline, and after every
bucket the thread holds the eviction lock and at most the lock of `holding_bucket`. -/
theorem scanBuckets_events (NBUF : Nat) : ∀ (is : List Nat) (s : State) (bl : Option Ref)
    (hb : Nat) (h : List Lock) (s2 : State) (bl2 : Option Ref) (hb2 : Nat),
    is.Pairwise (fun a b => a < b) → (∀ i ∈ is, i < NBUCKET) → Retained is bl hb h →
    scanBuckets NBUF is s bl hb = some (s2, bl2, hb2) →
    ∃ evs, s2.log = s.log ++ evs ∧ always discipline h evs = true ∧
      Retained [] bl2 hb2 (heldAfter h evs) := by
  intro is
  induction is with
  | nil =>
    intro s bl hb h s2 bl2 hb2 _ _ hret hscan
    simp only [scanBuckets, Option.some.injEq, Prod.mk.injEq] at hscan
    obtain ⟨e1, e2, e3⟩ := hscan
    subst e1 e2 e3
    exact ⟨[], by simp, rfl, hret.weaken⟩
  | cons i rest ih =>
    intro s bl hb h s2 bl2 hb2 hpw hlt hret hscan
    have hi : i < NBUCKET := hlt i (by simp)
    have hpw2 := List.pairwise_cons.mp hpw
    have hlt2 : ∀ j ∈ rest, j < NBUCKET := fun j hj => hlt j (by simp [hj])
    simp only [scanBuckets] at hscan
    cases hsc : scanChain (acquire s (.bucket i)) (NBUF + 1) (.head i) bl false with
    | none =>
      rw [hsc] at hscan
      cases hscan
    | some r =>
      obtain ⟨bl1, nf⟩ := r
      rw [hsc] at hscan
      simp only at hscan
      obtain ⟨g1, _, g3⟩ := scanChain_flag _ _ _ _ _ _ _ hsc
      cases nf with
      | false =>
        simp only [if_true] at hscan
        obtain ⟨e1, _⟩ := g1 rfl
        subst e1
        have hret2 : Retained rest bl1 hb h := by
          rcases hret with h1 | ⟨h1, h2, h3, h4⟩
          · exact Or.inl h1
          · exact Or.inr ⟨h1, h2, h3, fun j hj => h4 j (by simp [hj])⟩
        obtain ⟨evs, l1, l2, l3⟩ := ih _ _ _ _ _ _ _ hpw2.2 hlt2 hret2 hscan
        have hh : heldAfter h [Ev.acq (.bucket i), Ev.rel (.bucket i)] = h := by
          simp [heldAfter, holdStep]
        refine ⟨[Ev.acq (.bucket i), Ev.rel (.bucket i)] ++ evs, ?_, ?_, ?_⟩
        · rw [l1]
          simp [acquire, release]
        · rw [always_append, hh, l2, Bool.and_true]
          rcases hret with ⟨_, _, h3⟩ | ⟨_, _, h3, h4⟩
          · subst h3
            simp [always, discipline, lockOrder, atMost, retainOne, holdStep, bucketsOf]
          · subst h3
            have := h4 i (by simp)
            simp [always, discipline, lockOrder, atMost, retainOne, holdStep, bucketsOf, this]
        · rw [heldAfter_append, hh]
          exact l3
      | true =>
        simp only [Bool.true_eq_false, if_false] at hscan
        have hbl1 : bl1 ≠ none := by
          rcases g3 rfl with h | h
          · cases h
          · exact h
        have hret2 : Retained rest bl1 i [Lock.bucket i, Lock.evic] :=
          Or.inr ⟨hbl1, hi, rfl, hpw2.1⟩
        rcases hret with ⟨_, h2, h3⟩ | ⟨_, h2, h3, h4⟩
        · subst h2 h3
          simp only [ne_eq, not_true_eq_false, if_false] at hscan
          obtain ⟨evs, l1, l2, l3⟩ := ih _ _ _ _ _ _ _ hpw2.2 hlt2 hret2 hscan
          have hh : heldAfter [Lock.evic] [Ev.acq (.bucket i)] = [Lock.bucket i, Lock.evic] := by
            simp [heldAfter, holdStep]
          refine ⟨[Ev.acq (.bucket i)] ++ evs, ?_, ?_, ?_⟩
          · rw [l1]
            simp [acquire]
          · rw [always_append, hh, l2, Bool.and_true]
            simp [always, discipline, lockOrder, atMost, retainOne, holdStep, bucketsOf]
          · rw [heldAfter_append, hh]
            exact l3
        · subst h3
          have hlt3 := h4 i (by simp)
          have hne : hb ≠ NOBUCKET := by
            simp only [NBUCKET] at h2
            simp only [NOBUCKET]
            omega
          have hne2 : i ≠ hb := by omega
          simp only [ne_eq, hne, not_false_eq_true, if_true] at hscan
          obtain ⟨evs, l1, l2, l3⟩ := ih _ _ _ _ _ _ _ hpw2.2 hlt2 hret2 hscan
          have hh : heldAfter [Lock.bucket hb, Lock.evic]
              [Ev.acq (.bucket i), Ev.rel (.bucket hb)] = [Lock.bucket i, Lock.evic] := by
            simp [heldAfter, holdStep, hne2]
          refine ⟨[Ev.acq (.bucket i), Ev.rel (.bucket hb)] ++ evs, ?_, ?_, ?_⟩
          · rw [l1]
            simp [acquire, release]
          · rw [always_append, hh, l2, Bool.and_true]
            simp [always, discipline, lockOrder, atMost, retainOne, holdStep, bucketsOf, hlt3,
              hne2]
          · rw [heldAfter_append, hh]
            exact l3

/-- The spinlock events of the rebinding of `bget`. -/
theorem rebind_events (pid : Nat) (s : State) (dev blockno : Nat) (r : Ref) (hb : Nat)
    (s2 : State) (h : (rebind pid s dev blockno r hb).state? = some s2) :
    s2.log = s.log ++
      ((if hb ≠ BUC dev blockno then
          [Ev.rel (.bucket hb), Ev.acq (.bucket (BUC dev blockno))] else []) ++
        [Ev.rel (.bucket (BUC dev blockno)), Ev.rel .evic]) ∧
      ∀ msg t, rebind pid s dev blockno r hb ≠ .panic msg t := by
  simp only [rebind] at h ⊢
  cases hn : s.next r with
  | none =>
    rw [hn] at h
    cases h
  | some b =>
    rw [hn] at h
    simp only at h ⊢
    refine ⟨?_, fun msg t => sleepReturn_ne_panic⟩
    rw [sleepReturn_log h]
    by_cases e : hb = BUC dev blockno
    · simp [e, release, State.setBuf]
    · cases r <;> simp [e, release, acquire, State.setBuf, State.setNext]

theorem bget_of_lookup_hit {NBUF pid : Nat} {s : State} {dev blockno b : Nat}
    (h : lookup s dev blockno (NBUF + 1) (s.buckets (BUC dev blockno)) = some (some b)) :
    bget NBUF pid s dev blockno =
      sleepReturn pid (release (incRef (acquire s (.bucket (BUC dev blockno))) b)
        (.bucket (BUC dev blockno))) b := by
  have e := lookup_sameMem (sameMem_acquire s (.bucket (BUC dev blockno))) dev blockno
    (NBUF + 1) (s.buckets (BUC dev blockno))
  simp only [bget, acquire_buckets, e, h]

/-- The spinlock events of a call of `bget` that ends or sleeps: they respect the
discipline, and no spinlock is held at the end unless the call panics. -/
theorem bget_events (NBUF pid : Nat) (s : State) (dev blockno : Nat) (s2 : State)
    (h : (bget NBUF pid s dev blockno).state? = some s2) :
    ∃ evs, s2.log = s.log ++ evs ∧ always discipline [] evs = true ∧
      ((∀ msg t, bget NBUF pid s dev blockno ≠ .panic msg t) → heldAfter [] evs = []) := by
  cases hl : lookup s dev blockno (NBUF + 1) (s.buckets (BUC dev blockno)) with
  | none =>
    rw [bget_of_lookup_none hl] at h
    cases h
  | some o =>
    cases o with
    | some b =>
      rw [bget_of_lookup_hit hl] at h
      refine ⟨[Ev.acq (.bucket (BUC dev blockno)), Ev.rel (.bucket (BUC dev blockno))],
        ?_, ?_, ?_⟩
      · rw [sleepReturn_log h]
        simp [release, incRef, acquire, State.setBuf]
      · simp [always, discipline, lockOrder, atMost, retainOne, holdStep, bucketsOf]
      · intro _
        simp [heldAfter, holdStep]
    | none =>
      have hm := @bget_of_lookup_miss NBUF pid s dev blockno hl
      rw [hm] at h ⊢
      cases hs : scanBuckets NBUF (List.range NBUCKET)
          (acquire (release (acquire s (.bucket (BUC dev blockno))) (.bucket (BUC dev blockno)))
            .evic) none NOBUCKET with
      | none =>
        rw [hs] at h
        cases h
      | some r =>
        obtain ⟨s3, bl, hb⟩ := r
        obtain ⟨evs, l1, l2, l3⟩ := scanBuckets_events NBUF _ _ _ _ [Lock.evic] _ _ _
          (List.pairwise_lt_range _) (fun i hi => List.mem_range.mp hi)
          (Or.inl ⟨rfl, rfl, rfl⟩) hs
        have hh : heldAfter [] [Ev.acq (.bucket (BUC dev blockno)),
            Ev.rel (.bucket (BUC dev blockno)), Ev.acq .evic] = [Lock.evic] := by
          simp [heldAfter, holdStep]
        have ha : always discipline [] [Ev.acq (.bucket (BUC dev blockno)),
            Ev.rel (.bucket (BUC dev blockno)), Ev.acq .evic] = true := by
          simp [always, discipline, lockOrder, atMost, retainOne, holdStep, bucketsOf]
        have hlog : s3.log = s.log ++ ([Ev.acq (.bucket (BUC dev blockno)),
            Ev.rel (.bucket (BUC dev blockno)), Ev.acq .evic] ++ evs) := by
          rw [l1]
          simp [acquire, release]
        rw [hs] at h
        cases bl with
        | none =>
          simp only at h ⊢
          cases h
          refine ⟨_, hlog, ?_, ?_⟩
          · rw [always_append, hh, l2, ha]
            rfl
          · intro hnp
            exact absurd rfl (hnp _ _)
        | some r =>
          simp only at h ⊢
          obtain ⟨e1, _⟩ := rebind_events pid s3 dev blockno r hb s2 h
          rcases l3 with ⟨h1, _⟩ | ⟨_, _, h3, _⟩
          · cases h1
          · refine ⟨([Ev.acq (.bucket (BUC dev blockno)), Ev.rel (.bucket (BUC dev blockno)),
                Ev.acq .evic] ++ evs) ++
              ((if hb ≠ BUC dev blockno then
                  [Ev.rel (.bucket hb), Ev.acq (.bucket (BUC dev blockno))] else []) ++
                [Ev.rel (.bucket (BUC dev blockno)), Ev.rel .evic]), ?_, ?_, ?_⟩
            · rw [e1, hlog, List.append_assoc]
            · rw [always_append, always_append, heldAfter_append, hh, l2, ha, h3]
              by_cases e : hb = BUC dev blockno
              · simp [e, always, discipline, lockOrder, atMost, retainOne, holdStep, bucketsOf]
              · simp [e, always, discipline, lockOrder, atMost, retainOne, holdStep, bucketsOf]
            · intro _
              simp only [heldAfter_append, hh, h3]
              by_cases e : hb = BUC dev blockno
              · simp [e, heldAfter, holdStep]
              · simp [e, heldAfter, holdStep]

theorem discipline_parts (h : List Lock) (e : Ev) (hd : discipline h e = true) :
    lockOrder h e = true ∧ atMost 2 h e = true ∧ retainOne h e = true := by
  simp only [discipline, Bool.and_eq_true] at hd
  exact ⟨hd.1.1, hd.1.2, hd.2⟩

/-- The spinlock events of a call that takes the lock of one bucket around its work. -/
theorem pair_events (k : Nat) :
    always lockOrder [] [Ev.acq (.bucket k), Ev.rel (.bucket k)] = true ∧
      heldAfter [] [Ev.acq (.bucket k), Ev.rel (.bucket k)] = [] :=
  ⟨by simp [always, lockOrder, holdStep, bucketsOf], by simp [heldAfter, holdStep]⟩

/-- C18 (lock ordering).  Recording the spinlock events of the calling thread, in every
call of `bget`, `brelse`, `bpin` and `bunpin`, from every state: the thread never holds two
bucket locks at the same time unless it also holds the eviction lock; whenever it acquires
a bucket lock, every bucket lock it already holds has a strictly smaller index; and every
spinlock the call acquired has been released when the call returns (also when `bget`
sleeps in `acquiresleep`; it still holds the eviction lock when it panics). -/
theorem C18_lock_ordering (NBUF pid ticks : Nat) (s : State) (dev blockno b : Nat) :
    (∀ s2, (bget NBUF pid s dev blockno).state? = some s2 →
      ∃ evs, s2.log = s.log ++ evs ∧ always lockOrder [] evs = true ∧
        ((∀ msg t, bget NBUF pid s dev blockno ≠ .panic msg t) → heldAfter [] evs = [])) ∧
    (∀ s2, brelse pid ticks s b = .ok s2 () →
      ∃ evs, s2.log = s.log ++ evs ∧ always lockOrder [] evs = true ∧
        heldAfter [] evs = []) ∧
    (∃ evs, (bpin s b).log = s.log ++ evs ∧ always lockOrder [] evs = true ∧
      heldAfter [] evs = []) ∧
    (∃ evs, (bunpin s b).log = s.log ++ evs ∧ always lockOrder [] evs = true ∧
      heldAfter [] evs = []) := by
  refine ⟨?_, ?_, ?_, ?_⟩
  · intro s2 h
    obtain ⟨evs, l1, l2, l3⟩ := bget_events NBUF pid s dev blockno s2 h
    exact ⟨evs, l1, always_mono (fun h e hd => (discipline_parts h e hd).1) evs [] l2, l3⟩
  · intro s2 h
    obtain ⟨p1, p2⟩ := pair_events (BUC (s.buf b).dev (s.buf b).blockno)
    refine ⟨_, ?_, p1, p2⟩
    simp only [brelse] at h
    split at h
    · cases h
    · simp only [Outcome.ok.injEq, and_true] at h
      rw [← h]
      split <;> simp [release, acquire, decRef, releasesleep, State.setBuf]
  · obtain ⟨p1, p2⟩ := pair_events (BUC (s.buf b).dev (s.buf b).blockno)
    exact ⟨_, by simp [bpin, release, acquire, incRef, State.setBuf], p1, p2⟩
  · obtain ⟨p1, p2⟩ := pair_events (BUC (s.buf b).dev (s.buf b).blockno)
    exact ⟨_, by simp [bunpin, release, acquire, decRef, State.setBuf], p1, p2⟩

/-- C19 (as amended).  In every call of `bget` that ends or sleeps, so during the victim
scan and the rebinding, the thread holds at most two bucket locks at any time (the lock it
retains for the running best and the lock of the bucket it is scanning), and whenever it
holds two bucket locks its next spinlock operation releases one of them. -/
theorem C19_scan_bucket_locks (NBUF pid : Nat) (s : State) (dev blockno : Nat) (s2 : State)
    (h : (bget NBUF pid s dev blockno).state? = some s2) :
    ∃ evs, s2.log = s.log ++ evs ∧ always (atMost 2) [] evs = true ∧
      always retainOne [] evs = true := by
  obtain ⟨evs, l1, l2, _⟩ := bget_events NBUF pid s dev blockno s2 h
  exact ⟨evs, l1, always_mono (fun h e hd => (discipline_parts h e hd).2.1) evs [] l2,
    always_mono (fun h e hd => (discipline_parts h e hd).2.2) evs [] l2⟩

/-- Witness of C19: the first `bget(1, 1)` on a freshly initialised cache of two
buffers. -/
theorem C19_scan_bucket_locks_witness :
    (bget 2 7 (init 2 blankDisk).st 1 1).state? = some getOnce ∧
    ∃ evs, getOnce.log = (init 2 blankDisk).st.log ++ evs ∧ always (atMost 2) [] evs = true ∧
      always retainOne [] evs = true :=
  ⟨rfl, C19_scan_bucket_locks 2 7 (init 2 blankDisk).st 1 1 getOnce rfl⟩

/-- Counterexample to C19: in the first `bget(1, 1)` on a freshly initialised cache of two
buffers the scan finds its candidate in bucket 0 and keeps `locks[0]`; it then acquires
`locks[1]`, so that between the acquisition and the release of the eviction lock the thread
holds two bucket locks at the same time. -/
theorem C19_counterexample :
    bget 2 7 (init 2 blankDisk).st 1 1 = .ok getOnce 1 ∧ (init 2 blankDisk).st.log = [] ∧
    getOnce.log.take 5 = [Ev.acq (.bucket 9), Ev.rel (.bucket 9), Ev.acq .evic,
      Ev.acq (.bucket 0), Ev.acq (.bucket 1)] ∧
    heldAfter [] (getOnce.log.take 5) = [Lock.bucket 1, Lock.bucket 0, Lock.evic] ∧
    getOnce.log.getLast? = some (Ev.rel .evic) ∧
    always (atMost 1) [] getOnce.log = false := by
  refine ⟨rfl, rfl, ?_, ?_, ?_, ?_⟩
  · decide
  · decide
  · decide
  · decide

/-! ## Reference accounting -/

theorem acct_at (σ : Sys) {τ : Sys} {j : Nat}
    (h : (σ.st.buf j).refcnt = (holders σ.st j + σ.pins j) % UINT)
    (hr : (τ.st.buf j).refcnt = (σ.st.buf j).refcnt)
    (hl : (τ.st.buf j).lock = (σ.st.buf j).lock) (hp : τ.pins j = σ.pins j) :
    (τ.st.buf j).refcnt = (holders τ.st j + τ.pins j) % UINT := by
  simp only [holders] at h ⊢
  rw [hr, hl, hp]
  exact h

theorem holders_of_free {s : State} {j : Nat} (h : (s.buf j).lock = none) : holders s j = 0 := by
  simp [holders, h]

theorem holders_of_held {s : State} {j : Nat} (pid : Nat) (h : (s.buf j).lock = some pid) :
    holders s j = 1 := by
  simp [holders, h]

/-- A call of `bget` that returns keeps chain membership. -/
theorem chains_bget {NBUF pid : Nat} {s s2 : State} {L : Nat → List Nat}
    (h : ChainInv NBUF s L) {dev blockno b : Nat}
    (hok : bget NBUF pid s dev blockno = .ok s2 b) : ∃ L2, ChainInv NBUF s2 L2 := by
  rcases bget_ok_cases h hok with ⟨_, _, _, hs⟩ | ⟨_, hb, pre, post, hhb, hL, _, _, _, hs⟩
  · have h1 : ChainInv NBUF (hitMem pid s b) L := by
      refine h.of_links rfl ?_
      intro j
      by_cases e : j = b
      · subst e; rw [hitMem_buf_same]; exact ⟨rfl, rfl, rfl⟩
      · rw [hitMem_buf_other _ _ _ _ e]; exact ⟨rfl, rfl, rfl⟩
    exact ⟨L, h1.sameMem hs⟩
  · have h1 : ChainInv NBUF (missMem pid s dev blockno (lastRef (.head hb) pre) hb b)
        (moveChains L hb (BUC dev blockno) b pre post) := by
      refine (rebindMem_chainInv h dev blockno hhb hL).of_links rfl ?_
      intro j
      by_cases e : j = b
      · subst e
        simp only [missMem, setBuf_buf_same, and_self]
      · simp only [missMem, setBuf_buf_other _ _ _ _ e, and_self]
    exact ⟨_, h1.sameMem hs⟩

/-- A call of `bget` that returns keeps the reference accounting. -/
theorem acct_bget {NBUF pid : Nat} {σ : Sys} {L : Nat → List Nat}
    (hc : ChainInv NBUF σ.st L) (h : Acct σ) {dev blockno b : Nat} {s2 : State}
    (hok : bget NBUF pid σ.st dev blockno = .ok s2 b) : Acct { σ with st := s2 } := by
  intro j
  have hj := h j
  rcases bget_ok_cases hc hok with ⟨_, _, hfree, hsm⟩ | ⟨_, hb, pre, post, _, _, _, h0, hfree, hsm⟩
  · by_cases e : j = b
    · subst e
      show (s2.buf j).refcnt = (holders s2 j + σ.pins j) % UINT
      have e1 : (s2.buf j).refcnt = ((σ.st.buf j).refcnt + 1) % UINT := by
        rw [hsm.2.1, hitMem_buf_same]
      have e2 : holders s2 j = 1 :=
        holders_of_held pid (by rw [hsm.2.1, hitMem_buf_same])
      rw [holders_of_free hfree] at hj
      rw [e1, e2, hj]
      simp only [UINT]
      omega
    · refine acct_at σ hj ?_ ?_ rfl
      · show (s2.buf j).refcnt = _
        rw [hsm.2.1, hitMem_buf_other _ _ _ _ e]
      · show (s2.buf j).lock = _
        rw [hsm.2.1, hitMem_buf_other _ _ _ _ e]
  · by_cases e : j = b
    · subst e
      show (s2.buf j).refcnt = (holders s2 j + σ.pins j) % UINT
      have e1 : (s2.buf j).refcnt = 1 := by
        rw [hsm.2.1, missMem_buf_same]
      have e2 : holders s2 j = 1 :=
        holders_of_held pid (by rw [hsm.2.1, missMem_buf_same])
      rw [holders_of_free hfree, h0] at hj
      rw [e1, e2]
      simp only [UINT] at hj ⊢
      omega
    · refine acct_at σ hj ?_ ?_ rfl
      · show (s2.buf j).refcnt = _
        rw [hsm.2.1, missMem_buf_other _ _ _ _ _ _ _ _ e]
      · show (s2.buf j).lock = _
        rw [hsm.2.1, missMem_buf_other _ _ _ _ _ _ _ _ e]

/-- Every call of a trace keeps the reference accounting. -/
theorem step_acct {NBUF : Nat} {σ τ : Sys} {L : Nat → List Nat}
    (hc : ChainInv NBUF σ.st L) (h : Acct σ) (op : Op) (hs : step NBUF σ op = some τ) :
    Acct τ := by
  cases op with
  | get pid dev blockno =>
    simp only [step] at hs
    split at hs
    · next s2 b hok =>
      simp only [Option.some.injEq] at hs
      subst hs
      exact acct_bget hc h hok
    · cases hs
  | read pid dev blockno =>
    simp only [step] at hs
    split at hs
    · next s2 b hok =>
      simp only [Option.some.injEq] at hs
      subst hs
      obtain ⟨s1, hg, rfl⟩ := bread_ok hok
      have h1 := acct_bget hc h hg
      intro j
      refine acct_at { σ with st := s1 } (h1 j) ?_ ?_ rfl
      · by_cases e : j = b
        · subst e
          exact (load_fields s1 j).2.2.2
        · show (_ : Buf).refcnt = _
          rw [load_other s1 b j e]
      · by_cases e : j = b
        · subst e
          exact (load_fields s1 j).2.2.1
        · show (_ : Buf).lock = _
          rw [load_other s1 b j e]
    · cases hs
  | write pid b =>
    obtain ⟨_, _, rfl⟩ := step_write hs
    intro j
    exact acct_at σ (h j) (by simp [virtio_disk_rw]) (by simp [virtio_disk_rw]) rfl
  | release pid ticks b =>
    obtain ⟨_, hp, hok⟩ := step_release hs
    obtain ⟨hl, _, _, _, _, k2, k3⟩ := brelse_ok hok
    intro j
    by_cases e : j = b
    · subst e
      have hj := h j
      have e1 : (τ.st.buf j).refcnt = ((σ.st.buf j).refcnt + (UINT - 1)) % UINT := by
        rw [k3]
      have e2 : holders τ.st j = 0 := holders_of_free (by rw [k3])
      rw [holders_of_held pid hl] at hj
      rw [e1, e2, hp, hj]
      simp only [UINT]
      omega
    · exact acct_at σ (h j) (by rw [k2 j e]) (by rw [k2 j e]) (by rw [hp])
  | pin pid b =>
    simp only [step] at hs
    split at hs
    · next hc =>
      simp only [Option.some.injEq] at hs
      subst hs
      obtain ⟨_, _, _, _, p5, p6⟩ := bpin_spec σ.st b
      intro j
      by_cases e : j = b
      · subst e
        have hj := h j
        show ((bpin σ.st j).buf j).refcnt =
          (holders (bpin σ.st j) j + upd σ.pins j (σ.pins j + 1) j) % UINT
        have e1 : ((bpin σ.st j).buf j).refcnt = ((σ.st.buf j).refcnt + 1) % UINT := by
          rw [p6]
        have e2 : holders (bpin σ.st j) j = 1 :=
          holders_of_held pid (by rw [p6]; exact hc.2)
        have e3 : upd σ.pins j (σ.pins j + 1) j = σ.pins j + 1 := by simp [upd]
        rw [holders_of_held pid hc.2] at hj
        rw [e1, e2, e3, hj]
        simp only [UINT]
        omega
      · refine acct_at σ (h j) (by rw [p5 j e]) (by rw [p5 j e]) ?_
        simp [upd, e]
    · cases hs
  | unpin b =>
    simp only [step] at hs
    split at hs
    · next hc =>
      simp only [Option.some.injEq] at hs
      subst hs
      obtain ⟨_, _, _, _, p5, p6⟩ := bunpin_spec σ.st b
      intro j
      by_cases e : j = b
      · subst e
        have hj := h j
        have hpos := hc.2
        show ((bunpin σ.st j).buf j).refcnt =
          (holders (bunpin σ.st j) j + upd σ.pins j (σ.pins j - 1) j) % UINT
        have e1 : ((bunpin σ.st j).buf j).refcnt =
            ((σ.st.buf j).refcnt + (UINT - 1)) % UINT := by
          rw [p6]
        have e2 : holders (bunpin σ.st j) j = holders σ.st j := by
          simp only [holders]
          rw [p6]
        have e3 : upd σ.pins j (σ.pins j - 1) j = σ.pins j - 1 := by simp [upd]
        have e4 : holders σ.st j ≤ 1 := by
          simp only [holders]
          split <;> omega
        rw [e1, e2, e3, hj]
        simp only [UINT]
        omega
      · refine acct_at σ (h j) (by rw [p5 j e]) (by rw [p5 j e]) ?_
        simp [upd, e]
    · cases hs
  | store pid b d =>
    obtain ⟨_, _, rfl⟩ := step_store hs
    intro j
    refine acct_at σ (h j) ?_ ?_ rfl
    · by_cases e : j = b
      · subst e; simp
      · simp [setBuf_buf_other _ _ _ _ e]
    · by_cases e : j = b
      · subst e; simp
      · simp [setBuf_buf_other _ _ _ _ e]

/-- Every call of a trace keeps chain membership. -/
theorem step_chains {NBUF : Nat} {σ τ : Sys} {L : Nat → List Nat}
    (hc : ChainInv NBUF σ.st L) (op : Op) (hs : step NBUF σ op = some τ) :
    ∃ L2, ChainInv NBUF τ.st L2 := by
  cases op with
  | get pid dev blockno =>
    simp only [step] at hs
    split at hs
    · next s2 b hok =>
      simp only [Option.some.injEq] at hs
      subst hs
      exact chains_bget hc hok
    · cases hs
  | read pid dev blockno =>
    simp only [step] at hs
    split at hs
    · next s2 b hok =>
      simp only [Option.some.injEq] at hs
      subst hs
      obtain ⟨s1, hg, rfl⟩ := bread_ok hok
      obtain ⟨L2, h2⟩ := chains_bget hc hg
      refine ⟨L2, h2.of_links ?_ ?_⟩
      · show (if (s1.buf b).valid = 0 then _ else s1).buckets = s1.buckets
        split <;> rfl
      · intro j
        by_cases e : j = b
        · subst e
          obtain ⟨f1, f2, _, _⟩ := load_fields s1 j
          refine ⟨?_, f1, f2⟩
          show ((if (s1.buf j).valid = 0 then _ else s1).buf j).next = _
          split
          · simp [virtio_disk_rw]
          · rfl
        · show ((if (s1.buf b).valid = 0 then _ else s1).buf j).next = _ ∧
            ((if (s1.buf b).valid = 0 then _ else s1).buf j).dev = _ ∧
            ((if (s1.buf b).valid = 0 then _ else s1).buf j).blockno = _
          rw [load_other s1 b j e]
          exact ⟨rfl, rfl, rfl⟩
    · cases hs
  | write pid b =>
    obtain ⟨_, _, rfl⟩ := step_write hs
    exact ⟨L, hc.of_links (by simp [virtio_disk_rw]) (fun j => by simp [virtio_disk_rw])⟩
  | release pid ticks b =>
    obtain ⟨_, _, hok⟩ := step_release hs
    obtain ⟨_, k1, _, _, _, k2, k3⟩ := brelse_ok hok
    refine ⟨L, hc.of_links k1 ?_⟩
    intro j
    by_cases e : j = b
    · subst e; rw [k3]; exact ⟨rfl, rfl, rfl⟩
    · rw [k2 j e]; exact ⟨rfl, rfl, rfl⟩
  | pin pid b =>
    simp only [step] at hs
    split at hs
    · simp only [Option.some.injEq] at hs
      subst hs
      obtain ⟨p1, _, _, _, p5, p6⟩ := bpin_spec σ.st b
      refine ⟨L, hc.of_links p1 ?_⟩
      intro j
      by_cases e : j = b
      · subst e; rw [p6]; exact ⟨rfl, rfl, rfl⟩
      · rw [p5 j e]; exact ⟨rfl, rfl, rfl⟩
    · cases hs
  | unpin b =>
    simp only [step] at hs
    split at hs
    · simp only [Option.some.injEq] at hs
      subst hs
      obtain ⟨p1, _, _, _, p5, p6⟩ := bunpin_spec σ.st b
      refine ⟨L, hc.of_links p1 ?_⟩
      intro j
      by_cases e : j = b
      · subst e; rw [p6]; exact ⟨rfl, rfl, rfl⟩
      · rw [p5 j e]; exact ⟨rfl, rfl, rfl⟩
    · cases hs
  | store pid b d =>
    obtain ⟨_, _, rfl⟩ := step_store hs
    refine ⟨L, hc.of_links rfl ?_⟩
    intro j
    by_cases e : j = b
    · subst e; simp
    · simp [setBuf_buf_other _ _ _ _ e]

/-- Every call of a trace with unrestricted `pin` keeps chain membership and the
reference accounting. -/
theorem stepPin_keeps {NBUF : Nat} {σ τ : Sys} {L : Nat → List Nat}
    (hc : ChainInv NBUF σ.st L) (h : Acct σ) (op : Op) (hs : stepPin NBUF σ op = some τ) :
    (∃ L2, ChainInv NBUF τ.st L2) ∧ Acct τ := by
  cases op with
  | pin pid b =>
    simp only [stepPin] at hs
    split at hs
    · simp only [Option.some.injEq] at hs
      subst hs
      obtain ⟨p1, _, _, _, p5, p6⟩ := bpin_spec σ.st b
      refine ⟨⟨L, hc.of_links p1 ?_⟩, ?_⟩
      · intro j
        by_cases e : j = b
        · subst e; rw [p6]; exact ⟨rfl, rfl, rfl⟩
        · rw [p5 j e]; exact ⟨rfl, rfl, rfl⟩
      · intro j
        by_cases e : j = b
        · subst e
          have hj := h j
          show ((bpin σ.st j).buf j).refcnt =
            (holders (bpin σ.st j) j + upd σ.pins j (σ.pins j + 1) j) % UINT
          have e1 : ((bpin σ.st j).buf j).refcnt = ((σ.st.buf j).refcnt + 1) % UINT := by
            rw [p6]
          have e2 : holders (bpin σ.st j) j = holders σ.st j := by
            simp only [holders]
            rw [p6]
          have e3 : upd σ.pins j (σ.pins j + 1) j = σ.pins j + 1 := by simp [upd]
          rw [e1, e2, e3, hj]
          simp only [UINT]
          omega
        · refine acct_at σ (h j) (by rw [p5 j e]) (by rw [p5 j e]) ?_
          simp [upd, e]
    · cases hs
  | get pid dev blockno =>
    have hs2 : step NBUF σ (.get pid dev blockno) = some τ := hs
    exact ⟨step_chains hc _ hs2, step_acct hc h _ hs2⟩
  | read pid dev blockno =>
    have hs2 : step NBUF σ (.read pid dev blockno) = some τ := hs
    exact ⟨step_chains hc _ hs2, step_acct hc h _ hs2⟩
  | write pid b =>
    have hs2 : step NBUF σ (.write pid b) = some τ := hs
    exact ⟨step_chains hc _ hs2, step_acct hc h _ hs2⟩
  | release pid ticks b =>
    have hs2 : step NBUF σ (.release pid ticks b) = some τ := hs
    exact ⟨step_chains hc _ hs2, step_acct hc h _ hs2⟩
  | unpin b =>
    have hs2 : step NBUF σ (.unpin b) = some τ := hs
    exact ⟨step_chains hc _ hs2, step_acct hc h _ hs2⟩
  | store pid b d =>
    have hs2 : step NBUF σ (.store pid b d) = some τ := hs
    exact ⟨step_chains hc _ hs2, step_acct hc h _ hs2⟩

theorem runPin_keeps {NBUF : Nat} : ∀ (ops : List Op) (σ τ : Sys) (L : Nat → List Nat),
    ChainInv NBUF σ.st L → Acct σ → runPin NBUF ops σ = some τ →
    (∃ L2, ChainInv NBUF τ.st L2) ∧ Acct τ := by
  intro ops
  induction ops with
  | nil =>
    intro σ τ L hc h hr
    simp only [runPin, Option.some.injEq] at hr
    subst hr
    exact ⟨⟨L, hc⟩, h⟩
  | cons op ops ih =>
    intro σ τ L hc h hr
    simp only [runPin] at hr
    cases hs : stepPin NBUF σ op with
    | none =>
      rw [hs] at hr
      cases hr
    | some σ1 =>
      rw [hs] at hr
      obtain ⟨⟨L1, hc1⟩, h1⟩ := stepPin_keeps hc h op hs
      exact ih σ1 τ L1 hc1 h1 hr

/-- Every state reachable by a trace with unrestricted `pin` satisfies chain membership
and the reference accounting. -/
theorem reachablePin_keeps {NBUF : Nat} {σ : Sys} (h : ReachablePin NBUF σ) :
    ChainMembership NBUF σ.st ∧ Acct σ := by
  obtain ⟨d, ops, hr⟩ := h
  refine runPin_keeps ops _ _ _ (init_inv NBUF d).chains ?_ hr
  intro j
  obtain ⟨_, _, _, f4, f5⟩ := init_fields NBUF d j
  show ((init NBUF d).st.buf j).refcnt = (holders (init NBUF d).st j + 0) % UINT
  rw [f4, holders_of_free f5]
  rfl

theorem stepPin_of_step {NBUF : Nat} {σ τ : Sys} {op : Op} (h : step NBUF σ op = some τ) :
    stepPin NBUF σ op = some τ := by
  cases op with
  | pin pid b =>
    simp only [step] at h
    split at h
    · next hc =>
      simp only [stepPin, hc.1, if_true]
      exact h
    · cases h
  | get pid dev blockno => exact h
  | read pid dev blockno => exact h
  | write pid b => exact h
  | release pid ticks b => exact h
  | unpin b => exact h
  | store pid b d => exact h

theorem runPin_of_run {NBUF : Nat} : ∀ (ops : List Op) (σ τ : Sys),
    run NBUF ops σ = some τ → runPin NBUF ops σ = some τ := by
  intro ops
  induction ops with
  | nil => intro σ τ h; exact h
  | cons op ops ih =>
    intro σ τ h
    obtain ⟨σ1, h1, h2⟩ := run_cons_some h
    simp only [runPin, stepPin_of_step h1]
    exact ih σ1 τ h2

/-- A state reachable when `pin` is restricted to the holder is reachable when it is
not. -/
theorem reachablePin_of_reachable {NBUF : Nat} {σ : Sys} (h : Reachable NBUF σ) :
    ReachablePin NBUF σ := by
  obtain ⟨d, ops, hr⟩ := h
  exact ⟨d, ops, runPin_of_run ops _ _ hr⟩

/-- C20 (as amended).  In every state reachable from init by a single-threaded trace of
get/read, write, release, pin and unpin that respects the preconditions, the `refcnt` of
every buffer is the number of holders of its sleep lock plus the number of its outstanding
pins, modulo `2^32`.  So for every buffer with fewer than `2^32 - 1` outstanding pins: if
`refcnt == 0` its sleep lock is free, if its sleep lock is held `refcnt >= 1`, and the
decrement of `brelse` does not wrap; and when this holds of all buffers of the pool, a miss
of `bget` never blocks on the sleep lock of its victim. -/
theorem C20_refcnt_zero_lock_free (NBUF : Nat) (σ : Sys) (hreach : ReachablePin NBUF σ) :
    (∀ j, (σ.st.buf j).refcnt = (holders σ.st j + σ.pins j) % UINT) ∧
    (∀ j, σ.pins j + 1 < UINT →
      ((σ.st.buf j).refcnt = 0 → (σ.st.buf j).lock = none) ∧
      ((σ.st.buf j).lock ≠ none → 1 ≤ (σ.st.buf j).refcnt) ∧
      (∀ pid ticks s2, brelse pid ticks σ.st j = .ok s2 () →
        (s2.buf j).refcnt + 1 = (σ.st.buf j).refcnt)) ∧
    ((∀ j, j < NBUF → σ.pins j + 1 < UINT) →
      ∀ pid dev blockno, ¬ resident NBUF σ.st dev blockno →
        ∀ s2 b, bget NBUF pid σ.st dev blockno ≠ .blocked s2 b) := by
  obtain ⟨⟨L, hc⟩, hacct⟩ := reachablePin_keeps hreach
  have hheld : ∀ j, σ.pins j + 1 < UINT → (σ.st.buf j).lock ≠ none →
      (σ.st.buf j).refcnt = 1 + σ.pins j := by
    intro j hp hl
    have hj := hacct j
    have hh : holders σ.st j = 1 := by simp [holders, hl]
    rw [hh] at hj
    rw [hj]
    exact Nat.mod_eq_of_lt (by omega)
  have hzero : ∀ j, σ.pins j + 1 < UINT → (σ.st.buf j).refcnt = 0 →
      (σ.st.buf j).lock = none := by
    intro j hp h0
    by_contra hl
    have := hheld j hp hl
    omega
  refine ⟨hacct, ?_, ?_⟩
  · intro j hp
    refine ⟨hzero j hp, ?_, ?_⟩
    · intro hl
      rw [hheld j hp hl]
      omega
    · intro pid ticks s2 hok
      obtain ⟨hl, _, _, _, _, _, k3⟩ := brelse_ok hok
      have hr := hheld j hp (by rw [hl]; simp)
      rw [k3]
      show ((σ.st.buf j).refcnt + (UINT - 1)) % UINT + 1 = (σ.st.buf j).refcnt
      rw [hr]
      simp only [UINT] at hp ⊢
      omega
  · intro hall pid dev blockno hres s2 b hblk
    obtain ⟨hb, pre, post, hhb, hL, _, h0, _⟩ := bget_miss_cases hc hres (Or.inr hblk)
    have hbN : b < NBUF := hc.pool hb hhb b (by rw [hL]; simp)
    obtain ⟨s3, b3, hok⟩ := bget_miss_ok pid hc hres hbN h0
      (fun k hk hk0 => hzero k (hall k hk) hk0)
    rw [hok] at hblk
    cases hblk

/-- Witness of C20: the state after `read(1,1)` by process 7 on a cache of two buffers. -/
theorem C20_refcnt_zero_lock_free_witness :
    ReachablePin 2 (after 2 [.read 7 1 1]) ∧
    ((∀ j, ((after 2 [.read 7 1 1]).st.buf j).refcnt =
        (holders (after 2 [.read 7 1 1]).st j + (after 2 [.read 7 1 1]).pins j) % UINT) ∧
    (∀ j, (after 2 [.read 7 1 1]).pins j + 1 < UINT →
      (((after 2 [.read 7 1 1]).st.buf j).refcnt = 0 →
        ((after 2 [.read 7 1 1]).st.buf j).lock = none) ∧
      (((after 2 [.read 7 1 1]).st.buf j).lock ≠ none →
        1 ≤ ((after 2 [.read 7 1 1]).st.buf j).refcnt) ∧
      (∀ pid ticks s2, brelse pid ticks (after 2 [.read 7 1 1]).st j = .ok s2 () →
        (s2.buf j).refcnt + 1 = ((after 2 [.read 7 1 1]).st.buf j).refcnt)) ∧
    ((∀ j, j < 2 → (after 2 [.read 7 1 1]).pins j + 1 < UINT) →
      ∀ pid dev blockno, ¬ resident 2 (after 2 [.read 7 1 1]).st dev blockno →
        ∀ s2 b, bget 2 pid (after 2 [.read 7 1 1]).st dev blockno ≠ .blocked s2 b)) :=
  ⟨⟨blankDisk, [.read 7 1 1], rfl⟩,
    C20_refcnt_zero_lock_free 2 (after 2 [.read 7 1 1]) ⟨blankDisk, [.read 7 1 1], rfl⟩⟩

/-- Counterexample to C20: the trace `read(1,1)` followed by `2^32 - 1` calls of `pin` by
the holder respects the preconditions; in the state it reaches, the buffer has
`refcnt == 0` while process 7 holds its sleep lock, and the `brelse` of the holder wraps
`refcnt` below zero to `2^32 - 1`. -/
theorem C20_counterexample :
    ∃ τ, run 1 wrapHeldTrace (init 1 blankDisk) = some τ ∧ Reachable 1 τ ∧ ReachablePin 1 τ ∧
      (τ.st.buf 0).refcnt = 0 ∧ (τ.st.buf 0).lock = some 7 ∧
      ¬ (τ.pins 0 + 1 < UINT) ∧
      ∃ s2, brelse 7 5 τ.st 0 = .ok s2 () ∧ (s2.buf 0).refcnt = 4294967295 := by
  obtain ⟨τ, t1, _, t3⟩ := wrap_held
  have hr : Reachable 1 τ := ⟨blankDisk, wrapHeldTrace, t1⟩
  have lτ : (τ.st.buf 0).lock = some 7 := by rw [t3]; decide
  have h0 : (τ.st.buf 0).refcnt = 0 := by rw [t3]
  obtain ⟨s2, hs2⟩ := brelse_of_held 5 lτ
  obtain ⟨_, _, _, _, _, _, k4⟩ := brelse_ok hs2
  refine ⟨τ, t1, hr, reachablePin_of_reachable hr, h0, lτ, ?_, s2, hs2, ?_⟩
  · intro hp
    have hj := (reachablePin_keeps (reachablePin_of_reachable hr)).2 0
    rw [h0, holders_of_held 7 lτ] at hj
    simp only [UINT] at hj hp
    omega
  · rw [k4, h0]
    simp [UINT]

end Bio
